import Mathlib

/-!
# nAudio: square-wave note player (nAudio.h / nAudio.cpp)

A shallow embedding of the `CAudio` engine and of its `Endpoint` channels.

* Machine integers are natural numbers; every store into a `uint8_t` field is
  reduced `% 256`, every store into a `uint16_t` field `% 65536`.
* A stream (`StreamFunc` together with its `context`) is a function from the
  offset to the value returned; the callers reduce the offset `% 65536`
  (parameter type `uint16_t`) and the value `% 256` (return type `uint8_t`).
* The output registers are a map from the register address (`port`) to its
  8-bit content.
* `Endpoint::next` is recursive on `TEMPO` tokens: the embedding takes the
  number of recursive calls allowed (`fuel`) and fails with
  `Fault.out_of_fuel` when that number is exceeded.
-/

namespace nAudio

/-! ## Tables and token values (nAudio.h:37-89) -/

/-- The frequency table `audio_note` (nAudio.h:37-56). -/
def audio_note : List Nat :=
  [    1,
      65,   69,   73,   78,   82,   87,
      92,   98,  104,  110,  117,  123,
     131,  139,  147,  156,  165,  175,
     185,  196,  208,  220,  233,  247,
     262,  277,  294,  311,  330,  349,
     370,  392,  415,  440,  466,  494,
     523,  554,  587,  622,  659,  698,
     740,  784,  831,  880,  932,  988,
    1046, 1109, 1175, 1245, 1319, 1397,
    1480, 1568, 1661, 1760, 1865, 1976,
    2093, 2217, 2349, 2489, 2637, 2794,
    2960, 3136, 3322, 3520, 3729, 3951,
    4186, 4435, 4699, 4978, 5274, 5588,
    5920, 6272, 6645, 7040, 7459, 7902,
    1500, 1525, 1550, 1575,
    1600, 1625, 1650, 1675 ]

/-- Token `NRS` of `enum NOTE` (the rest), value 0. -/
abbrev NRS : Nat := 0
/-- Token `NC4` of `enum NOTE`, value 25. -/
abbrev NC4 : Nat := 25
/-- Token `NS7` of `enum NOTE`, the last pitch, value 92. -/
abbrev NS7 : Nat := 92
/-- Token `END` of `enum NOTE`: 1 rest + 84 notes + 8 sounds precede it. -/
abbrev END : Nat := 93
/-- Token `TEMPO` of `enum NOTE`. -/
abbrev TEMPO : Nat := 94
/-- Duration token `DTS`, the first duration modifier. -/
abbrev DTS : Nat := 95
/-- Duration token `DS`. -/
abbrev DS : Nat := 96
/-- Duration token `DTE`. -/
abbrev DTE : Nat := 97
/-- Duration token `DE`. -/
abbrev DE : Nat := 98
/-- Duration token `DTQ`. -/
abbrev DTQ : Nat := 99
/-- Duration token `DDE`. -/
abbrev DDE : Nat := 100
/-- Duration token `DQ` (quarter note, the default of `stop`). -/
abbrev DQ : Nat := 101
/-- Duration token `DTH`. -/
abbrev DTH : Nat := 102
/-- Duration token `DDQ`. -/
abbrev DDQ : Nat := 103
/-- Duration token `DH`. -/
abbrev DH : Nat := 104
/-- Duration token `DDH`. -/
abbrev DDH : Nat := 105
/-- Duration token `DW`. -/
abbrev DW : Nat := 106
/-- Duration token `DBLIP`, the last value of `enum NOTE`. -/
abbrev DBLIP : Nat := 107

/-- Base duration `_BASE` (nAudio.h:83). -/
abbrev _BASE : Nat := 3

/-- The duration table `audio_duration` (nAudio.h:85-89). -/
def audio_duration : List Nat :=
  [ (_BASE * 2) / 3, _BASE * 1, (_BASE * 4) / 3, _BASE * 2, (_BASE * 8) / 3, _BASE * 3,
    _BASE * 4, (_BASE * 16) / 3, _BASE * 6, _BASE * 8, _BASE * 12, _BASE * 16, 1 ]

/-- Constant `CAudio::FREQUENCY` (nAudio.h:94). -/
abbrev FREQUENCY : Nat := 64000
/-- Constant `CAudio::COUNT` (nAudio.h:95). -/
abbrev COUNT : Nat := 3

/-- The read `pgm_read_word(&(audio_duration[i]))` of nAudio.h:221 at the signed
index `i`.  Inside the table it is the table entry; outside the table the
16-bit word found in program memory there is not fixed by the source and is
taken from `flash`. -/
def read_audio_duration (flash : Int → Nat) (i : Int) : Nat :=
  if 0 ≤ i ∧ i < (audio_duration.length : Int) then audio_duration.getD i.toNat 0
  else flash i % 65536

/-! ## Endpoint (nAudio.h:145-268) -/

/-- A stream function with its context: offset to token. -/
abbrev StreamFunc : Type := Nat → Nat

/-- Failure of an embedded operation. -/
inductive Fault where
  | out_of_fuel
  | out_of_bounds
  deriving DecidableEq, Repr

/-- The fields of `class Endpoint` (nAudio.h:149-162). -/
structure Endpoint where
  active : Bool
  port : Nat
  mask : Nat
  multiplier : Nat
  duration : Nat
  index : Nat
  ms_remaining : Nat
  period : Nat
  period_remaining : Nat
  stream : StreamFunc

/-- What the endpoints share: the static `endpoint_count` (nAudio.h:143) and the
output registers that the `port` pointers address. -/
structure Globals where
  endpoint_count : Nat
  mem : Nat → Nat

/-- Method `Endpoint::stop` (nAudio.h:171-181). -/
def Endpoint.stop (e : Endpoint) (g : Globals) : Endpoint × Globals :=
  let e1 : Endpoint := if e.active then { e with active := false } else e
  let count1 : Nat := if e.active then (g.endpoint_count + 255) % 256 else g.endpoint_count
  ({ e1 with duration := DQ },
   { endpoint_count := count1,
     mem := Function.update g.mem e.port (g.mem e.port &&& (255 ^^^ (e.mask % 256))) })

/-- Method `Endpoint::next` (nAudio.h:197-237); `fuel` bounds the recursive calls. -/
def Endpoint.next (flash : Int → Nat) :
    Nat → Endpoint → Globals → Except Fault (Endpoint × Globals)
  | fuel, e, g =>
    let note_f : Nat := e.stream ((e.index + 0) % 65536) % 256
    if note_f < END then
      let frequency : Nat := audio_note.getD note_f 0
      let next_value : Nat := e.stream ((e.index + 1) % 65536) % 256
      let e1 : Endpoint :=
        if next_value > TEMPO then
          { e with duration := next_value, index := (e.index + 2) % 65536 }
        else
          { e with index := (e.index + 1) % 65536 }
      let ms : Nat :=
        (e1.multiplier * read_audio_duration flash ((e1.duration : Int) - TEMPO - 1)) % 65536
      let period : Nat := (FREQUENCY / frequency) % 65536
      .ok ({ e1 with ms_remaining := ms, period := period, period_remaining := period }, g)
    else if note_f = TEMPO then
      match fuel with
      | 0 => .error Fault.out_of_fuel
      | n + 1 =>
        Endpoint.next flash n
          { e with multiplier := e.stream ((e.index + 1) % 65536) % 256,
                   index := (e.index + 2) % 65536 } g
    else
      .ok (e.stop g)

/-- Method `Endpoint::assign` (nAudio.h:183-193). -/
def Endpoint.assign (flash : Int → Nat) (fuel : Nat) (descriptor : StreamFunc)
    (e : Endpoint) (g : Globals) : Except Fault (Endpoint × Globals) :=
  let e0 : Endpoint := { e with stream := descriptor }
  let (e1, g1) := e0.stop g
  let e2 : Endpoint := { e1 with active := true }
  let e3 : Endpoint := { e2 with multiplier := e2.stream 0 % 256 }
  let e4 : Endpoint := { e3 with index := 1 }
  Endpoint.next flash fuel e4 g1

/-- Method `Endpoint::toggle` (nAudio.h:241-244). -/
def Endpoint.toggle (e : Endpoint) (g : Globals) : Globals :=
  { g with mem := Function.update g.mem e.port ((g.mem e.port ^^^ (e.mask % 256)) % 256) }

/-- Method `Endpoint::tick` (nAudio.h:246-256). -/
def Endpoint.tick (e : Endpoint) (g : Globals) : Endpoint × Globals :=
  if e.active then
    let e1 : Endpoint := { e with period_remaining := (e.period_remaining + 65535) % 65536 }
    if e1.period_remaining = 0 then
      let e2 : Endpoint := { e1 with period_remaining := e1.period }
      (e2, e2.toggle g)
    else (e1, g)
  else (e, g)

/-- Method `Endpoint::tock` (nAudio.h:258-267). -/
def Endpoint.tock (flash : Int → Nat) (fuel : Nat) (e : Endpoint) (g : Globals) :
    Except Fault (Endpoint × Globals) :=
  if e.active then
    let e1 : Endpoint := { e with ms_remaining := (e.ms_remaining + 65535) % 65536 }
    if e1.ms_remaining = 0 then Endpoint.next flash fuel e1 g
    else .ok (e1, g)
  else .ok (e, g)

/-! ## CAudio (nAudio.h:91-281, nAudio.cpp) -/

/-- The state of the engine: the array `endpoint[COUNT]`, the state shared by
the endpoints, the timer compare interrupt enable bit `OCIE1A` of `TIMSK1`, and
the static local `count` of `InterruptMultipleStreams`. -/
structure CAudio where
  endpoint : Fin COUNT → Endpoint
  globals : Globals
  interrupt_enabled : Bool
  count : Nat

/-- The values taken by `index` in `for (index = 0; index < COUNT; index++)`. -/
def indices : List (Fin COUNT) := List.finRange COUNT

/-- Store the state left by a method of `endpoint[i]` back into the engine. -/
def CAudio.put (a : CAudio) (i : Fin COUNT) (r : Endpoint × Globals) : CAudio :=
  { a with endpoint := Function.update a.endpoint i r.1, globals := r.2 }

/-- Run a method of `endpoint[i]` inside the engine. -/
def CAudio.run (a : CAudio) (i : Fin COUNT) (m : Endpoint → Globals → Endpoint × Globals) :
    CAudio :=
  a.put i (m (a.endpoint i) a.globals)

/-- Run a method of `endpoint[i]` that may fail inside the engine. -/
def CAudio.runM (a : CAudio) (i : Fin COUNT)
    (m : Endpoint → Globals → Except Fault (Endpoint × Globals)) : Except Fault CAudio :=
  match m (a.endpoint i) a.globals with
  | .ok r => .ok (a.put i r)
  | .error f => .error f

/-- Method `CAudio::EnableInterrupt` (nAudio.h:272-275). -/
def CAudio.EnableInterrupt (a : CAudio) : CAudio := { a with interrupt_enabled := true }

/-- Method `CAudio::DisableInterrupt` (nAudio.h:277-280). -/
def CAudio.DisableInterrupt (a : CAudio) : CAudio := { a with interrupt_enabled := false }

/-- Method `CAudio::IsActive` (nAudio.h:115-118). -/
def CAudio.IsActive (a : CAudio) : Bool := a.globals.endpoint_count != 0

/-- Method `CAudio::Stop` (nAudio.cpp:96-104). -/
def CAudio.Stop (a : CAudio) : CAudio :=
  indices.foldl (fun b index => b.run index Endpoint.stop) a.DisableInterrupt

/-- The first loop of `CAudio::Play` (nAudio.cpp:68-75): one `endpoint_count++`
for each descriptor (`d != nullptr` holds for every element of the list). -/
def CAudio.Play_count : List StreamFunc → CAudio → CAudio
  | [], a => a
  | _ :: ds, a =>
    CAudio.Play_count ds
      { a with globals := { a.globals with
                 endpoint_count := (a.globals.endpoint_count + 1) % 256 } }

/-- The second loop of `CAudio::Play` (nAudio.cpp:83-90), from the value `index`
of the loop counter on.  `endpoint[index]` with `index >= COUNT` lies outside
the array: the access is undefined and is the failure `Fault.out_of_bounds`. -/
def CAudio.Play_assign (flash : Int → Nat) (fuel : Nat) :
    List StreamFunc → Nat → CAudio → Except Fault CAudio
  | [], _, a => .ok a
  | d :: ds, index, a =>
    if h : index < COUNT then
      match a.runM ⟨index, h⟩ (Endpoint.assign flash fuel d) with
      | .ok b => CAudio.Play_assign flash fuel ds ((index + 1) % 256) b
      | .error f => .error f
    else .error Fault.out_of_bounds

/-- Method `CAudio::Play` (nAudio.cpp:56-93).  The writes to the timer registers
`TCCR1A`, `TCCR1B`, `TCNT1` and `OCR1A` touch no modelled state. -/
def CAudio.Play (flash : Int → Nat) (fuel : Nat) (descriptors : List StreamFunc)
    (a : CAudio) : Except Fault CAudio :=
  match CAudio.Play_assign flash fuel descriptors 0 (CAudio.Play_count descriptors a.Stop) with
  | .ok b => .ok b.EnableInterrupt
  | .error f => .error f

/-- The second loop of `CAudio::InterruptMultipleStreams` (nAudio.cpp:121-124). -/
def CAudio.tock_all (flash : Int → Nat) (fuel : Nat) :
    List (Fin COUNT) → CAudio → Except Fault CAudio
  | [], a => .ok a
  | index :: rest, a =>
    match a.runM index (Endpoint.tock flash fuel) with
    | .ok b => CAudio.tock_all flash fuel rest b
    | .error f => .error f

/-- Method `CAudio::InterruptMultipleStreams` (nAudio.cpp:106-132). -/
def CAudio.InterruptMultipleStreams (flash : Int → Nat) (fuel : Nat) (a : CAudio) :
    Except Fault CAudio :=
  let a1 : CAudio := indices.foldl (fun b index => b.run index Endpoint.tick) a
  let old : Nat := a1.count
  let a2 : CAudio := { a1 with count := (old + 1) % 256 }
  if old ≥ FREQUENCY / 1000 then
    let a3 : CAudio := { a2 with count := 0 }
    match CAudio.tock_all flash fuel indices a3 with
    | .ok a4 => if !a4.IsActive then .ok a4.DisableInterrupt else .ok a4
    | .error f => .error f
  else .ok a2

/-- The state right after the constructor `CAudio::CAudio` (nAudio.cpp:36-54)
and the static initialisers: `endpoint_count = 0` (nAudio.cpp:34), `count = 0`
(nAudio.cpp:109) and `active = false` in every endpoint (nAudio.h:149); the
other fields are whatever the constructor and the pin macros left there. -/
def CAudio.constructed (a : CAudio) : Bool :=
  a.globals.endpoint_count == 0 && a.count == 0 && indices.all (fun i => !(a.endpoint i).active)

/-- The engine states reached from construction by calls of `Play`, `Stop` and
`InterruptMultipleStreams` that return. -/
inductive Reachable (flash : Int → Nat) : CAudio → Prop where
  | init (a : CAudio) : a.constructed = true → Reachable flash a
  | play (fuel : Nat) (descriptors : List StreamFunc) (a b : CAudio) :
      Reachable flash a → a.Play flash fuel descriptors = .ok b → Reachable flash b
  | stop (a : CAudio) : Reachable flash a → Reachable flash a.Stop
  | dispatch (fuel : Nat) (a b : CAudio) :
      Reachable flash a → a.InterruptMultipleStreams flash fuel = .ok b → Reachable flash b

/-- The number of endpoints whose `active` flag is set. -/
def CAudio.active_count (a : CAudio) : Nat :=
  (indices.filter (fun i => (a.endpoint i).active)).length

/-- The pin of an endpoint is low: the bits of `mask` are clear in `*port`. -/
def Endpoint.pin_low (e : Endpoint) (g : Globals) : Prop :=
  g.mem e.port &&& (e.mask % 256) = 0

/-- Repeat `Endpoint::tick` `n` times. -/
def tick_n : Nat → Endpoint → Globals → Endpoint × Globals
  | 0, e, g => (e, g)
  | n + 1, e, g => let r := e.tick g; tick_n n r.1 r.2

/-- Repeat `Endpoint::tock` `n` times. -/
def tock_n (flash : Int → Nat) (fuel : Nat) :
    Nat → Endpoint → Globals → Except Fault (Endpoint × Globals)
  | 0, e, g => .ok (e, g)
  | n + 1, e, g =>
    match e.tock flash fuel g with
    | .ok r => tock_n flash fuel n r.1 r.2
    | .error f => .error f

/-- Repeat `CAudio::InterruptMultipleStreams` `n` times. -/
def dispatch_n (flash : Int → Nat) (fuel : Nat) : Nat → CAudio → Except Fault CAudio
  | 0, a => .ok a
  | n + 1, a =>
    match a.InterruptMultipleStreams flash fuel with
    | .ok b => dispatch_n flash fuel n b
    | .error f => .error f

/-- A stream that serves the bytes of a buffer and `END` past its end. -/
def buffer_stream (data : List Nat) : StreamFunc := fun offset => data.getD offset END

/-- An endpoint left active by an earlier playback, bound to bit 2 of register 5. -/
def sample_endpoint : Endpoint :=
  { active := true, port := 5, mask := 4, multiplier := 9, duration := DW, index := 7,
    ms_remaining := 9, period := 9, period_remaining := 9, stream := buffer_stream [] }

/-- Shared state with two endpoints counted and every output register at `0xFF`. -/
def sample_globals : Globals := { endpoint_count := 2, mem := fun _ => 255 }

/-- The endpoint that `assign` hands to `next` for `[1, NC4, DH, END]`: active,
multiplier 1, cursor on the pitch. -/
def fresh_endpoint : Endpoint :=
  { sample_endpoint with
    stream := buffer_stream [1, NC4, DH, END], duration := DQ, multiplier := 1, index := 1 }

/-- The endpoint `fresh_endpoint` after `next` has decoded its pitch. -/
def primed_endpoint : Endpoint :=
  { fresh_endpoint with
    duration := DH, index := 3, ms_remaining := 24, period := 244, period_remaining := 244 }

/-- The shared state after `sample_endpoint` was stopped: one endpoint counted. -/
def stopped_globals : Globals := (sample_endpoint.stop sample_globals).2

/-- The engine invariant: `endpoint_count` is the number of active endpoints. -/
def CAudio.consistent (a : CAudio) : Prop := a.globals.endpoint_count = a.active_count

/-- How a method may change `active` and `endpoint_count` together: not at all,
or from active to inactive with one `endpoint_count--`. -/
def Tracks (e : Endpoint) (g : Globals) (r : Endpoint × Globals) : Prop :=
  (r.1.active = e.active ∧ r.2.endpoint_count = g.endpoint_count) ∨
  (e.active = true ∧ r.1.active = false ∧
    r.2.endpoint_count = (g.endpoint_count + 255) % 256)

/-- An engine right after construction on bits 0, 1, 2 of register 5. -/
def idle_engine : CAudio :=
  { endpoint := fun i =>
      { sample_endpoint with active := false, mask := 2 ^ i.val }
    globals := { endpoint_count := 0, mem := fun _ => 0 }
    interrupt_enabled := false
    count := 0 }

/-- The enumeration `NOTE` (nAudio.h:58-81), in the order of the source; the
value of a token is the index of its constructor. -/
inductive NOTE where
  | NRS
  | NC2 | NCS2 | ND2 | NDS2 | NE2 | NF2
  | NFS2 | NG2 | NGS2 | NA2 | NAS2 | NB2
  | NC3 | NCS3 | ND3 | NDS3 | NE3 | NF3
  | NFS3 | NG3 | NGS3 | NA3 | NAS3 | NB3
  | NC4 | NCS4 | ND4 | NDS4 | NE4 | NF4
  | NFS4 | NG4 | NGS4 | NA4 | NAS4 | NB4
  | NC5 | NCS5 | ND5 | NDS5 | NE5 | NF5
  | NFS5 | NG5 | NGS5 | NA5 | NAS5 | NB5
  | NC6 | NCS6 | ND6 | NDS6 | NE6 | NF6
  | NFS6 | NG6 | NGS6 | NA6 | NAS6 | NB6
  | NC7 | NCS7 | ND7 | NDS7 | NE7 | NF7
  | NFS7 | NG7 | NGS7 | NA7 | NAS7 | NB7
  | NC8 | NCS8 | ND8 | NDS8 | NE8 | NF8
  | NFS8 | NG8 | NGS8 | NA8 | NAS8 | NB8
  | NS0 | NS1 | NS2 | NS3
  | NS4 | NS5 | NS6 | NS7
  | END | TEMPO
  | DTS | DS | DTE | DE | DTQ | DDE
  | DQ | DTH | DDQ | DH | DDH | DW
  | DBLIP
  deriving DecidableEq, Repr

/-- The value of a token of `NOTE` as `uint8_t`. -/
def NOTE.value (t : NOTE) : Nat := t.toCtorIdx

/-- All the tokens of `NOTE`, by increasing value. -/
def NOTE.all : List NOTE := (List.range 108).map NOTE.ofNat

/-- The tokens that `next` decodes as a pitch other than the rest `NRS`:
those with a value strictly between `NRS` and `END`. -/
def NOTE.pitched : List NOTE :=
  NOTE.all.filter (fun t => NOTE.NRS.value < t.value && t.value < NOTE.END.value)

/-- The duration modifiers: the tokens declared after `TEMPO`. -/
def NOTE.modifiers : List NOTE :=
  [NOTE.DTS, NOTE.DS, NOTE.DTE, NOTE.DE, NOTE.DTQ, NOTE.DDE,
   NOTE.DQ, NOTE.DTH, NOTE.DDQ, NOTE.DH, NOTE.DDH, NOTE.DW, NOTE.DBLIP]

/-- The effect of `*port &= ~mask` (nAudio.h:180) on the output registers. -/
def clear_pin (port mask : Nat) (mem : Nat → Nat) : Nat → Nat :=
  Function.update mem port (mem port &&& (255 ^^^ (mask % 256)))

/-- Two endpoints agree on what `next` reads: `active`, `duration`,
`multiplier`, `index` and the stream. -/
def Endpoint.same_cursor (e e' : Endpoint) : Prop :=
  e.active = e'.active ∧ e.duration = e'.duration ∧ e.multiplier = e'.multiplier ∧
  e.index = e'.index ∧ e.stream = e'.stream

/-- Two endpoints agree on `active`, `duration`, `multiplier` and `index`, and,
when active, on `period`, `period_remaining` and `ms_remaining` as well. -/
def Endpoint.same_decoded (e e' : Endpoint) : Prop :=
  e.active = e'.active ∧ e.duration = e'.duration ∧ e.multiplier = e'.multiplier ∧
  e.index = e'.index ∧
  (e.active = true → e.period = e'.period ∧ e.period_remaining = e'.period_remaining ∧
    e.ms_remaining = e'.ms_remaining)

/-- The endpoint on which `next` takes its final decision after `k` recursive
calls on `TEMPO` tokens: `multiplier` is the token that followed the last
`TEMPO`, `index` has advanced by `2 * k` (as `uint16_t`). -/
def tempo_chain_end (e : Endpoint) : Nat → Endpoint
  | 0 => e
  | k + 1 =>
    { e with multiplier := e.stream ((e.index + 2 * k + 1) % 65536) % 256
             index := (e.index + 2 * k + 2) % 65536 }

/-- The endpoints are bound to distinct pins: two of them differ in the output
register or have no mask bit in common. -/
def CAudio.distinct_pins (a : CAudio) : Prop :=
  ∀ i j : Fin COUNT, i ≠ j →
    (a.endpoint i).port ≠ (a.endpoint j).port ∨
    ((a.endpoint i).mask % 256) &&& ((a.endpoint j).mask % 256) = 0

/-- Every endpoint with `active = false` has its pin low. -/
def CAudio.inactive_low (a : CAudio) : Prop :=
  ∀ i : Fin COUNT, (a.endpoint i).active = false → (a.endpoint i).pin_low a.globals

/-- The engine states reached from the state `a0` by calls of `Play`, `Stop` and
`InterruptMultipleStreams` that return. -/
inductive ReachableFrom (flash : Int → Nat) (a0 : CAudio) : CAudio → Prop where
  | start : ReachableFrom flash a0 a0
  | play (fuel : Nat) (descriptors : List StreamFunc) (a b : CAudio) :
      ReachableFrom flash a0 a → a.Play flash fuel descriptors = .ok b →
      ReachableFrom flash a0 b
  | stop (a : CAudio) : ReachableFrom flash a0 a → ReachableFrom flash a0 a.Stop
  | dispatch (fuel : Nat) (a b : CAudio) :
      ReachableFrom flash a0 a → a.InterruptMultipleStreams flash fuel = .ok b →
      ReachableFrom flash a0 b

/-- What a method of an endpoint may do to the pins: it keeps `port` and `mask`,
it leaves low every pin that shares no bit with its own, and it leaves its own
pin low whenever it leaves the endpoint inactive. -/
def PinSafe (e : Endpoint) (g : Globals) (r : Endpoint × Globals) : Prop :=
  r.1.port = e.port ∧ r.1.mask = e.mask ∧
  (∀ x m : Nat, (x ≠ e.port ∨ (m % 256) &&& (e.mask % 256) = 0) →
    g.mem x &&& (m % 256) = 0 → r.2.mem x &&& (m % 256) = 0) ∧
  ((e.active = false → e.pin_low g) → r.1.active = false → r.1.pin_low r.2)

/-- The pin invariant of the engine: distinct pins, and inactive endpoints low. -/
def CAudio.pins_ok (a : CAudio) : Prop := a.distinct_pins ∧ a.inactive_low

/-! ## The statements of `Play`, one state per statement -/

/-- The states after each statement of `Endpoint::stop` (nAudio.h:173-180):
`active = false`, `endpoint_count--` (both only when active), `duration = DQ`,
`*port &= ~mask`. -/
def Endpoint.stop_steps (e : Endpoint) (g : Globals) : List (Endpoint × Globals) :=
  let e1 : Endpoint := if e.active then { e with active := false } else e
  let count1 : Nat := if e.active then (g.endpoint_count + 255) % 256 else g.endpoint_count
  (if e.active then
      [(e1, g), (e1, { g with endpoint_count := count1 })]
    else []) ++
  [({ e1 with duration := DQ }, { g with endpoint_count := count1 }), e.stop g]

/-- The states after each statement of `Endpoint::next` (nAudio.h:201-236). -/
def Endpoint.next_steps (flash : Int → Nat) :
    Nat → Endpoint → Globals → Except Fault (List (Endpoint × Globals))
  | fuel, e, g =>
    let note_f : Nat := e.stream ((e.index + 0) % 65536) % 256
    if note_f < END then
      let frequency : Nat := audio_note.getD note_f 0
      let next_value : Nat := e.stream ((e.index + 1) % 65536) % 256
      let e1 : Endpoint :=
        if next_value > TEMPO then
          { e with duration := next_value, index := (e.index + 2) % 65536 }
        else
          { e with index := (e.index + 1) % 65536 }
      let ms : Nat :=
        (e1.multiplier * read_audio_duration flash ((e1.duration : Int) - TEMPO - 1)) % 65536
      let period : Nat := (FREQUENCY / frequency) % 65536
      .ok ((if next_value > TEMPO then [({ e with duration := next_value }, g), (e1, g)]
            else [(e1, g)]) ++
        [({ e1 with ms_remaining := ms }, g),
         ({ e1 with ms_remaining := ms, period := period }, g),
         ({ e1 with ms_remaining := ms, period := period, period_remaining := period }, g)])
    else if note_f = TEMPO then
      match fuel with
      | 0 => .error Fault.out_of_fuel
      | n + 1 =>
        let e1 : Endpoint := { e with multiplier := e.stream ((e.index + 1) % 65536) % 256 }
        let e2 : Endpoint := { e1 with index := (e.index + 2) % 65536 }
        match Endpoint.next_steps flash n e2 g with
        | .ok l => .ok ((e1, g) :: (e2, g) :: l)
        | .error f => .error f
    else
      .ok (e.stop_steps g)

/-- The states after each statement of `Endpoint::assign` (nAudio.h:185-192). -/
def Endpoint.assign_steps (flash : Int → Nat) (fuel : Nat) (descriptor : StreamFunc)
    (e : Endpoint) (g : Globals) : Except Fault (List (Endpoint × Globals)) :=
  let e0 : Endpoint := { e with stream := descriptor }
  let r := e0.stop g
  let e2 : Endpoint := { r.1 with active := true }
  let e3 : Endpoint := { e2 with multiplier := e2.stream 0 % 256 }
  let e4 : Endpoint := { e3 with index := 1 }
  match Endpoint.next_steps flash fuel e4 r.2 with
  | .ok l => .ok ((e0, g) :: e0.stop_steps g ++ [(e2, r.2), (e3, r.2), (e4, r.2)] ++ l)
  | .error f => .error f

/-- The engine states that correspond to the states `l` of `endpoint[i]`. -/
def CAudio.lift (c : CAudio) (i : Fin COUNT) (l : List (Endpoint × Globals)) : List CAudio :=
  l.map (c.put i)

/-- The states after each statement of `CAudio::Stop` (nAudio.cpp:98-103). -/
def CAudio.Stop_steps (a : CAudio) : List CAudio :=
  let a0 : CAudio := a.DisableInterrupt
  let a1 : CAudio := a0.run 0 Endpoint.stop
  let a2 : CAudio := a1.run 1 Endpoint.stop
  [a0] ++ a0.lift 0 ((a0.endpoint 0).stop_steps a0.globals)
    ++ a1.lift 1 ((a1.endpoint 1).stop_steps a1.globals)
    ++ a2.lift 2 ((a2.endpoint 2).stop_steps a2.globals)

/-- The states after each `endpoint_count++` of the first loop of `Play`. -/
def CAudio.Play_count_steps : List StreamFunc → CAudio → List CAudio
  | [], _ => []
  | _ :: ds, a =>
    let b : CAudio :=
      { a with globals := { a.globals with
                 endpoint_count := (a.globals.endpoint_count + 1) % 256 } }
    b :: CAudio.Play_count_steps ds b

/-- The states after each statement of the second loop of `Play`. -/
def CAudio.Play_assign_steps (flash : Int → Nat) (fuel : Nat) :
    List StreamFunc → Nat → CAudio → Except Fault (List CAudio)
  | [], _, _ => .ok []
  | d :: ds, index, a =>
    if h : index < COUNT then
      match (a.endpoint ⟨index, h⟩).assign_steps flash fuel d a.globals,
            a.runM ⟨index, h⟩ (Endpoint.assign flash fuel d) with
      | .ok l, .ok b =>
        match CAudio.Play_assign_steps flash fuel ds ((index + 1) % 256) b with
        | .ok rest => .ok (a.lift ⟨index, h⟩ l ++ rest)
        | .error f => .error f
      | .error f, _ => .error f
      | .ok _, .error f => .error f
    else .error Fault.out_of_bounds

/-- The states after each statement of `CAudio::Play` (nAudio.cpp:59-92), the
writes to the timer registers left out. -/
def CAudio.Play_steps (flash : Int → Nat) (fuel : Nat) (descriptors : List StreamFunc)
    (a : CAudio) : Except Fault (List CAudio) :=
  match CAudio.Play_assign_steps flash fuel descriptors 0 (CAudio.Play_count descriptors a.Stop),
        CAudio.Play_assign flash fuel descriptors 0 (CAudio.Play_count descriptors a.Stop) with
  | .ok l, .ok b =>
    .ok (a.Stop_steps ++ CAudio.Play_count_steps descriptors a.Stop ++ l ++ [b.EnableInterrupt])
  | .error f, _ => .error f
  | .ok _, .error f => .error f

/-- The states `l` lead from `c` to `c'` (the last of them, or `c` itself when
there is none) without touching the interrupt enable bit. -/
def steps_to (c : CAudio) (l : List CAudio) (c' : CAudio) : Prop :=
  l.getLastD c = c' ∧ ∀ s ∈ l, s.interrupt_enabled = c.interrupt_enabled

/-- The engine `k` calls of `InterruptMultipleStreams` after `Play` of
`[1, NC4, DBLIP, END]` on endpoint 0, `k <= 64`: endpoint 0 plays the one
millisecond of its note (`period` 244, `period_remaining = 244 - k`,
`ms_remaining = 1`, cursor on `END`), the other endpoints are inactive, the
sub-counter is `k` and the interrupt is enabled. -/
def single_blip_state (k : Nat) (a : CAudio) : Prop :=
  a.count = k ∧ a.interrupt_enabled = true ∧
  (a.endpoint 0).active = true ∧ (a.endpoint 0).ms_remaining = 1 ∧
  (a.endpoint 0).period_remaining + k = 244 ∧ (a.endpoint 0).index = 3 ∧
  (a.endpoint 0).stream 3 = END ∧
  (a.endpoint 1).active = false ∧ (a.endpoint 2).active = false

/-! ## Theorems -/

theorem read_audio_duration_valid (flash : Int → Nat) (D : Nat) (h1 : DTS ≤ D) (h2 : D ≤ DBLIP) :
    read_audio_duration flash ((D : Int) - TEMPO - 1) = audio_duration.getD (D - TEMPO - 1) 0 := by
  simp only [DTS, DBLIP] at h1 h2
  interval_cases D <;> rfl

theorem audio_duration_le (i : Nat) : audio_duration.getD i 0 ≤ 48 := by
  by_cases h : i < 13
  · interval_cases i <;> decide
  · have : audio_duration.length ≤ i := by simpa [audio_duration] using h
    rw [List.getD_eq_default _ _ this]; omega

@[simp] theorem stop_fst (e : Endpoint) (g : Globals) :
    (e.stop g).1 = { e with active := false, duration := DQ } := by
  unfold Endpoint.stop
  cases h : e.active <;> simp [h]

@[simp] theorem stop_snd_count (e : Endpoint) (g : Globals) :
    (e.stop g).2.endpoint_count
      = if e.active then (g.endpoint_count + 255) % 256 else g.endpoint_count := rfl

@[simp] theorem stop_snd_mem (e : Endpoint) (g : Globals) :
    (e.stop g).2.mem
      = Function.update g.mem e.port (g.mem e.port &&& (255 ^^^ (e.mask % 256))) := rfl

theorem next_pitch_modifier (flash : Int → Nat) (fuel : Nat) (e : Endpoint) (g : Globals)
    (h1 : e.stream (e.index % 65536) % 256 < END)
    (h2 : TEMPO < e.stream ((e.index + 1) % 65536) % 256) :
    e.next flash fuel g = .ok
      ({ e with
          duration := e.stream ((e.index + 1) % 65536) % 256
          index := (e.index + 2) % 65536
          ms_remaining := (e.multiplier * read_audio_duration flash
            (((e.stream ((e.index + 1) % 65536) % 256 : Nat) : Int) - TEMPO - 1)) % 65536
          period := (FREQUENCY / audio_note.getD (e.stream (e.index % 65536) % 256) 0) % 65536
          period_remaining :=
            (FREQUENCY / audio_note.getD (e.stream (e.index % 65536) % 256) 0) % 65536 }, g) := by
  unfold Endpoint.next
  simp only [Nat.add_zero, h1, if_true, gt_iff_lt, h2]

theorem next_pitch_plain (flash : Int → Nat) (fuel : Nat) (e : Endpoint) (g : Globals)
    (h1 : e.stream (e.index % 65536) % 256 < END)
    (h2 : ¬ TEMPO < e.stream ((e.index + 1) % 65536) % 256) :
    e.next flash fuel g = .ok
      ({ e with
          index := (e.index + 1) % 65536
          ms_remaining := (e.multiplier * read_audio_duration flash
            ((e.duration : Int) - TEMPO - 1)) % 65536
          period := (FREQUENCY / audio_note.getD (e.stream (e.index % 65536) % 256) 0) % 65536
          period_remaining :=
            (FREQUENCY / audio_note.getD (e.stream (e.index % 65536) % 256) 0) % 65536 }, g) := by
  unfold Endpoint.next
  simp only [Nat.add_zero, h1, if_true, gt_iff_lt, h2, if_false]

theorem next_tempo (flash : Int → Nat) (fuel : Nat) (e : Endpoint) (g : Globals)
    (h : e.stream (e.index % 65536) % 256 = TEMPO) :
    e.next flash (fuel + 1) g
      = Endpoint.next flash fuel
          { e with multiplier := e.stream ((e.index + 1) % 65536) % 256
                   index := (e.index + 2) % 65536 } g := by
  rw [Endpoint.next]
  simp only [Nat.add_zero, h]
  rw [if_neg (by decide : ¬ TEMPO < END)]
  simp

theorem next_tempo_zero (flash : Int → Nat) (e : Endpoint) (g : Globals)
    (h : e.stream (e.index % 65536) % 256 = TEMPO) :
    e.next flash 0 g = .error Fault.out_of_fuel := by
  rw [Endpoint.next]
  simp only [Nat.add_zero, h]
  rw [if_neg (by decide : ¬ TEMPO < END)]
  simp

theorem next_stop (flash : Int → Nat) (fuel : Nat) (e : Endpoint) (g : Globals)
    (h1 : END ≤ e.stream (e.index % 65536) % 256)
    (h2 : e.stream (e.index % 65536) % 256 ≠ TEMPO) :
    e.next flash fuel g = .ok (e.stop g) := by
  unfold Endpoint.next
  simp only [Nat.add_zero, not_lt.mpr h1, if_false, h2]

theorem assign_eq (flash : Int → Nat) (fuel : Nat) (d : StreamFunc) (e : Endpoint) (g : Globals) :
    e.assign flash fuel d g
      = Endpoint.next flash fuel
          { e with stream := d, active := true, duration := DQ, multiplier := d 0 % 256,
                   index := 1 }
          ({ e with stream := d }.stop g).2 := by
  unfold Endpoint.assign
  simp

/-- C1: assigning the stream `[1, P, D, END]` (valid pitch `P`, valid duration
token `D`) to a channel in any prior state returns with `active = true`,
`period = 64000 / audio_note[P]`, `period_remaining = period` and
`ms_remaining = 1 * audio_duration[D - TEMPO - 1]`. -/
theorem assign_single_note (flash : Int → Nat) (fuel : Nat) (s : StreamFunc) (P D : Nat)
    (e : Endpoint) (g : Globals) (hP : P < END) (hD1 : DTS ≤ D) (hD2 : D ≤ DBLIP)
    (h0 : s 0 = 1) (h1 : s 1 = P) (h2 : s 2 = D) (_h3 : s 3 = END) :
    ∃ e' g', e.assign flash fuel s g = .ok (e', g') ∧ e'.active = true ∧
      e'.period = 64000 / audio_note.getD P 0 ∧ e'.period_remaining = e'.period ∧
      e'.ms_remaining = 1 * audio_duration.getD (D - TEMPO - 1) 0 := by
  have hPb : P % 256 = P := Nat.mod_eq_of_lt (by simp only [END] at hP; omega)
  have hDb : D % 256 = D := Nat.mod_eq_of_lt (by simp only [DBLIP] at hD2; omega)
  have hDt : D > TEMPO := by simp only [DTS] at hD1; simp only [TEMPO]; omega
  have hper : (FREQUENCY / audio_note.getD P 0) % 65536 = 64000 / audio_note.getD P 0 :=
    Nat.mod_eq_of_lt (lt_of_le_of_lt (Nat.div_le_self _ _) (by decide))
  have hms : (1 * audio_duration.getD (D - TEMPO - 1) 0) % 65536
      = 1 * audio_duration.getD (D - TEMPO - 1) 0 :=
    Nat.mod_eq_of_lt (by have := audio_duration_le (D - TEMPO - 1); omega)
  rw [assign_eq, next_pitch_modifier]
  · refine ⟨_, _, rfl, rfl, ?_, rfl, ?_⟩
    · show (FREQUENCY / audio_note.getD (s (1 % 65536) % 256) 0) % 65536 = _
      rw [show (1 % 65536) = 1 from rfl, h1, hPb]; exact hper
    · show (s 0 % 256 * read_audio_duration flash
        (((s ((1 + 1) % 65536) % 256 : Nat) : Int) - TEMPO - 1)) % 65536 = _
      rw [show ((1 + 1) % 65536) = 2 from rfl, h0, h2, hDb,
        read_audio_duration_valid flash D hD1 hD2]; exact hms
  · simpa [h1, hPb] using hP
  · simpa [h2, hDb] using hDt

/-- Witness of C1 on `[1, NC4, DH, END]`. -/
theorem assign_single_note_witness :
    ∃ e' g', sample_endpoint.assign (fun _ => 0) 0 (buffer_stream [1, NC4, DH, END])
        sample_globals = .ok (e', g') ∧ e'.active = true ∧
      e'.period = 64000 / audio_note.getD NC4 0 ∧ e'.period_remaining = e'.period ∧
      e'.ms_remaining = 1 * audio_duration.getD (DH - TEMPO - 1) 0 :=
  assign_single_note (fun _ => 0) 0 (buffer_stream [1, NC4, DH, END]) NC4 DH
    sample_endpoint sample_globals (by decide) (by decide) (by decide) rfl rfl rfl rfl

/-- C2: assigning `[1, TEMPO, m, P, D, END]` returns (one recursive call of
`next` suffices) an active channel with `multiplier = m`,
`ms_remaining = m * audio_duration[D - TEMPO - 1]` and `index = 5`; the shared
state is the one left by the initial `stop`, so no pin was toggled. -/
theorem assign_tempo_prefix (flash : Int → Nat) (fuel : Nat) (s : StreamFunc) (P D m : Nat)
    (e : Endpoint) (g : Globals) (hP : P < END) (hD1 : DTS ≤ D) (hD2 : D ≤ DBLIP)
    (hm : m < 256) (_h0 : s 0 = 1) (h1 : s 1 = TEMPO) (h2 : s 2 = m) (h3 : s 3 = P)
    (h4 : s 4 = D) (_h5 : s 5 = END) :
    ∃ e' g', e.assign flash (fuel + 1) s g = .ok (e', g') ∧ e'.active = true ∧
      e'.multiplier = m ∧ e'.ms_remaining = m * audio_duration.getD (D - TEMPO - 1) 0 ∧
      e'.index = 5 ∧ g' = ({ e with stream := s }.stop g).2 := by
  have hPb : P % 256 = P := Nat.mod_eq_of_lt (by simp only [END] at hP; omega)
  have hDb : D % 256 = D := Nat.mod_eq_of_lt (by simp only [DBLIP] at hD2; omega)
  have hmb : m % 256 = m := Nat.mod_eq_of_lt hm
  have hDt : D > TEMPO := by simp only [DTS] at hD1; simp only [TEMPO]; omega
  have hms : (m * audio_duration.getD (D - TEMPO - 1) 0) % 65536
      = m * audio_duration.getD (D - TEMPO - 1) 0 :=
    Nat.mod_eq_of_lt (by
      have h48 := audio_duration_le (D - TEMPO - 1)
      have : m * audio_duration.getD (D - TEMPO - 1) 0 ≤ 255 * 48 :=
        Nat.mul_le_mul (by omega) h48
      omega)
  rw [assign_eq, next_tempo, next_pitch_modifier]
  · refine ⟨_, _, rfl, rfl, ?_, ?_, rfl, rfl⟩
    · show s ((1 + 1) % 65536) % 256 = m
      rw [show ((1 + 1) % 65536) = 2 from rfl, h2, hmb]
    · show (s ((1 + 1) % 65536) % 256 * read_audio_duration flash
        (((s (((1 + 2) % 65536 + 1) % 65536) % 256 : Nat) : Int) - TEMPO - 1)) % 65536 = _
      rw [show ((1 + 1) % 65536) = 2 from rfl, show (((1 + 2) % 65536 + 1) % 65536) = 4 from rfl,
        h2, h4, hDb, hmb, read_audio_duration_valid flash D hD1 hD2]; exact hms
  · show s ((1 + 2) % 65536 % 65536) % 256 < END
    rw [show ((1 + 2) % 65536 % 65536) = 3 from rfl, h3, hPb]; exact hP
  · show TEMPO < s (((1 + 2) % 65536 + 1) % 65536) % 256
    rw [show (((1 + 2) % 65536 + 1) % 65536) = 4 from rfl, h4, hDb]; exact hDt
  · show s (1 % 65536) % 256 = TEMPO
    rw [show (1 % 65536) = 1 from rfl, h1]; decide

/-- Witness of C2 on `[1, TEMPO, 3, NC4, DH, END]`: `ms_remaining = 3 * 24`. -/
theorem assign_tempo_prefix_witness :
    ∃ e' g', sample_endpoint.assign (fun _ => 0) 1 (buffer_stream [1, TEMPO, 3, NC4, DH, END])
        sample_globals = .ok (e', g') ∧ e'.active = true ∧
      e'.multiplier = 3 ∧ e'.ms_remaining = 3 * audio_duration.getD (DH - TEMPO - 1) 0 ∧
      e'.index = 5 ∧
      g' = ({ sample_endpoint with
              stream := buffer_stream [1, TEMPO, 3, NC4, DH, END] }.stop sample_globals).2 :=
  assign_tempo_prefix (fun _ => 0) 0 (buffer_stream [1, TEMPO, 3, NC4, DH, END]) NC4 DH 3
    sample_endpoint sample_globals (by decide) (by decide) (by decide) (by decide)
    rfl rfl rfl rfl rfl rfl

theorem audio_note_bounds (P : Nat) (hP : P < END) :
    1 ≤ audio_note.getD P 0 ∧ audio_note.getD P 0 ≤ 7902 := by
  simp only [END] at hP
  interval_cases P <;> decide

theorem period_bounds (P : Nat) (hP : P < END) :
    8 ≤ FREQUENCY / audio_note.getD P 0 ∧ FREQUENCY / audio_note.getD P 0 ≤ 64000 := by
  obtain ⟨h1, h2⟩ := audio_note_bounds P hP
  refine ⟨?_, Nat.div_le_self _ _⟩
  rw [Nat.le_div_iff_mul_le (by omega)]
  simp only [FREQUENCY]; omega

theorem tick_step (e : Endpoint) (g : Globals) (hact : e.active = true)
    (h1 : 1 < e.period_remaining) (h2 : e.period_remaining < 65536) :
    e.tick g = ({ e with period_remaining := e.period_remaining - 1 }, g) := by
  have hm : (e.period_remaining + 65535) % 65536 = e.period_remaining - 1 := by omega
  have hne : e.period_remaining - 1 ≠ 0 := by omega
  unfold Endpoint.tick
  simp only [hact, if_true, hm, hne, if_false]

theorem tick_last (e : Endpoint) (g : Globals) (hact : e.active = true)
    (h1 : e.period_remaining = 1) :
    e.tick g = ({ e with period_remaining := e.period }, e.toggle g) := by
  unfold Endpoint.tick
  simp only [hact, if_true, h1]
  rfl

theorem tick_countdown (g : Globals) :
    ∀ (j : Nat) (e : Endpoint), e.active = true → e.period_remaining < 65536 →
      j < e.period_remaining →
      tick_n j e g = ({ e with period_remaining := e.period_remaining - j }, g) := by
  intro j
  induction j with
  | zero => intro e _ _ _; rfl
  | succ j ih =>
    intro e hact hlt hj
    rw [tick_n, tick_step e g hact (by omega) hlt]
    have h := ih { e with period_remaining := e.period_remaining - 1 } hact
      (show e.period_remaining - 1 < 65536 by omega) (show j < e.period_remaining - 1 by omega)
    have hsub : e.period_remaining - 1 - j = e.period_remaining - (j + 1) := by omega
    simp only [hsub] at h
    exact h

theorem tick_full_period (g : Globals) (e : Endpoint) (hact : e.active = true)
    (hlt : e.period_remaining < 65536) (hpos : 0 < e.period_remaining) :
    tick_n e.period_remaining e g = ({ e with period_remaining := e.period }, e.toggle g) := by
  obtain ⟨r, hr⟩ : ∃ r, e.period_remaining = r + 1 := ⟨e.period_remaining - 1, by omega⟩
  have hsplit : ∀ (j : Nat) (e : Endpoint) (g : Globals),
      tick_n (j + 1) e g = ((tick_n j e g).1.tick (tick_n j e g).2) := by
    intro j
    induction j with
    | zero => intro e g; rfl
    | succ j ih => intro e g; rw [tick_n, ih]; rfl
  rw [hr, hsplit, tick_countdown g r e hact (by omega) (by omega)]
  have h := tick_last { e with period_remaining := e.period_remaining - r } g hact
    (show e.period_remaining - r = 1 by omega)
  exact h

theorem next_pitch_primed (flash : Int → Nat) (fuel : Nat) (e : Endpoint) (g : Globals)
    (h1 : e.stream (e.index % 65536) % 256 < END) :
    ∃ e1, e.next flash fuel g = .ok (e1, g) ∧ e1.active = e.active ∧
      e1.period = FREQUENCY / audio_note.getD (e.stream (e.index % 65536) % 256) 0 ∧
      e1.period_remaining = e1.period ∧ e1.port = e.port ∧ e1.mask = e.mask ∧
      e1.stream = e.stream := by
  have hper := Nat.mod_eq_of_lt (lt_of_le_of_lt (period_bounds _ h1).2
    (by decide : 64000 < 65536))
  by_cases h2 : TEMPO < e.stream ((e.index + 1) % 65536) % 256
  · exact ⟨_, next_pitch_modifier flash fuel e g h1 h2, rfl, hper, rfl, rfl, rfl, rfl⟩
  · exact ⟨_, next_pitch_plain flash fuel e g h1 h2, rfl, hper, rfl, rfl, rfl, rfl⟩

/-- C4: a channel primed by `next` on a pitch token has
`period_remaining = period > 0`; the first `period - 1` calls of `tick` leave
the output registers untouched, and after exactly `period` calls the endpoint
is the primed endpoint again (so `period_remaining = period`, and `period`,
`ms_remaining`, `index`, `active` are unchanged) while its register went
through one `*port ^= mask`. -/
theorem tick_period_cycle (flash : Int → Nat) (fuel : Nat) (e e1 : Endpoint) (g g1 : Globals)
    (hact : e.active = true) (htok : e.stream (e.index % 65536) % 256 < END)
    (hnext : e.next flash fuel g = .ok (e1, g1)) :
    e1.period_remaining = e1.period ∧ 0 < e1.period ∧
    (∀ j, j < e1.period → (tick_n j e1 g1).2 = g1) ∧
    (tick_n e1.period e1 g1).1 = e1 ∧
    (tick_n e1.period e1 g1).2.endpoint_count = g1.endpoint_count ∧
    (tick_n e1.period e1 g1).2.mem
      = Function.update g1.mem e1.port ((g1.mem e1.port ^^^ (e1.mask % 256)) % 256) := by
  obtain ⟨e1', hn, ha, hp, hpr, -, -, -⟩ := next_pitch_primed flash fuel e g htok
  rw [hn] at hnext
  have heq : e1' = e1 ∧ g = g1 := by
    have := Except.ok.inj hnext
    exact ⟨congrArg Prod.fst this, congrArg Prod.snd this⟩
  obtain ⟨rfl, rfl⟩ := heq
  have hb := period_bounds _ htok
  have hact1 : e1'.active = true := ha.trans hact
  have hlt : e1'.period_remaining < 65536 := by rw [hpr, hp]; omega
  have hpos : 0 < e1'.period_remaining := by rw [hpr, hp]; omega
  refine ⟨hpr, by rw [hp]; omega, ?_, ?_, ?_, ?_⟩
  · intro j hj
    rw [tick_countdown g j e1' hact1 hlt (by rw [hpr]; exact hj)]
  · rw [← hpr, tick_full_period g e1' hact1 hlt hpos]
    cases e1'
    simp_all
  · rw [← hpr, tick_full_period g e1' hact1 hlt hpos]; rfl
  · rw [← hpr, tick_full_period g e1' hact1 hlt hpos]; rfl

/-- Witness of C4: the channel primed on the pitch of `[1, NC4, DH, END]` has
period 244. -/
theorem tick_period_cycle_witness :
    primed_endpoint.period_remaining = primed_endpoint.period ∧ 0 < primed_endpoint.period ∧
    (∀ j, j < primed_endpoint.period → (tick_n j primed_endpoint sample_globals).2 = sample_globals) ∧
    (tick_n primed_endpoint.period primed_endpoint sample_globals).1 = primed_endpoint ∧
    (tick_n primed_endpoint.period primed_endpoint sample_globals).2.endpoint_count
      = sample_globals.endpoint_count ∧
    (tick_n primed_endpoint.period primed_endpoint sample_globals).2.mem
      = Function.update sample_globals.mem primed_endpoint.port
          ((sample_globals.mem primed_endpoint.port ^^^ (primed_endpoint.mask % 256)) % 256) :=
  tick_period_cycle (fun _ => 0) 0 fresh_endpoint primed_endpoint sample_globals sample_globals
    rfl (by decide) rfl

theorem audio_duration_pos (D : Nat) (h1 : DTS ≤ D) (h2 : D ≤ DBLIP) :
    1 ≤ audio_duration.getD (D - TEMPO - 1) 0 := by
  simp only [DTS, DBLIP] at h1 h2
  interval_cases D <;> decide

theorem tock_step (flash : Int → Nat) (fuel : Nat) (e : Endpoint) (g : Globals)
    (hact : e.active = true) (h1 : 1 < e.ms_remaining) (h2 : e.ms_remaining < 65536) :
    e.tock flash fuel g = .ok ({ e with ms_remaining := e.ms_remaining - 1 }, g) := by
  have hm : (e.ms_remaining + 65535) % 65536 = e.ms_remaining - 1 := by omega
  have hne : e.ms_remaining - 1 ≠ 0 := by omega
  unfold Endpoint.tock
  simp only [hact, if_true, hm, hne, if_false]

theorem tock_last (flash : Int → Nat) (fuel : Nat) (e : Endpoint) (g : Globals)
    (hact : e.active = true) (h1 : e.ms_remaining = 1) :
    e.tock flash fuel g = Endpoint.next flash fuel { e with ms_remaining := 0 } g := by
  unfold Endpoint.tock
  simp only [hact, if_true, h1]

theorem tock_countdown (flash : Int → Nat) (fuel : Nat) (g : Globals) :
    ∀ (j : Nat) (e : Endpoint), e.active = true → e.ms_remaining < 65536 →
      j < e.ms_remaining →
      tock_n flash fuel j e g = .ok ({ e with ms_remaining := e.ms_remaining - j }, g) := by
  intro j
  induction j with
  | zero => intro e _ _ _; rfl
  | succ j ih =>
    intro e hact hlt hj
    rw [tock_n, tock_step flash fuel e g hact (by omega) hlt]
    have h := ih { e with ms_remaining := e.ms_remaining - 1 } hact
      (show e.ms_remaining - 1 < 65536 by omega) (show j < e.ms_remaining - 1 by omega)
    have hsub : e.ms_remaining - 1 - j = e.ms_remaining - (j + 1) := by omega
    simp only [hsub] at h
    exact h

theorem tock_n_unfold (flash : Int → Nat) (fuel : Nat) (j : Nat) (e : Endpoint) (g : Globals) :
    tock_n flash fuel (j + 1) e g
      = match e.tock flash fuel g with
        | .ok r => tock_n flash fuel j r.1 r.2
        | .error f => .error f := rfl

theorem tock_n_succ (flash : Int → Nat) (fuel : Nat) :
    ∀ (j : Nat) (e : Endpoint) (g : Globals),
      tock_n flash fuel (j + 1) e g
        = match tock_n flash fuel j e g with
          | .ok r => r.1.tock flash fuel r.2
          | .error f => .error f := by
  intro j
  induction j with
  | zero =>
    intro e g
    rw [tock_n_unfold]
    change _ = e.tock flash fuel g
    cases e.tock flash fuel g <;> rfl
  | succ j ih =>
    intro e g
    rw [tock_n_unfold flash fuel (j + 1), tock_n_unfold flash fuel j]
    cases h : e.tock flash fuel g with
    | error f => rfl
    | ok r => exact ih r.1 r.2

theorem tock_full_duration (flash : Int → Nat) (fuel : Nat) (g : Globals) (e : Endpoint)
    (hact : e.active = true) (hlt : e.ms_remaining < 65536) (hpos : 0 < e.ms_remaining) :
    tock_n flash fuel e.ms_remaining e g
      = Endpoint.next flash fuel { e with ms_remaining := 0 } g := by
  obtain ⟨r, hr⟩ : ∃ r, e.ms_remaining = r + 1 := ⟨e.ms_remaining - 1, by omega⟩
  rw [hr, tock_n_succ, tock_countdown flash fuel g r e hact (by omega) (by omega)]
  have h := tock_last flash fuel { e with ms_remaining := e.ms_remaining - r } g hact
    (show e.ms_remaining - r = 1 by omega)
  exact h

theorem assign_single_note_state (flash : Int → Nat) (fuel : Nat) (s : StreamFunc) (P D : Nat)
    (e : Endpoint) (g : Globals) (hP : P < END) (hD1 : DTS ≤ D) (hD2 : D ≤ DBLIP)
    (h0 : s 0 = 1) (h1 : s 1 = P) (h2 : s 2 = D) :
    ∃ e1, e.assign flash fuel s g = .ok (e1, ({ e with stream := s }.stop g).2) ∧
      e1.active = true ∧ e1.index = 3 ∧ e1.stream = s ∧ e1.duration = D ∧ e1.multiplier = 1 ∧
      e1.ms_remaining = audio_duration.getD (D - TEMPO - 1) 0 ∧ e1.port = e.port ∧
      e1.mask = e.mask := by
  have hPb : P % 256 = P := Nat.mod_eq_of_lt (by simp only [END] at hP; omega)
  have hDb : D % 256 = D := Nat.mod_eq_of_lt (by simp only [DBLIP] at hD2; omega)
  have hDt : D > TEMPO := by simp only [DTS] at hD1; simp only [TEMPO]; omega
  have hms : (1 * audio_duration.getD (D - TEMPO - 1) 0) % 65536
      = audio_duration.getD (D - TEMPO - 1) 0 := by
    rw [Nat.one_mul]
    exact Nat.mod_eq_of_lt (by have := audio_duration_le (D - TEMPO - 1); omega)
  rw [assign_eq, next_pitch_modifier]
  · refine ⟨_, rfl, rfl, rfl, rfl, ?_, ?_, ?_, rfl, rfl⟩
    · show s ((1 + 1) % 65536) % 256 = D
      rw [show ((1 + 1) % 65536) = 2 from rfl, h2, hDb]
    · show s 0 % 256 = 1
      rw [h0]
    · show (s 0 % 256 * read_audio_duration flash
        (((s ((1 + 1) % 65536) % 256 : Nat) : Int) - TEMPO - 1)) % 65536 = _
      rw [show ((1 + 1) % 65536) = 2 from rfl, h0, h2, hDb,
        read_audio_duration_valid flash D hD1 hD2]; exact hms
  · show s (1 % 65536) % 256 < END
    rw [show (1 % 65536) = 1 from rfl, h1, hPb]; exact hP
  · show TEMPO < s ((1 + 1) % 65536) % 256
    rw [show ((1 + 1) % 65536) = 2 from rfl, h2, hDb]; exact hDt

/-- C3: let `(e1, g1)` be the channel and shared state right after `assign` of
`[1, P, D, END]`, with the channel counted in `endpoint_count` (so
`0 < endpoint_count < 256`), and `d = e1.ms_remaining`.  Then `d > 0`; after
each of the first `d - 1` calls of `tock` the channel is active and the shared
state untouched; the `d`-th call runs `next` on the `END` token at offset 3 and
returns an inactive channel with `endpoint_count` one less. -/
theorem tock_until_end (flash : Int → Nat) (fuel : Nat) (s : StreamFunc) (P D : Nat)
    (e e1 : Endpoint) (g g1 : Globals) (hP : P < END) (hD1 : DTS ≤ D) (hD2 : D ≤ DBLIP)
    (h0 : s 0 = 1) (h1 : s 1 = P) (h2 : s 2 = D) (h3 : s 3 = END)
    (hassign : e.assign flash fuel s g = .ok (e1, g1))
    (hc1 : 0 < g1.endpoint_count) (hc2 : g1.endpoint_count < 256) :
    0 < e1.ms_remaining ∧
    (∀ j, j < e1.ms_remaining →
      ∃ ej, tock_n flash fuel j e1 g1 = .ok (ej, g1) ∧ ej.active = true) ∧
    ∃ e2 g2, tock_n flash fuel e1.ms_remaining e1 g1 = .ok (e2, g2) ∧
      e2.stream (e2.index % 65536) % 256 = END ∧ e2.active = false ∧
      g2.endpoint_count + 1 = g1.endpoint_count := by
  obtain ⟨e1', ha, hact, hidx, hstr, -, -, hms, -, -⟩ :=
    assign_single_note_state flash fuel s P D e g hP hD1 hD2 h0 h1 h2
  rw [ha] at hassign
  have heq := Except.ok.inj hassign
  obtain rfl : e1' = e1 := congrArg Prod.fst heq
  have hg : ({ e with stream := s }.stop g).2 = g1 := congrArg Prod.snd heq
  clear heq hassign ha
  have hpos := audio_duration_pos D hD1 hD2
  have hle := audio_duration_le (D - TEMPO - 1)
  have hlt : e1'.ms_remaining < 65536 := by rw [hms]; omega
  have htok : e1'.stream (e1'.index % 65536) % 256 = END := by
    rw [hstr, hidx, show (3 % 65536) = 3 from rfl, h3]; decide
  refine ⟨by rw [hms]; omega, ?_, ?_⟩
  · intro j hj
    exact ⟨_, tock_countdown flash fuel g1 j e1' hact hlt hj, hact⟩
  · have hstop := next_stop flash fuel { e1' with ms_remaining := 0 } g1
      (le_of_eq htok.symm) (by
        show e1'.stream (e1'.index % 65536) % 256 ≠ TEMPO
        rw [htok]; decide)
    rw [tock_full_duration flash fuel g1 e1' hact hlt (by rw [hms]; omega), hstop]
    refine ⟨(({ e1' with ms_remaining := 0 } : Endpoint).stop g1).1,
      (({ e1' with ms_remaining := 0 } : Endpoint).stop g1).2, rfl, ?_, ?_, ?_⟩
    · rw [stop_fst]; exact htok
    · rw [stop_fst]
    · rw [stop_snd_count]
      show (if e1'.active = true then _ else _) + 1 = _
      rw [if_pos hact]
      omega

theorem sample_assign :
    sample_endpoint.assign (fun _ => 0) 0 (buffer_stream [1, NC4, DH, END]) sample_globals
      = .ok (primed_endpoint, stopped_globals) := by
  rw [assign_eq, next_pitch_modifier _ _ _ _ (by decide) (by decide)]
  rfl

/-- Witness of C3 on `[1, NC4, DH, END]`: 24 calls of `tock`. -/
theorem tock_until_end_witness :
    0 < primed_endpoint.ms_remaining ∧
    (∀ j, j < primed_endpoint.ms_remaining →
      ∃ ej, tock_n (fun _ => 0) 0 j primed_endpoint stopped_globals = .ok (ej, stopped_globals) ∧
        ej.active = true) ∧
    ∃ e2 g2, tock_n (fun _ => 0) 0 primed_endpoint.ms_remaining primed_endpoint stopped_globals
        = .ok (e2, g2) ∧
      e2.stream (e2.index % 65536) % 256 = END ∧ e2.active = false ∧
      g2.endpoint_count + 1 = stopped_globals.endpoint_count :=
  tock_until_end (fun _ => 0) 0 (buffer_stream [1, NC4, DH, END]) NC4 DH sample_endpoint
    primed_endpoint sample_globals stopped_globals (by decide) (by decide) (by decide)
    rfl rfl rfl rfl sample_assign (by decide) (by decide)

theorem testBit_255 (i : Nat) (hi : i < 8) : Nat.testBit 255 i = true := by
  interval_cases i <;> decide

theorem clear_mask_low (v m : Nat) (hm : m < 256) : (v &&& (255 ^^^ m)) &&& m = 0 := by
  apply Nat.eq_of_testBit_eq
  intro i
  rw [Nat.testBit_land, Nat.testBit_land, Nat.testBit_xor, Nat.zero_testBit]
  cases hmi : m.testBit i with
  | false => simp
  | true =>
    have hge := Nat.testBit_implies_ge hmi
    have hi : i < 8 := by
      by_contra hcon
      have : 2 ^ 8 ≤ 2 ^ i := Nat.pow_le_pow_right (by decide) (by omega)
      omega
    simp [testBit_255 i hi]

theorem stop_pin_low (e : Endpoint) (g : Globals) : (e.stop g).1.pin_low (e.stop g).2 := by
  unfold Endpoint.pin_low
  rw [stop_fst, stop_snd_mem]
  show Function.update g.mem e.port _ e.port &&& (e.mask % 256) = 0
  rw [Function.update_same]
  exact clear_mask_low _ _ (Nat.mod_lt _ (by decide))

/-- C8: on an active channel, a token `t >= END`, `t != TEMPO` at the cursor makes
`next` return (whatever the fuel) the result of `stop`: `active = false`,
`duration = DQ`, `endpoint_count` decremented as a byte (by exactly one when it
was in `1..255`), the pin low.  The result does not depend on `t`: with `END`
at the cursor in place of `t` the result is the same state. -/
theorem next_malformed_like_end (flash : Int → Nat) (fuel : Nat) (e : Endpoint) (g : Globals)
    (t : Nat) (hact : e.active = true) (ht : e.stream (e.index % 65536) % 256 = t)
    (h1 : END ≤ t) (h2 : t ≠ TEMPO) :
    e.next flash fuel g = .ok (e.stop g) ∧
    (e.stop g).1 = { e with active := false, duration := DQ } ∧
    (e.stop g).2.endpoint_count = (g.endpoint_count + 255) % 256 ∧
    (0 < g.endpoint_count → g.endpoint_count < 256 →
      (e.stop g).2.endpoint_count + 1 = g.endpoint_count) ∧
    (e.stop g).1.pin_low (e.stop g).2 ∧
    (∀ s : StreamFunc, s (e.index % 65536) % 256 = END →
      Endpoint.next flash fuel { e with stream := s } g
        = .ok ({ (e.stop g).1 with stream := s }, (e.stop g).2)) := by
  have hcount : (e.stop g).2.endpoint_count = (g.endpoint_count + 255) % 256 := by
    rw [stop_snd_count, if_pos hact]
  refine ⟨next_stop flash fuel e g (ht ▸ h1) (ht ▸ h2), stop_fst e g, hcount, ?_,
    stop_pin_low e g, ?_⟩
  · intro hc1 hc2
    rw [hcount]; omega
  · intro s hs
    rw [next_stop flash fuel { e with stream := s } g (le_of_eq hs.symm)
      (by show s (e.index % 65536) % 256 ≠ TEMPO; rw [hs]; decide)]
    refine congrArg Except.ok (Prod.ext ?_ ?_)
    · simp only [stop_fst]
    · rfl

/-- Witness of C8: `sample_endpoint` reads past its empty buffer with the byte
200 at the cursor. -/
theorem next_malformed_like_end_witness :
    Endpoint.next (fun _ => 0) 0 { sample_endpoint with stream := fun _ => 200 } sample_globals
      = .ok (Endpoint.stop { sample_endpoint with stream := fun _ => 200 } sample_globals) :=
  (next_malformed_like_end (fun _ => 0) 0 { sample_endpoint with stream := fun _ => 200 }
    sample_globals 200 rfl rfl (by decide) (by decide)).1

theorem read_audio_duration_outside (flash : Int → Nat) (b : Nat) (hb : DBLIP < b) :
    read_audio_duration flash ((b : Int) - TEMPO - 1) = flash ((b : Int) - TEMPO - 1) % 65536 := by
  unfold read_audio_duration
  rw [if_neg]
  intro h
  have h2 := h.2
  simp only [audio_duration, List.length_cons, List.length_nil, DBLIP] at h2 hb
  push_cast at h2
  omega

/-- C9 (the code at the failing input): on `[1, NC4, 200, END]` the byte 200 in
look-ahead position passes the test `next_value > TEMPO`, becomes `duration`,
and `ms_remaining` is read from program memory at index `200 - TEMPO - 1 = 105`
past the 13 entries of `audio_duration`; the channel stays active. -/
theorem assign_lookahead_out_of_range (flash : Int → Nat) (fuel : Nat) (e : Endpoint)
    (g : Globals) :
    ∃ e', e.assign flash fuel (buffer_stream [1, NC4, 200, END]) g
        = .ok (e', ({ e with stream := buffer_stream [1, NC4, 200, END] }.stop g).2) ∧
      e'.active = true ∧ e'.duration = 200 ∧ e'.index = 3 ∧
      e'.ms_remaining = flash 105 % 65536 := by
  rw [assign_eq, next_pitch_modifier _ _ _ _
    (show buffer_stream [1, NC4, 200, END] 1 % 256 < END by decide)
    (show TEMPO < buffer_stream [1, NC4, 200, END] 2 % 256 by decide)]
  refine ⟨_, rfl, rfl, rfl, rfl, ?_⟩
  have hr := read_audio_duration_outside flash 200 (by decide)
  have h105 : ((200 : Nat) : Int) - TEMPO - 1 = 105 := by decide
  rw [h105] at hr
  show (1 * read_audio_duration flash 105) % 65536 = flash 105 % 65536
  rw [hr, Nat.one_mul, Nat.mod_mod]

theorem indices_eq : indices = [0, 1, 2] := by decide

theorem Stop_eq (a : CAudio) :
    a.Stop = ((a.DisableInterrupt.run 0 Endpoint.stop).run 1 Endpoint.stop).run 2 Endpoint.stop := by
  unfold CAudio.Stop
  rw [indices_eq]
  rfl

theorem active_count_eq (a : CAudio) :
    a.active_count = (a.endpoint 0).active.toNat + (a.endpoint 1).active.toNat
      + (a.endpoint 2).active.toNat := by
  unfold CAudio.active_count
  rw [indices_eq]
  cases h0 : (a.endpoint 0).active <;> cases h1 : (a.endpoint 1).active <;>
    cases h2 : (a.endpoint 2).active <;> simp [List.filter, h0, h1, h2]

theorem stop_tracks (e : Endpoint) (g : Globals) : Tracks e g (e.stop g) := by
  unfold Tracks
  rw [stop_fst, stop_snd_count]
  cases h : e.active
  · left; simp
  · right; simp

theorem tick_tracks (e : Endpoint) (g : Globals) : Tracks e g (e.tick g) := by
  left
  unfold Endpoint.tick
  by_cases h : e.active = true
  · rw [if_pos h]
    dsimp only
    by_cases h2 : (e.period_remaining + 65535) % 65536 = 0
    · rw [if_pos h2]; exact ⟨rfl, rfl⟩
    · rw [if_neg h2]; exact ⟨rfl, rfl⟩
  · rw [if_neg h]; exact ⟨rfl, rfl⟩

theorem next_tracks (flash : Int → Nat) :
    ∀ (fuel : Nat) (e : Endpoint) (g : Globals) (r : Endpoint × Globals),
      e.next flash fuel g = .ok r → Tracks e g r := by
  intro fuel
  induction fuel with
  | zero =>
    intro e g r h
    by_cases h1 : e.stream (e.index % 65536) % 256 < END
    · obtain ⟨e1, hn, ha, -⟩ := next_pitch_primed flash 0 e g h1
      rw [hn] at h
      rw [← Except.ok.inj h]
      exact Or.inl ⟨ha, rfl⟩
    · by_cases h2 : e.stream (e.index % 65536) % 256 = TEMPO
      · rw [next_tempo_zero flash e g h2] at h
        cases h
      · rw [next_stop flash 0 e g (not_lt.mp h1) h2] at h
        rw [← Except.ok.inj h]
        exact stop_tracks e g
  | succ n ih =>
    intro e g r h
    by_cases h1 : e.stream (e.index % 65536) % 256 < END
    · obtain ⟨e1, hn, ha, -⟩ := next_pitch_primed flash (n + 1) e g h1
      rw [hn] at h
      rw [← Except.ok.inj h]
      exact Or.inl ⟨ha, rfl⟩
    · by_cases h2 : e.stream (e.index % 65536) % 256 = TEMPO
      · rw [next_tempo flash n e g h2] at h
        have ht := ih { e with multiplier := e.stream ((e.index + 1) % 65536) % 256
                               index := (e.index + 2) % 65536 } g r h
        exact ht
      · rw [next_stop flash (n + 1) e g (not_lt.mp h1) h2] at h
        rw [← Except.ok.inj h]
        exact stop_tracks e g

theorem tock_tracks (flash : Int → Nat) (fuel : Nat) (e : Endpoint) (g : Globals)
    (r : Endpoint × Globals) (h : e.tock flash fuel g = .ok r) : Tracks e g r := by
  unfold Endpoint.tock at h
  by_cases ha : e.active = true
  · rw [if_pos ha] at h
    dsimp only at h
    by_cases h2 : (e.ms_remaining + 65535) % 65536 = 0
    · rw [if_pos h2] at h
      have ht := next_tracks flash fuel
        { e with ms_remaining := (e.ms_remaining + 65535) % 65536 } g r h
      unfold Tracks at ht ⊢
      exact ht
    · rw [if_neg h2] at h
      rw [← Except.ok.inj h]; exact Or.inl ⟨rfl, rfl⟩
  · rw [if_neg ha] at h
    rw [← Except.ok.inj h]; exact Or.inl ⟨rfl, rfl⟩

theorem assign_tracks (flash : Int → Nat) (fuel : Nat) (d : StreamFunc) (e : Endpoint)
    (g : Globals) (r : Endpoint × Globals) (hin : e.active = false)
    (h : e.assign flash fuel d g = .ok r) :
    (r.1.active = true ∧ r.2.endpoint_count = g.endpoint_count) ∨
    (r.1.active = false ∧ r.2.endpoint_count = (g.endpoint_count + 255) % 256) := by
  rw [assign_eq] at h
  have hg : ({ e with stream := d }.stop g).2.endpoint_count = g.endpoint_count := by
    rw [stop_snd_count]
    show (if e.active = true then _ else _) = _
    rw [hin]; rfl
  rcases next_tracks flash fuel _ _ r h with ⟨h1, h2⟩ | ⟨-, h1, h2⟩
  · exact Or.inl ⟨h1, h2.trans hg⟩
  · exact Or.inr ⟨h1, by rw [h2, hg]⟩

@[simp] theorem put_endpoint (a : CAudio) (i j : Fin COUNT) (r : Endpoint × Globals) :
    (a.put i r).endpoint j = if j = i then r.1 else a.endpoint j := by
  unfold CAudio.put
  by_cases h : j = i
  · subst h; simp
  · simp [h]

@[simp] theorem put_globals (a : CAudio) (i : Fin COUNT) (r : Endpoint × Globals) :
    (a.put i r).globals = r.2 := rfl

@[simp] theorem put_count (a : CAudio) (i : Fin COUNT) (r : Endpoint × Globals) :
    (a.put i r).count = a.count := rfl

@[simp] theorem put_interrupt (a : CAudio) (i : Fin COUNT) (r : Endpoint × Globals) :
    (a.put i r).interrupt_enabled = a.interrupt_enabled := rfl

theorem fin_COUNT_cases (i : Fin COUNT) : i = 0 ∨ i = 1 ∨ i = 2 := by
  revert i; decide

theorem active_count_le (a : CAudio) : a.active_count ≤ 3 := by
  rw [active_count_eq]
  cases (a.endpoint 0).active <;> cases (a.endpoint 1).active <;>
    cases (a.endpoint 2).active <;> decide

theorem put_consistent (a : CAudio) (i : Fin COUNT) (r : Endpoint × Globals)
    (hc : a.consistent) (ht : Tracks (a.endpoint i) a.globals r) : (a.put i r).consistent := by
  unfold CAudio.consistent at hc ⊢
  rw [active_count_eq] at hc ⊢
  rw [put_globals]
  simp only [put_endpoint]
  have e10 : (1 : Fin COUNT) ≠ 0 := by decide
  have e20 : (2 : Fin COUNT) ≠ 0 := by decide
  have e01 : (0 : Fin COUNT) ≠ 1 := by decide
  have e21 : (2 : Fin COUNT) ≠ 1 := by decide
  have e02 : (0 : Fin COUNT) ≠ 2 := by decide
  have e12 : (1 : Fin COUNT) ≠ 2 := by decide
  have hb : ∀ b : Bool, b.toNat ≤ 1 := by decide
  have b0 := hb (a.endpoint 0).active
  have b1 := hb (a.endpoint 1).active
  have b2 := hb (a.endpoint 2).active
  rcases ht with ⟨h1, h2⟩ | ⟨h0, h1, h2⟩
  · rw [h2, hc]
    rcases fin_COUNT_cases i with rfl | rfl | rfl
    · rw [if_pos rfl, if_neg e10, if_neg e20, h1]
    · rw [if_pos rfl, if_neg e01, if_neg e21, h1]
    · rw [if_pos rfl, if_neg e02, if_neg e12, h1]
  · rw [h2, hc]
    rcases fin_COUNT_cases i with rfl | rfl | rfl
    · rw [if_pos rfl, if_neg e10, if_neg e20, h1]
      rw [h0] at b0 ⊢
      simp only [Bool.toNat_true, Bool.toNat_false]; omega
    · rw [if_pos rfl, if_neg e01, if_neg e21, h1]
      rw [h0] at b1 ⊢
      simp only [Bool.toNat_true, Bool.toNat_false]; omega
    · rw [if_pos rfl, if_neg e02, if_neg e12, h1]
      rw [h0] at b2 ⊢
      simp only [Bool.toNat_true, Bool.toNat_false]; omega

@[simp] theorem run_endpoint (a : CAudio) (i j : Fin COUNT)
    (m : Endpoint → Globals → Endpoint × Globals) :
    (a.run i m).endpoint j
      = if j = i then (m (a.endpoint i) a.globals).1 else a.endpoint j := by
  unfold CAudio.run
  rw [put_endpoint]

@[simp] theorem run_globals (a : CAudio) (i : Fin COUNT)
    (m : Endpoint → Globals → Endpoint × Globals) :
    (a.run i m).globals = (m (a.endpoint i) a.globals).2 := rfl

@[simp] theorem run_count (a : CAudio) (i : Fin COUNT)
    (m : Endpoint → Globals → Endpoint × Globals) : (a.run i m).count = a.count := rfl

@[simp] theorem run_interrupt (a : CAudio) (i : Fin COUNT)
    (m : Endpoint → Globals → Endpoint × Globals) :
    (a.run i m).interrupt_enabled = a.interrupt_enabled := rfl

theorem run_consistent (a : CAudio) (i : Fin COUNT) (m : Endpoint → Globals → Endpoint × Globals)
    (hm : ∀ e g, Tracks e g (m e g)) (hc : a.consistent) : (a.run i m).consistent :=
  put_consistent a i _ hc (hm _ _)

theorem stop_keeps_low (e e' : Endpoint) (g : Globals) (h : e.pin_low g) :
    e.pin_low (e'.stop g).2 := by
  unfold Endpoint.pin_low at h ⊢
  rw [stop_snd_mem]
  by_cases hp : e.port = e'.port
  · rw [hp, Function.update_same, Nat.land_assoc, Nat.land_comm (255 ^^^ _), ← Nat.land_assoc,
      ← hp, h]
    exact Nat.zero_and _
  · rw [Function.update_noteq hp]; exact h

theorem Stop_endpoint (a : CAudio) (i : Fin COUNT) :
    a.Stop.endpoint i = { a.endpoint i with active := false, duration := DQ } := by
  rw [Stop_eq]
  rcases fin_COUNT_cases i with rfl | rfl | rfl <;>
    simp [CAudio.DisableInterrupt]

theorem Stop_pin_low (a : CAudio) (i : Fin COUNT) :
    (a.Stop.endpoint i).pin_low a.Stop.globals := by
  have hcongr : ∀ (e : Endpoint) (g : Globals),
      ({ e with active := false, duration := DQ } : Endpoint).pin_low g ↔ e.pin_low g :=
    fun _ _ => Iff.rfl
  rw [Stop_endpoint, hcongr, Stop_eq]
  have low : ∀ (e : Endpoint) (g : Globals), e.pin_low (e.stop g).2 := by
    intro e g
    have := stop_pin_low e g
    rw [stop_fst, hcongr] at this
    exact this
  rcases fin_COUNT_cases i with rfl | rfl | rfl
  · simp only [run_globals, run_endpoint]
    exact stop_keeps_low _ _ _ (stop_keeps_low _ _ _ (low _ _))
  · simp only [run_globals, run_endpoint]
    apply stop_keeps_low
    simp only [show ((1 : Fin COUNT) = 0) = False by decide, if_false]
    exact low _ _
  · simp only [run_globals, run_endpoint]
    simp only [show ((2 : Fin COUNT) = 0) = False by decide,
      show ((2 : Fin COUNT) = 1) = False by decide, if_false]
    exact low _ _

theorem Stop_interrupt (a : CAudio) : a.Stop.interrupt_enabled = false := by
  rw [Stop_eq]; rfl

theorem Stop_count (a : CAudio) : a.Stop.count = a.count := by
  rw [Stop_eq]; rfl

theorem Stop_consistent (a : CAudio) (hc : a.consistent) : a.Stop.consistent := by
  rw [Stop_eq]
  exact run_consistent _ _ _ stop_tracks (run_consistent _ _ _ stop_tracks
    (run_consistent _ _ _ stop_tracks hc))

theorem Stop_active_count (a : CAudio) : a.Stop.active_count = 0 := by
  rw [active_count_eq, Stop_endpoint, Stop_endpoint, Stop_endpoint]
  rfl

theorem active_count_put (a : CAudio) (i : Fin COUNT) (r : Endpoint × Globals) :
    (a.put i r).active_count + (a.endpoint i).active.toNat
      = a.active_count + r.1.active.toNat := by
  rw [active_count_eq, active_count_eq]
  simp only [put_endpoint]
  have e10 : (1 : Fin COUNT) ≠ 0 := by decide
  have e20 : (2 : Fin COUNT) ≠ 0 := by decide
  have e01 : (0 : Fin COUNT) ≠ 1 := by decide
  have e21 : (2 : Fin COUNT) ≠ 1 := by decide
  have e02 : (0 : Fin COUNT) ≠ 2 := by decide
  have e12 : (1 : Fin COUNT) ≠ 2 := by decide
  rcases fin_COUNT_cases i with rfl | rfl | rfl
  · rw [if_pos rfl, if_neg e10, if_neg e20]; omega
  · rw [if_pos rfl, if_neg e01, if_neg e21]; omega
  · rw [if_pos rfl, if_neg e02, if_neg e12]; omega

theorem Play_count_endpoint (ds : List StreamFunc) :
    ∀ a : CAudio, (CAudio.Play_count ds a).endpoint = a.endpoint := by
  induction ds with
  | nil => intro a; rfl
  | cons d ds ih => intro a; rw [CAudio.Play_count, ih]

theorem Play_count_value (ds : List StreamFunc) :
    ∀ a : CAudio, a.globals.endpoint_count < 256 →
      (CAudio.Play_count ds a).globals.endpoint_count
        = (a.globals.endpoint_count + ds.length) % 256 := by
  induction ds with
  | nil => intro a h; exact (Nat.mod_eq_of_lt h).symm
  | cons d ds ih =>
    intro a h
    rw [CAudio.Play_count, ih _ (Nat.mod_lt _ (by decide))]
    simp only [List.length_cons]
    omega

theorem Play_assign_length (flash : Int → Nat) (fuel : Nat) (ds : List StreamFunc) :
    ∀ (index : Nat) (a b : CAudio), CAudio.Play_assign flash fuel ds index a = .ok b →
      ds = [] ∨ index + ds.length ≤ COUNT := by
  induction ds with
  | nil => intro _ _ _ _; exact Or.inl rfl
  | cons d ds ih =>
    intro index a b h
    right
    rw [CAudio.Play_assign] at h
    by_cases hi : index < COUNT
    · rw [dif_pos hi] at h
      cases hr : a.runM ⟨index, hi⟩ (Endpoint.assign flash fuel d) with
      | error f => rw [hr] at h; cases h
      | ok a' =>
        rw [hr] at h
        have hmod : (index + 1) % 256 = index + 1 := Nat.mod_eq_of_lt (by
          simp only [COUNT] at hi; omega)
        rw [hmod] at h
        rcases ih _ _ _ h with h0 | h1
        · rw [h0]; simp only [List.length_cons, List.length_nil]; omega
        · simp only [List.length_cons]; omega
    · rw [dif_neg hi] at h; cases h

theorem Play_assign_consistent (flash : Int → Nat) (fuel : Nat) (ds : List StreamFunc) :
    ∀ (index : Nat) (a b : CAudio), CAudio.Play_assign flash fuel ds index a = .ok b →
      a.globals.endpoint_count = a.active_count + ds.length →
      (∀ i : Fin COUNT, index ≤ i.val → (a.endpoint i).active = false) →
      index + ds.length ≤ COUNT → b.consistent := by
  induction ds with
  | nil =>
    intro index a b h hc _ _
    rw [CAudio.Play_assign] at h
    rw [← Except.ok.inj h]
    simpa [CAudio.consistent] using hc
  | cons d ds ih =>
    intro index a b h hc hin hlen
    rw [CAudio.Play_assign] at h
    simp only [List.length_cons] at hc hlen
    have hi : index < COUNT := by omega
    rw [dif_pos hi] at h
    unfold CAudio.runM at h
    cases hr : (a.endpoint ⟨index, hi⟩).assign flash fuel d a.globals with
    | error f => rw [hr] at h; cases h
    | ok r =>
      rw [hr] at h
      have hmod : (index + 1) % 256 = index + 1 := Nat.mod_eq_of_lt (by
        simp only [COUNT] at hi; omega)
      simp only [hmod] at h
      have hinact := hin ⟨index, hi⟩ (le_refl _)
      have hput := active_count_put a ⟨index, hi⟩ r
      rw [hinact] at hput
      have h3 := active_count_le a
      refine ih _ _ _ h ?_ ?_ (by omega)
      · rw [put_globals]
        rcases assign_tracks flash fuel d _ _ r hinact hr with ⟨h1, h2⟩ | ⟨h1, h2⟩
        · rw [h1] at hput; rw [h2, hc]
          simp only [Bool.toNat_true, Bool.toNat_false] at hput; omega
        · rw [h1] at hput; rw [h2, hc]
          simp only [Bool.toNat_true, Bool.toNat_false] at hput
          simp only [COUNT] at hlen; omega
      · intro i hle
        rw [put_endpoint, if_neg]
        · exact hin i (by omega)
        · intro heq
          rw [heq] at hle
          simp at hle

theorem Play_consistent (flash : Int → Nat) (fuel : Nat) (ds : List StreamFunc) (a b : CAudio)
    (hc : a.consistent) (h : a.Play flash fuel ds = .ok b) : b.consistent := by
  unfold CAudio.Play at h
  cases hr : CAudio.Play_assign flash fuel ds 0 (CAudio.Play_count ds a.Stop) with
  | error f => rw [hr] at h; cases h
  | ok c =>
    rw [hr] at h
    rw [← Except.ok.inj h]
    have hstop : a.Stop.globals.endpoint_count = 0 := by
      have := Stop_consistent a hc
      rw [CAudio.consistent, Stop_active_count] at this
      exact this
    have hlen : 0 + ds.length ≤ COUNT := by
      rcases Play_assign_length flash fuel ds 0 _ _ hr with h0 | h1
      · rw [h0]; decide
      · exact h1
    have hcons := Play_assign_consistent flash fuel ds 0 _ c hr (by
        rw [Play_count_value ds a.Stop (by rw [hstop]; decide), hstop]
        have hac : (CAudio.Play_count ds a.Stop).active_count = 0 := by
          rw [active_count_eq, Play_count_endpoint, Stop_endpoint, Stop_endpoint, Stop_endpoint]
          rfl
        rw [hac]
        simp only [COUNT] at hlen
        omega)
      (by
        intro i _
        rw [Play_count_endpoint, Stop_endpoint])
      hlen
    exact hcons

theorem tick_all_eq (a : CAudio) :
    indices.foldl (fun b index => b.run index Endpoint.tick) a
      = ((a.run 0 Endpoint.tick).run 1 Endpoint.tick).run 2 Endpoint.tick := by
  rw [indices_eq]; rfl

theorem tock_all_consistent (flash : Int → Nat) (fuel : Nat) (l : List (Fin COUNT)) :
    ∀ a b : CAudio, CAudio.tock_all flash fuel l a = .ok b → a.consistent → b.consistent := by
  induction l with
  | nil =>
    intro a b h hc
    rw [CAudio.tock_all] at h
    rw [← Except.ok.inj h]; exact hc
  | cons i l ih =>
    intro a b h hc
    rw [CAudio.tock_all] at h
    unfold CAudio.runM at h
    cases hr : (a.endpoint i).tock flash fuel a.globals with
    | error f => rw [hr] at h; cases h
    | ok r =>
      rw [hr] at h
      exact ih _ _ h (put_consistent a i r hc (tock_tracks flash fuel _ _ r hr))

theorem tock_all_count (flash : Int → Nat) (fuel : Nat) (l : List (Fin COUNT)) :
    ∀ a b : CAudio, CAudio.tock_all flash fuel l a = .ok b → b.count = a.count := by
  induction l with
  | nil =>
    intro a b h
    rw [CAudio.tock_all] at h
    rw [← Except.ok.inj h]
  | cons i l ih =>
    intro a b h
    rw [CAudio.tock_all] at h
    unfold CAudio.runM at h
    cases hr : (a.endpoint i).tock flash fuel a.globals with
    | error f => rw [hr] at h; cases h
    | ok r =>
      rw [hr] at h
      exact (ih _ _ h).trans (put_count a i r)

theorem InterruptMultipleStreams_consistent (flash : Int → Nat) (fuel : Nat) (a b : CAudio)
    (hc : a.consistent) (h : a.InterruptMultipleStreams flash fuel = .ok b) : b.consistent := by
  unfold CAudio.InterruptMultipleStreams at h
  rw [tick_all_eq] at h
  have h1 : (((a.run 0 Endpoint.tick).run 1 Endpoint.tick).run 2 Endpoint.tick).consistent :=
    run_consistent _ _ _ tick_tracks (run_consistent _ _ _ tick_tracks
      (run_consistent _ _ _ tick_tracks hc))
  generalize ((a.run 0 Endpoint.tick).run 1 Endpoint.tick).run 2 Endpoint.tick = a1 at h h1
  dsimp only at h
  by_cases hge : a1.count ≥ FREQUENCY / 1000
  · rw [if_pos hge] at h
    cases hr : CAudio.tock_all flash fuel indices
        { a1 with count := 0 } with
    | error f => simp only [hr] at h; cases h
    | ok a4 =>
      simp only [hr] at h
      have h4 : a4.consistent := tock_all_consistent flash fuel indices _ a4 hr h1
      split at h
      · rw [← Except.ok.inj h]; exact h4
      · rw [← Except.ok.inj h]; exact h4
  · rw [if_neg hge] at h
    rw [← Except.ok.inj h]; exact h1

theorem constructed_consistent (a : CAudio) (h : a.constructed = true) : a.consistent := by
  unfold CAudio.constructed at h
  rw [indices_eq] at h
  simp only [Bool.and_eq_true, beq_iff_eq, List.all_cons, List.all_nil, Bool.and_true,
    Bool.not_eq_true'] at h
  obtain ⟨⟨h0, -⟩, ha0, ha1, ha2⟩ := h
  unfold CAudio.consistent
  rw [active_count_eq, h0, ha0, ha1, ha2]
  rfl

theorem reachable_consistent (flash : Int → Nat) (a : CAudio) (h : Reachable flash a) :
    a.consistent := by
  induction h with
  | init a h => exact constructed_consistent a h
  | play fuel ds a b _ hp ih => exact Play_consistent flash fuel ds a b ih hp
  | stop a _ ih => exact Stop_consistent a ih
  | dispatch fuel a b _ hd ih => exact InterruptMultipleStreams_consistent flash fuel a b ih hd

theorem active_count_pos_iff (a : CAudio) :
    a.active_count ≠ 0 ↔ ∃ i : Fin COUNT, (a.endpoint i).active = true := by
  rw [active_count_eq]
  constructor
  · intro h
    by_contra hcon
    push_neg at hcon
    have h0 := hcon 0
    have h1 := hcon 1
    have h2 := hcon 2
    simp only [Bool.not_eq_true] at h0 h1 h2
    rw [h0, h1, h2] at h
    exact h rfl
  · rintro ⟨i, hi⟩
    have hb : ∀ b : Bool, b.toNat ≤ 1 := by decide
    have b0 := hb (a.endpoint 0).active
    have b1 := hb (a.endpoint 1).active
    have b2 := hb (a.endpoint 2).active
    rcases fin_COUNT_cases i with rfl | rfl | rfl <;> rw [hi] <;>
      simp only [Bool.toNat_true] <;> omega

/-- C5: in every engine state reached from construction by calls of `Play`,
`Stop` and `InterruptMultipleStreams` that return (a `Play` that returns was
given at most `COUNT = 3` descriptors), `endpoint_count` is the number of
endpoints whose `active` flag is set, and `IsActive()` is true exactly when
one of the three endpoints is active. -/
theorem reachable_count_is_active (flash : Int → Nat) (a : CAudio) (h : Reachable flash a) :
    a.globals.endpoint_count = a.active_count ∧
    (a.IsActive = true ↔ ∃ i : Fin COUNT, (a.endpoint i).active = true) := by
  have hc := reachable_consistent flash a h
  refine ⟨hc, ?_⟩
  rw [← active_count_pos_iff, ← hc]
  unfold CAudio.IsActive
  simp

/-- C6: from every reached engine state, after `Stop()` `IsActive()` is false,
every endpoint has `active = false`, its pin low and `duration = DQ`, and the
timer interrupt is disabled. -/
theorem Stop_from_reachable (flash : Int → Nat) (a : CAudio) (h : Reachable flash a) :
    a.Stop.IsActive = false ∧
    (∀ i : Fin COUNT, (a.Stop.endpoint i).active = false ∧
      (a.Stop.endpoint i).pin_low a.Stop.globals ∧ (a.Stop.endpoint i).duration = DQ) ∧
    a.Stop.interrupt_enabled = false := by
  have hc := Stop_consistent a (reachable_consistent flash a h)
  rw [CAudio.consistent, Stop_active_count] at hc
  refine ⟨?_, ?_, Stop_interrupt a⟩
  · unfold CAudio.IsActive
    rw [hc]; rfl
  · intro i
    refine ⟨?_, Stop_pin_low a i, ?_⟩
    · rw [Stop_endpoint]
    · rw [Stop_endpoint]

theorem Play_assign_cons_ok (flash : Int → Nat) (fuel : Nat) (d : StreamFunc)
    (ds : List StreamFunc) (index : Nat) (a b : CAudio) (h : index < COUNT)
    (hr : a.runM ⟨index, h⟩ (Endpoint.assign flash fuel d) = .ok b) :
    CAudio.Play_assign flash fuel (d :: ds) index a
      = CAudio.Play_assign flash fuel ds ((index + 1) % 256) b := by
  rw [CAudio.Play_assign, dif_pos h, hr]

theorem Play_assign_overflow (flash : Int → Nat) (fuel : Nat) (d : StreamFunc)
    (ds : List StreamFunc) (index : Nat) (a : CAudio) (h : ¬ index < COUNT) :
    CAudio.Play_assign flash fuel (d :: ds) index a = .error Fault.out_of_bounds := by
  rw [CAudio.Play_assign, dif_neg h]

theorem runM_assign_single_note (flash : Int → Nat) (fuel : Nat) (s : StreamFunc) (P D : Nat)
    (hP : P < END) (hD1 : DTS ≤ D) (hD2 : D ≤ DBLIP) (h0 : s 0 = 1) (h1 : s 1 = P)
    (h2 : s 2 = D) (a : CAudio) (i : Fin COUNT) :
    ∃ b, a.runM i (Endpoint.assign flash fuel s) = .ok b ∧ (b.endpoint i).active = true ∧
      ∀ j, j ≠ i → b.endpoint j = a.endpoint j := by
  obtain ⟨e1, ha, hact, -⟩ :=
    assign_single_note_state flash fuel s P D (a.endpoint i) a.globals hP hD1 hD2 h0 h1 h2
  refine ⟨a.put i (e1, ({ a.endpoint i with stream := s }.stop a.globals).2), ?_, ?_, ?_⟩
  · unfold CAudio.runM
    rw [ha]
  · rw [put_endpoint, if_pos rfl]; exact hact
  · intro j hj
    rw [put_endpoint, if_neg hj]

theorem play_one_returns (flash : Int → Nat) (fuel : Nat) (s : StreamFunc) (P D : Nat)
    (hP : P < END) (hD1 : DTS ≤ D) (hD2 : D ≤ DBLIP) (h0 : s 0 = 1) (h1 : s 1 = P)
    (h2 : s 2 = D) (a : CAudio) :
    ∃ b, a.Play flash fuel [s] = .ok b ∧ (b.endpoint 0).active = true := by
  obtain ⟨b, hb, hact, -⟩ := runM_assign_single_note flash fuel s P D hP hD1 hD2 h0 h1 h2
    (CAudio.Play_count [s] a.Stop) ⟨0, by decide⟩
  refine ⟨b.EnableInterrupt, ?_, hact⟩
  unfold CAudio.Play
  rw [Play_assign_cons_ok flash fuel s [] 0 _ b (by decide) hb, CAudio.Play_assign]

/-- Witness of C5: the engine after `Play` of `[1, NC4, DH, END]`. -/
theorem reachable_count_is_active_witness :
    ∃ b, idle_engine.Play (fun _ => 0) 0 [buffer_stream [1, NC4, DH, END]] = .ok b ∧
      b.globals.endpoint_count = b.active_count ∧
      (b.IsActive = true ↔ ∃ i : Fin COUNT, (b.endpoint i).active = true) := by
  obtain ⟨b, hb, -⟩ := play_one_returns (fun _ => 0) 0 (buffer_stream [1, NC4, DH, END]) NC4 DH
    (by decide) (by decide) (by decide) rfl rfl rfl idle_engine
  exact ⟨b, hb, reachable_count_is_active (fun _ => 0) b
    (Reachable.play 0 _ idle_engine b (Reachable.init idle_engine (by decide)) hb)⟩

/-- Witness of C6: `Stop` after `Play` of `[1, NC4, DH, END]`. -/
theorem Stop_from_reachable_witness :
    ∃ b, idle_engine.Play (fun _ => 0) 0 [buffer_stream [1, NC4, DH, END]] = .ok b ∧
      (b.endpoint 0).active = true ∧ b.Stop.IsActive = false ∧
      (∀ i : Fin COUNT, (b.Stop.endpoint i).active = false ∧
        (b.Stop.endpoint i).pin_low b.Stop.globals ∧ (b.Stop.endpoint i).duration = DQ) ∧
      b.Stop.interrupt_enabled = false := by
  obtain ⟨b, hb, hact⟩ := play_one_returns (fun _ => 0) 0 (buffer_stream [1, NC4, DH, END])
    NC4 DH (by decide) (by decide) (by decide) rfl rfl rfl idle_engine
  exact ⟨b, hb, hact, Stop_from_reachable (fun _ => 0) b
    (Reachable.play 0 _ idle_engine b (Reachable.init idle_engine (by decide)) hb)⟩

/-- C7 (the code on four sources): from an engine whose `endpoint_count` counts
its active endpoints, `Play` with four copies of a stream `[1, P, D, END]`
leaves, after its counting loop, `endpoint_count = 4`, and its assignment loop
reaches `endpoint[3]`, outside the array of `COUNT = 3` endpoints: no bound on
the number of descriptors is tested. -/
theorem Play_four_sources (flash : Int → Nat) (fuel : Nat) (s : StreamFunc) (P D : Nat)
    (a : CAudio) (hP : P < END) (hD1 : DTS ≤ D) (hD2 : D ≤ DBLIP) (h0 : s 0 = 1)
    (h1 : s 1 = P) (h2 : s 2 = D) (hc : a.consistent) :
    (CAudio.Play_count [s, s, s, s] a.Stop).globals.endpoint_count = 4 ∧
    a.Play flash fuel [s, s, s, s] = .error Fault.out_of_bounds := by
  have hstop : a.Stop.globals.endpoint_count = 0 := by
    have := Stop_consistent a hc
    rw [CAudio.consistent, Stop_active_count] at this
    exact this
  refine ⟨?_, ?_⟩
  · rw [Play_count_value _ _ (by rw [hstop]; decide), hstop]; rfl
  · unfold CAudio.Play
    obtain ⟨b0, hb0, -⟩ := runM_assign_single_note flash fuel s P D hP hD1 hD2 h0 h1 h2
      (CAudio.Play_count [s, s, s, s] a.Stop) ⟨0, by decide⟩
    obtain ⟨b1, hb1, -⟩ := runM_assign_single_note flash fuel s P D hP hD1 hD2 h0 h1 h2
      b0 ⟨1, by decide⟩
    obtain ⟨b2, hb2, -⟩ := runM_assign_single_note flash fuel s P D hP hD1 hD2 h0 h1 h2
      b1 ⟨2, by decide⟩
    rw [Play_assign_cons_ok flash fuel s _ 0 _ b0 (by decide) hb0,
      Play_assign_cons_ok flash fuel s _ ((0 + 1) % 256) _ b1 (by decide) hb1,
      Play_assign_cons_ok flash fuel s _ (((0 + 1) % 256 + 1) % 256) _ b2 (by decide) hb2,
      Play_assign_overflow flash fuel s [] _ b2 (by decide)]

/-- Witness of C7's evaluation: four copies of `[1, NC4, DH, END]` on the engine
right after construction. -/
theorem Play_four_sources_witness :
    (CAudio.Play_count
        [buffer_stream [1, NC4, DH, END], buffer_stream [1, NC4, DH, END],
         buffer_stream [1, NC4, DH, END], buffer_stream [1, NC4, DH, END]]
        idle_engine.Stop).globals.endpoint_count = 4 ∧
    idle_engine.Play (fun _ => 0) 0
        [buffer_stream [1, NC4, DH, END], buffer_stream [1, NC4, DH, END],
         buffer_stream [1, NC4, DH, END], buffer_stream [1, NC4, DH, END]]
      = .error Fault.out_of_bounds :=
  Play_four_sources (fun _ => 0) 0 (buffer_stream [1, NC4, DH, END]) NC4 DH idle_engine
    (by decide) (by decide) (by decide) rfl rfl rfl
    (constructed_consistent idle_engine (by decide))

theorem InterruptMultipleStreams_count (flash : Int → Nat) (fuel : Nat) (a b : CAudio)
    (h : a.InterruptMultipleStreams flash fuel = .ok b) :
    b.count = if FREQUENCY / 1000 ≤ a.count then 0 else (a.count + 1) % 256 := by
  unfold CAudio.InterruptMultipleStreams at h
  rw [tick_all_eq] at h
  have hcnt : (((a.run 0 Endpoint.tick).run 1 Endpoint.tick).run 2 Endpoint.tick).count
      = a.count := rfl
  generalize ((a.run 0 Endpoint.tick).run 1 Endpoint.tick).run 2 Endpoint.tick = a1 at h hcnt
  dsimp only at h
  rw [← hcnt]
  by_cases hge : a1.count ≥ FREQUENCY / 1000
  · rw [if_pos hge] at h
    rw [if_pos hge]
    cases hr : CAudio.tock_all flash fuel indices { a1 with count := 0 } with
    | error f => simp only [hr] at h; cases h
    | ok a4 =>
      simp only [hr] at h
      have h4 : a4.count = 0 := tock_all_count flash fuel indices _ a4 hr
      split at h
      · rw [← Except.ok.inj h]; exact h4
      · rw [← Except.ok.inj h]; exact h4
  · rw [if_neg hge] at h
    rw [if_neg hge, ← Except.ok.inj h]

theorem dispatch_n_count (flash : Int → Nat) (fuel : Nat) :
    ∀ (k : Nat) (a b : CAudio), a.count ≤ 64 → dispatch_n flash fuel k a = .ok b →
      b.count = (a.count + k) % 65 := by
  intro k
  induction k with
  | zero =>
    intro a b hle h
    rw [dispatch_n] at h
    rw [← Except.ok.inj h]
    omega
  | succ k ih =>
    intro a b hle h
    rw [dispatch_n] at h
    cases hr : a.InterruptMultipleStreams flash fuel with
    | error f => rw [hr] at h; cases h
    | ok c =>
      rw [hr] at h
      have hc := InterruptMultipleStreams_count flash fuel a c hr
      simp only [FREQUENCY, Nat.reduceDiv] at hc
      have hc' : c.count = (a.count + 1) % 65 := by
        rw [hc]; split <;> omega
      have := ih c b (by omega) h
      rw [this, hc']
      omega

/-- C10 (the code): starting from `count = 0`, after `k` calls of
`InterruptMultipleStreams` the sub-counter is `k % 65`, so call number `k + 1`
passes the test `count++ >= FREQUENCY / 1000` (and runs `tock`) exactly when
`k + 1` is a multiple of 65, not of 64. -/
theorem dispatch_tock_period (flash : Int → Nat) (fuel : Nat) (k : Nat) (a b : CAudio)
    (h0 : a.count = 0) (h : dispatch_n flash fuel k a = .ok b) :
    b.count = k % 65 ∧ (FREQUENCY / 1000 ≤ b.count ↔ 65 ∣ k + 1) := by
  have hb := dispatch_n_count flash fuel k a b (by omega) h
  rw [h0, Nat.zero_add] at hb
  refine ⟨hb, ?_⟩
  rw [hb]
  simp only [FREQUENCY, Nat.reduceDiv]
  omega

theorem tracks_inactive (e : Endpoint) (g : Globals) (r : Endpoint × Globals)
    (ht : Tracks e g r) (he : e.active = false) : r.1.active = false := by
  rcases ht with ⟨h1, -⟩ | ⟨-, h1, -⟩
  · rw [h1, he]
  · exact h1

theorem put_quiet (a : CAudio) (i : Fin COUNT) (r : Endpoint × Globals)
    (hq : ∀ j, (a.endpoint j).active = false) (hr : r.1.active = false) :
    ∀ j, ((a.put i r).endpoint j).active = false := by
  intro j
  rw [put_endpoint]
  by_cases h : j = i
  · rw [if_pos h]; exact hr
  · rw [if_neg h]; exact hq j

theorem tock_inactive (flash : Int → Nat) (fuel : Nat) (e : Endpoint) (g : Globals)
    (he : e.active = false) : e.tock flash fuel g = .ok (e, g) := by
  unfold Endpoint.tock
  rw [if_neg (by rw [he]; decide)]

theorem tock_all_quiet (flash : Int → Nat) (fuel : Nat) (l : List (Fin COUNT)) :
    ∀ a : CAudio, (∀ j, (a.endpoint j).active = false) →
      ∃ b, CAudio.tock_all flash fuel l a = .ok b ∧ ∀ j, (b.endpoint j).active = false := by
  induction l with
  | nil => intro a hq; exact ⟨a, rfl, hq⟩
  | cons i l ih =>
    intro a hq
    rw [CAudio.tock_all]
    unfold CAudio.runM
    rw [tock_inactive flash fuel _ _ (hq i)]
    exact ih _ (put_quiet a i _ hq (hq i))

theorem InterruptMultipleStreams_quiet (flash : Int → Nat) (fuel : Nat) (a : CAudio)
    (hq : ∀ j, (a.endpoint j).active = false) :
    ∃ b, a.InterruptMultipleStreams flash fuel = .ok b ∧
      ∀ j, (b.endpoint j).active = false := by
  unfold CAudio.InterruptMultipleStreams
  rw [tick_all_eq]
  have step : ∀ (c : CAudio) (i : Fin COUNT), (∀ j, (c.endpoint j).active = false) →
      ∀ j, ((c.run i Endpoint.tick).endpoint j).active = false := by
    intro c i hc
    exact put_quiet c i _ hc (tracks_inactive _ _ _ (tick_tracks _ _) (hc i))
  have h1 := step _ 2 (step _ 1 (step a 0 hq))
  generalize ((a.run 0 Endpoint.tick).run 1 Endpoint.tick).run 2 Endpoint.tick = a1 at h1
  dsimp only
  by_cases hge : a1.count ≥ FREQUENCY / 1000
  · rw [if_pos hge]
    obtain ⟨b, hb, hbq⟩ := tock_all_quiet flash fuel indices { a1 with count := 0 } h1
    simp only [hb]
    split
    · exact ⟨_, rfl, hbq⟩
    · exact ⟨_, rfl, hbq⟩
  · rw [if_neg hge]
    exact ⟨_, rfl, h1⟩

theorem dispatch_n_quiet (flash : Int → Nat) (fuel : Nat) :
    ∀ (k : Nat) (a : CAudio), (∀ j, (a.endpoint j).active = false) →
      ∃ b, dispatch_n flash fuel k a = .ok b := by
  intro k
  induction k with
  | zero => intro a _; exact ⟨a, rfl⟩
  | succ k ih =>
    intro a hq
    obtain ⟨c, hc, hcq⟩ := InterruptMultipleStreams_quiet flash fuel a hq
    rw [dispatch_n, hc]
    exact ih c hcq

/-- Witness of C10's evaluation: after 63 calls on the idle engine the
sub-counter is 63, so the 64th call does not reach `tock`. -/
theorem dispatch_tock_period_witness :
    ∃ b, dispatch_n (fun _ => 0) 0 63 idle_engine = .ok b ∧
      b.count = 63 % 65 ∧ (FREQUENCY / 1000 ≤ b.count ↔ 65 ∣ 63 + 1) := by
  obtain ⟨b, hb⟩ := dispatch_n_quiet (fun _ => 0) 0 63 idle_engine (fun _ => rfl)
  exact ⟨b, hb, dispatch_tock_period (fun _ => 0) 0 63 idle_engine b rfl hb⟩

/-- C14 (as stated, refuted): the claim counts 96 pitched-note indices, which
puts `END` at 97; the enumeration has 92 of them and `END = 93`. -/
theorem vocabulary_not_96_pitches :
    ¬ (NOTE.pitched.length = 96 ∧ NOTE.END.value = 97) := by
  decide

/-- C14 (amended): `NRS` has value 0; it is followed by exactly 92 pitched
tokens with the values 1..92 (84 notes `NC2..NB8` and 8 sounds `NS0..NS7`);
then come `END = 93` and `TEMPO = END + 1`; the tokens above `TEMPO` are
exactly the 13 duration modifiers; every pitched token is below `END`.  The
constants used by `next` are these values. -/
theorem vocabulary_layout :
    NOTE.NRS.value = 0 ∧
    NOTE.pitched.length = 92 ∧
    NOTE.pitched.map NOTE.value = List.range' 1 92 ∧
    NOTE.NC2.value = 1 ∧ NOTE.NB8.value = 84 ∧ NOTE.NS0.value = 85 ∧ NOTE.NS7.value = 92 ∧
    NOTE.END.value = 93 ∧
    NOTE.TEMPO.value = NOTE.END.value + 1 ∧
    (∀ t : NOTE, t ∈ NOTE.modifiers ↔ NOTE.TEMPO.value < t.value) ∧
    NOTE.modifiers.length = 13 ∧
    (∀ t ∈ NOTE.pitched, t.value < NOTE.END.value) ∧
    (END = NOTE.END.value ∧ TEMPO = NOTE.TEMPO.value ∧ DTS = NOTE.DTS.value ∧
      DQ = NOTE.DQ.value ∧ DBLIP = NOTE.DBLIP.value) := by
  refine ⟨rfl, by decide, by decide, rfl, rfl, rfl, rfl, rfl, rfl, ?_, rfl, by decide,
    rfl, rfl, rfl, rfl, rfl⟩
  intro t
  cases t <;> decide

/-- C17: the frequency table has an entry for every token below `END`, none of
them zero, so `64000 / audio_note[P]` is a quotient by a non-zero divisor and
lies in 8..64000 (below 2^16); for a duration code `D` in `DTS..DBLIP` the
index `D - TEMPO - 1` is inside the 13-entry duration table, and for every
byte `m` the product `m * audio_duration[D - TEMPO - 1]` is at most 12240, so
`next` stores the quotient in `period` and the product in `ms_remaining`
without reduction. -/
theorem decode_tables_well_defined :
    audio_note.length = END ∧ audio_duration.length = 13 ∧
    (∀ P, P < END → audio_note.getD P 0 ≠ 0 ∧
      8 ≤ 64000 / audio_note.getD P 0 ∧ 64000 / audio_note.getD P 0 ≤ 64000 ∧
      64000 / audio_note.getD P 0 < 65536) ∧
    (∀ D, DTS ≤ D → D ≤ DBLIP → D - TEMPO - 1 < audio_duration.length ∧
      ∀ m, m < 256 → m * audio_duration.getD (D - TEMPO - 1) 0 ≤ 12240 ∧
        m * audio_duration.getD (D - TEMPO - 1) 0 < 65536) ∧
    (∀ (flash : Int → Nat) (fuel : Nat) (e : Endpoint) (g : Globals) (P D : Nat),
      P < END → DTS ≤ D → D ≤ DBLIP → e.multiplier < 256 →
      e.stream (e.index % 65536) % 256 = P → e.stream ((e.index + 1) % 65536) % 256 = D →
      ∃ e1, e.next flash fuel g = .ok (e1, g) ∧ e1.period = 64000 / audio_note.getD P 0 ∧
        e1.ms_remaining = e.multiplier * audio_duration.getD (D - TEMPO - 1) 0) := by
  refine ⟨by decide, by decide, ?_, ?_, ?_⟩
  · intro P hP
    obtain ⟨h1, h2⟩ := audio_note_bounds P hP
    obtain ⟨h3, h4⟩ := period_bounds P hP
    exact ⟨by omega, h3, h4, lt_of_le_of_lt h4 (by decide)⟩
  · intro D hD1 hD2
    refine ⟨?_, ?_⟩
    · simp only [DTS, DBLIP, TEMPO] at hD1 hD2 ⊢
      have : audio_duration.length = 13 := by decide
      omega
    · intro m hm
      have h48 := audio_duration_le (D - TEMPO - 1)
      have : m * audio_duration.getD (D - TEMPO - 1) 0 ≤ 255 * 48 :=
        Nat.mul_le_mul (by omega) h48
      omega
  · intro flash fuel e g P D hP hD1 hD2 hm ht hn
    have hDt : TEMPO < e.stream ((e.index + 1) % 65536) % 256 := by
      rw [hn]; simp only [DTS, TEMPO] at hD1 ⊢; omega
    rw [next_pitch_modifier flash fuel e g (by rw [ht]; exact hP) hDt]
    refine ⟨_, rfl, ?_, ?_⟩
    · show (FREQUENCY / audio_note.getD (e.stream (e.index % 65536) % 256) 0) % 65536 = _
      rw [ht]
      exact Nat.mod_eq_of_lt (lt_of_le_of_lt (period_bounds P hP).2 (by decide))
    · show (e.multiplier * read_audio_duration flash
        (((e.stream ((e.index + 1) % 65536) % 256 : Nat) : Int) - TEMPO - 1)) % 65536 = _
      rw [hn, read_audio_duration_valid flash D hD1 hD2]
      have h48 := audio_duration_le (D - TEMPO - 1)
      have : e.multiplier * audio_duration.getD (D - TEMPO - 1) 0 ≤ 255 * 48 :=
        Nat.mul_le_mul (by omega) h48
      exact Nat.mod_eq_of_lt (by omega)

/-- Witness of C14: the modifier `DBLIP` lies above `TEMPO`. -/
theorem vocabulary_layout_witness : NOTE.TEMPO.value < NOTE.DBLIP.value :=
  (vocabulary_layout.2.2.2.2.2.2.2.2.2.1 NOTE.DBLIP).mp (by decide)

/-- Witness of C17 at the pitch `NC4`: the period is 244. -/
theorem decode_tables_well_defined_witness :
    audio_note.getD NC4 0 ≠ 0 ∧
      8 ≤ 64000 / audio_note.getD NC4 0 ∧ 64000 / audio_note.getD NC4 0 ≤ 64000 ∧
      64000 / audio_note.getD NC4 0 < 65536 :=
  decode_tables_well_defined.2.2.1 NC4 (by decide)

theorem assign_first_note (flash : Int → Nat) (fuel : Nat) (s : StreamFunc) (m P D : Nat)
    (e : Endpoint) (g : Globals) (hm : m < 256) (hP : P < END) (hD1 : DTS ≤ D)
    (hD2 : D ≤ DBLIP) (h0 : s 0 = m) (h1 : s 1 = P) (h2 : s 2 = D) :
    ∃ e1, e.assign flash fuel s g = .ok (e1, ({ e with stream := s }.stop g).2) ∧
      e1.active = true ∧ e1.index = 3 ∧ e1.stream = s ∧ e1.duration = D ∧ e1.multiplier = m ∧
      e1.ms_remaining = m * audio_duration.getD (D - TEMPO - 1) 0 ∧
      e1.period = 64000 / audio_note.getD P 0 ∧ e1.period_remaining = e1.period := by
  have hmb : m % 256 = m := Nat.mod_eq_of_lt hm
  have hPb : P % 256 = P := Nat.mod_eq_of_lt (by simp only [END] at hP; omega)
  have hDb : D % 256 = D := Nat.mod_eq_of_lt (by simp only [DBLIP] at hD2; omega)
  have hDt : D > TEMPO := by simp only [DTS] at hD1; simp only [TEMPO]; omega
  have h48 := audio_duration_le (D - TEMPO - 1)
  have hprod : m * audio_duration.getD (D - TEMPO - 1) 0 ≤ 255 * 48 :=
    Nat.mul_le_mul (by omega) h48
  rw [assign_eq, next_pitch_modifier]
  · refine ⟨_, rfl, rfl, rfl, rfl, ?_, ?_, ?_, ?_, rfl⟩
    · show s ((1 + 1) % 65536) % 256 = D
      rw [show ((1 + 1) % 65536) = 2 from rfl, h2, hDb]
    · show s 0 % 256 = m
      rw [h0, hmb]
    · show (s 0 % 256 * read_audio_duration flash
        (((s ((1 + 1) % 65536) % 256 : Nat) : Int) - TEMPO - 1)) % 65536 = _
      rw [show ((1 + 1) % 65536) = 2 from rfl, h0, h2, hDb, hmb,
        read_audio_duration_valid flash D hD1 hD2]
      exact Nat.mod_eq_of_lt (by omega)
    · show (FREQUENCY / audio_note.getD (s (1 % 65536) % 256) 0) % 65536 = _
      rw [show (1 % 65536) = 1 from rfl, h1, hPb]
      exact Nat.mod_eq_of_lt (lt_of_le_of_lt (period_bounds P hP).2 (by decide))
  · show s (1 % 65536) % 256 < END
    rw [show (1 % 65536) = 1 from rfl, h1, hPb]; exact hP
  · show TEMPO < s ((1 + 1) % 65536) % 256
    rw [show ((1 + 1) % 65536) = 2 from rfl, h2, hDb]; exact hDt

theorem next_plain_fields (flash : Int → Nat) (fuel : Nat) (e : Endpoint) (g : Globals)
    (P : Nat) (hP : P < END) (htok : e.stream (e.index % 65536) % 256 = P)
    (hla : ¬ TEMPO < e.stream ((e.index + 1) % 65536) % 256)
    (hD1 : DTS ≤ e.duration) (hD2 : e.duration ≤ DBLIP) (hm : e.multiplier < 256) :
    ∃ e2, e.next flash fuel g = .ok (e2, g) ∧ e2.active = e.active ∧
      e2.duration = e.duration ∧ e2.multiplier = e.multiplier ∧
      e2.index = (e.index + 1) % 65536 ∧ e2.stream = e.stream ∧
      e2.period = 64000 / audio_note.getD P 0 ∧ e2.period_remaining = e2.period ∧
      e2.ms_remaining = e.multiplier * audio_duration.getD (e.duration - TEMPO - 1) 0 := by
  have h48 := audio_duration_le (e.duration - TEMPO - 1)
  have hprod : e.multiplier * audio_duration.getD (e.duration - TEMPO - 1) 0 ≤ 255 * 48 :=
    Nat.mul_le_mul (by omega) h48
  refine ⟨_, next_pitch_plain flash fuel e g (by rw [htok]; exact hP) hla,
    rfl, rfl, rfl, rfl, rfl, ?_, rfl, ?_⟩
  · show (FREQUENCY / audio_note.getD (e.stream (e.index % 65536) % 256) 0) % 65536 = _
    rw [htok]
    exact Nat.mod_eq_of_lt (lt_of_le_of_lt (period_bounds P hP).2 (by decide))
  · show (e.multiplier * read_audio_duration flash ((e.duration : Int) - TEMPO - 1)) % 65536 = _
    rw [read_audio_duration_valid flash e.duration hD1 hD2]
    exact Nat.mod_eq_of_lt (by omega)

/-- C15: when `next` reads a pitch at the cursor, a look-ahead token above
`TEMPO` becomes `duration` and `index` advances by 2; any other look-ahead
token leaves `duration` as it was and `index` advances by 1; `multiplier` is
untouched either way.  For `[m, P1, D1, P2, END]` the first decode (in
`assign`) stores `D1`, and the second decode (the `next` that `tock` runs when
the first note expires, after `m * audio_duration[D1 - TEMPO - 1]` tocks when
`m > 0`) gives `ms_remaining = m * audio_duration[D1 - TEMPO - 1]` with
`multiplier = m` and `duration = D1`. -/
theorem lookahead_duration_persists (flash : Int → Nat) (fuel : Nat) :
    (∀ (e : Endpoint) (g : Globals), e.stream (e.index % 65536) % 256 < END →
      ∃ e1, e.next flash fuel g = .ok (e1, g) ∧ e1.multiplier = e.multiplier ∧
        (TEMPO < e.stream ((e.index + 1) % 65536) % 256 →
          e1.duration = e.stream ((e.index + 1) % 65536) % 256 ∧
          e1.index = (e.index + 2) % 65536) ∧
        (¬ TEMPO < e.stream ((e.index + 1) % 65536) % 256 →
          e1.duration = e.duration ∧ e1.index = (e.index + 1) % 65536)) ∧
    (∀ (s : StreamFunc) (m P1 D1 P2 : Nat) (e : Endpoint) (g : Globals),
      m < 256 → P1 < END → DTS ≤ D1 → D1 ≤ DBLIP → P2 < END →
      s 0 = m → s 1 = P1 → s 2 = D1 → s 3 = P2 → s 4 = END →
      ∃ e1 g1 e2, e.assign flash fuel s g = .ok (e1, g1) ∧
        e1.duration = D1 ∧ e1.multiplier = m ∧ e1.index = 3 ∧
        e1.ms_remaining = m * audio_duration.getD (D1 - TEMPO - 1) 0 ∧
        Endpoint.next flash fuel { e1 with ms_remaining := 0 } g1 = .ok (e2, g1) ∧
        (0 < m → tock_n flash fuel e1.ms_remaining e1 g1 = .ok (e2, g1)) ∧
        e2.active = true ∧ e2.duration = D1 ∧ e2.multiplier = m ∧ e2.index = 4 ∧
        e2.period = 64000 / audio_note.getD P2 0 ∧
        e2.ms_remaining = m * audio_duration.getD (D1 - TEMPO - 1) 0) := by
  refine ⟨?_, ?_⟩
  · intro e g h1
    by_cases h2 : TEMPO < e.stream ((e.index + 1) % 65536) % 256
    · exact ⟨_, next_pitch_modifier flash fuel e g h1 h2, rfl,
        fun _ => ⟨rfl, rfl⟩, fun h => absurd h2 h⟩
    · exact ⟨_, next_pitch_plain flash fuel e g h1 h2, rfl,
        fun h => absurd h h2, fun _ => ⟨rfl, rfl⟩⟩
  · intro s m P1 D1 P2 e g hm hP1 hD1 hD2 hP2 h0 h1 h2 h3 h4
    have hP2b : P2 % 256 = P2 := Nat.mod_eq_of_lt (by simp only [END] at hP2; omega)
    obtain ⟨e1, ha, hact, hidx, hstr, hdur, hmul, hms, -, -⟩ :=
      assign_first_note flash fuel s m P1 D1 e g hm hP1 hD1 hD2 h0 h1 h2
    obtain ⟨e2, hn, hact2, hdur2, hmul2, hidx2, -, hper2, -, hms2⟩ :=
      next_plain_fields flash fuel { e1 with ms_remaining := 0 }
        ({ e with stream := s }.stop g).2 P2 hP2
        (by show e1.stream (e1.index % 65536) % 256 = P2
            rw [hstr, hidx, show (3 % 65536) = 3 from rfl, h3, hP2b])
        (by show ¬ TEMPO < e1.stream ((e1.index + 1) % 65536) % 256
            rw [hstr, hidx, show ((3 + 1) % 65536) = 4 from rfl, h4]; decide)
        (by show DTS ≤ e1.duration; rw [hdur]; exact hD1)
        (by show e1.duration ≤ DBLIP; rw [hdur]; exact hD2)
        (by show e1.multiplier < 256; rw [hmul]; exact hm)
    have h48 := audio_duration_le (D1 - TEMPO - 1)
    have hpos := audio_duration_pos D1 hD1 hD2
    have hprod : m * audio_duration.getD (D1 - TEMPO - 1) 0 ≤ 255 * 48 :=
      Nat.mul_le_mul (by omega) h48
    refine ⟨e1, _, e2, ha, hdur, hmul, hidx, hms, hn, ?_, hact2.trans hact,
      hdur2.trans hdur, hmul2.trans hmul, ?_, hper2, ?_⟩
    · intro hm0
      have hpos' : 0 < m * audio_duration.getD (D1 - TEMPO - 1) 0 := Nat.mul_pos hm0 hpos
      rw [tock_full_duration flash fuel _ e1 hact (by rw [hms]; omega) (by rw [hms]; exact hpos')]
      exact hn
    · rw [hidx2]; show (e1.index + 1) % 65536 = 4; rw [hidx]
    · rw [hms2]; show e1.multiplier * audio_duration.getD (e1.duration - TEMPO - 1) 0 = _
      rw [hmul, hdur]

/-- Witness of C15 on `[2, NC4, DH, NC4, END]`: both notes last `2 * 24` ms. -/
theorem lookahead_duration_persists_witness :
    ∃ e1 g1 e2, sample_endpoint.assign (fun _ => 0) 0 (buffer_stream [2, NC4, DH, NC4, END])
        sample_globals = .ok (e1, g1) ∧
      e1.duration = DH ∧ e1.multiplier = 2 ∧ e1.index = 3 ∧
      e1.ms_remaining = 2 * audio_duration.getD (DH - TEMPO - 1) 0 ∧
      Endpoint.next (fun _ => 0) 0 { e1 with ms_remaining := 0 } g1 = .ok (e2, g1) ∧
      (0 < 2 → tock_n (fun _ => 0) 0 e1.ms_remaining e1 g1 = .ok (e2, g1)) ∧
      e2.active = true ∧ e2.duration = DH ∧ e2.multiplier = 2 ∧ e2.index = 4 ∧
      e2.period = 64000 / audio_note.getD NC4 0 ∧
      e2.ms_remaining = 2 * audio_duration.getD (DH - TEMPO - 1) 0 :=
  (lookahead_duration_persists (fun _ => 0) 0).2 (buffer_stream [2, NC4, DH, NC4, END])
    2 NC4 DH NC4 sample_endpoint sample_globals (by decide) (by decide) (by decide) (by decide)
    (by decide) rfl rfl rfl rfl rfl

theorem tock_wrap (flash : Int → Nat) (fuel : Nat) (e : Endpoint) (g : Globals)
    (hact : e.active = true) (h0 : e.ms_remaining = 0) :
    e.tock flash fuel g = .ok ({ e with ms_remaining := 65535 }, g) := by
  unfold Endpoint.tock
  rw [if_pos hact]
  dsimp only
  rw [h0, show (0 + 65535) % 65536 = 65535 from rfl, if_neg (by decide)]

theorem tock_n_expire (flash : Int → Nat) (fuel : Nat) (g : Globals) (e : Endpoint) (n : Nat)
    (hact : e.active = true) (hms : e.ms_remaining = n) (hpos : 0 < n) (hlt : n < 65536) :
    tock_n flash fuel n e g = Endpoint.next flash fuel { e with ms_remaining := 0 } g := by
  subst hms
  exact tock_full_duration flash fuel g e hact hlt hpos

theorem tock_n_countdown (flash : Int → Nat) (fuel : Nat) (g : Globals) (e : Endpoint)
    (n j : Nat) (hact : e.active = true) (hms : e.ms_remaining = n) (hlt : n < 65536)
    (hj : j < n) :
    tock_n flash fuel j e g = .ok ({ e with ms_remaining := n - j }, g) := by
  subst hms
  exact tock_countdown flash fuel g j e hact hlt hj

/-- C19: for a stream `[0, P, D, ...]` `assign` leaves the channel active with
`ms_remaining = 0`; the first `tock` only wraps `ms_remaining` to 65535; the
first 65535 calls of `tock` change nothing but `ms_remaining` (no decode), and
the 65536th call is the one that runs `next`. -/
theorem zero_multiplier_wraps (flash : Int → Nat) (fuel : Nat) (s : StreamFunc) (P D : Nat)
    (e : Endpoint) (g : Globals) (hP : P < END) (hD1 : DTS ≤ D) (hD2 : D ≤ DBLIP)
    (h0 : s 0 = 0) (h1 : s 1 = P) (h2 : s 2 = D) :
    ∃ e1 g1, e.assign flash fuel s g = .ok (e1, g1) ∧ e1.active = true ∧
      e1.ms_remaining = 0 ∧
      e1.tock flash fuel g1 = .ok ({ e1 with ms_remaining := 65535 }, g1) ∧
      (∀ j, 1 ≤ j → j < 65536 →
        tock_n flash fuel j e1 g1 = .ok ({ e1 with ms_remaining := 65536 - j }, g1)) ∧
      tock_n flash fuel 65536 e1 g1
        = Endpoint.next flash fuel { e1 with ms_remaining := 0 } g1 := by
  obtain ⟨e1, ha, hact, -, -, -, -, hms, -, -⟩ :=
    assign_first_note flash fuel s 0 P D e g (by decide) hP hD1 hD2 h0 h1 h2
  rw [Nat.zero_mul] at hms
  have hw := tock_wrap flash fuel e1 ({ e with stream := s }.stop g).2 hact hms
  refine ⟨e1, _, ha, hact, hms, hw, ?_, ?_⟩
  · intro j hj1 hj2
    obtain ⟨i, rfl⟩ : ∃ i, j = i + 1 := ⟨j - 1, by omega⟩
    rw [tock_n_unfold, hw]
    have hc := tock_n_countdown flash fuel ({ e with stream := s }.stop g).2
      { e1 with ms_remaining := 65535 } 65535 i hact rfl (by norm_num) (show i < 65535 by omega)
    have hsub : 65535 - i = 65536 - (i + 1) := by omega
    rw [← hsub]
    exact hc
  · have h1 : (65536 : Nat) = 65535 + 1 := by norm_num
    have hx := tock_n_expire flash fuel ({ e with stream := s }.stop g).2
      { e1 with ms_remaining := 65535 } 65535 hact rfl (by norm_num) (by norm_num)
    rw [h1, tock_n_unfold, hw]
    dsimp only
    exact hx

/-- Witness of C19 on `[0, NC4, DH, END]`. -/
theorem zero_multiplier_wraps_witness :
    ∃ e1 g1, sample_endpoint.assign (fun _ => 0) 0 (buffer_stream [0, NC4, DH, END])
        sample_globals = .ok (e1, g1) ∧ e1.active = true ∧
      e1.ms_remaining = 0 ∧
      e1.tock (fun _ => 0) 0 g1 = .ok ({ e1 with ms_remaining := 65535 }, g1) ∧
      (∀ j, 1 ≤ j → j < 65536 →
        tock_n (fun _ => 0) 0 j e1 g1 = .ok ({ e1 with ms_remaining := 65536 - j }, g1)) ∧
      tock_n (fun _ => 0) 0 65536 e1 g1
        = Endpoint.next (fun _ => 0) 0 { e1 with ms_remaining := 0 } g1 :=
  zero_multiplier_wraps (fun _ => 0) 0 (buffer_stream [0, NC4, DH, END]) NC4 DH
    sample_endpoint sample_globals (by decide) (by decide) (by decide) rfl rfl rfl

theorem stop_snd_mem_clear (e : Endpoint) (g : Globals) :
    (e.stop g).2.mem = clear_pin e.port e.mask g.mem := rfl

theorem clear_pin_apply (p m : Nat) (f : Nat → Nat) (x : Nat) :
    clear_pin p m f x = if x = p then f x &&& (255 ^^^ (m % 256)) else f x := by
  unfold clear_pin
  by_cases h : x = p
  · subst h; rw [Function.update_same, if_pos rfl]
  · rw [Function.update_noteq h, if_neg h]

theorem clear_pin_idem (p m : Nat) (f : Nat → Nat) :
    clear_pin p m (clear_pin p m f) = clear_pin p m f := by
  funext x
  simp only [clear_pin_apply]
  by_cases h : x = p
  · simp only [if_pos h, Nat.land_assoc, Nat.and_self]
  · simp only [if_neg h]

theorem clear_pin_comm (p m q n : Nat) (f : Nat → Nat) :
    clear_pin p m (clear_pin q n f) = clear_pin q n (clear_pin p m f) := by
  funext x
  simp only [clear_pin_apply]
  by_cases h : x = p <;> by_cases h' : x = q
  · simp only [if_pos h, if_pos h', Nat.land_assoc]
    rw [Nat.land_comm (255 ^^^ n % 256)]
  · simp only [if_pos h, if_neg h']
  · simp only [if_neg h, if_pos h']
  · simp only [if_neg h, if_neg h']

theorem Globals_ext (g1 g2 : Globals) (h1 : g1.endpoint_count = g2.endpoint_count)
    (h2 : g1.mem = g2.mem) : g1 = g2 := by
  cases g1; cases g2
  simp only at h1 h2
  rw [h1, h2]

theorem stop_stop (e : Endpoint) (g : Globals) : (e.stop g).1.stop (e.stop g).2 = e.stop g := by
  refine Prod.ext ?_ ?_
  · rw [stop_fst, stop_fst]
  · apply Globals_ext
    · rw [stop_snd_count, stop_fst]
      rfl
    · rw [stop_snd_mem_clear, stop_snd_mem_clear, stop_fst]
      exact clear_pin_idem _ _ _

theorem Stop_globals (a : CAudio) :
    a.Stop.globals
      = ((a.endpoint 2).stop ((a.endpoint 1).stop ((a.endpoint 0).stop a.globals).2).2).2 := by
  rw [Stop_eq]
  simp only [run_globals, run_endpoint, show ((1 : Fin COUNT) = 0) = False by decide,
    show ((2 : Fin COUNT) = 0) = False by decide, show ((2 : Fin COUNT) = 1) = False by decide,
    if_false]
  rfl

theorem Stop_mem (a : CAudio) :
    a.Stop.globals.mem
      = clear_pin (a.endpoint 2).port (a.endpoint 2).mask
          (clear_pin (a.endpoint 1).port (a.endpoint 1).mask
            (clear_pin (a.endpoint 0).port (a.endpoint 0).mask a.globals.mem)) := by
  rw [Stop_globals]
  rfl

theorem Stop_endpoint_count_inactive (a : CAudio)
    (h : ∀ i, (a.endpoint i).active = false) :
    a.Stop.globals.endpoint_count = a.globals.endpoint_count := by
  rw [Stop_globals, stop_snd_count, stop_snd_count, stop_snd_count, h 0, h 1, h 2]
  rfl

theorem CAudio_ext (a b : CAudio) (h1 : a.endpoint = b.endpoint) (h2 : a.globals = b.globals)
    (h3 : a.interrupt_enabled = b.interrupt_enabled) (h4 : a.count = b.count) : a = b := by
  cases a; cases b
  simp only at h1 h2 h3 h4
  rw [h1, h2, h3, h4]

theorem Stop_Stop (a : CAudio) : a.Stop.Stop = a.Stop := by
  apply CAudio_ext
  · funext i
    rw [Stop_endpoint, Stop_endpoint]
  · apply Globals_ext
    · exact Stop_endpoint_count_inactive a.Stop (fun i => by rw [Stop_endpoint])
    · rw [Stop_mem a.Stop, Stop_mem a]
      simp only [Stop_endpoint]
      generalize (a.endpoint 0).port = p0
      generalize (a.endpoint 0).mask = m0
      generalize (a.endpoint 1).port = p1
      generalize (a.endpoint 1).mask = m1
      generalize (a.endpoint 2).port = p2
      generalize (a.endpoint 2).mask = m2
      generalize a.globals.mem = f
      rw [clear_pin_comm p0 m0 p2 m2, clear_pin_comm p0 m0 p1 m1, clear_pin_idem p0 m0,
        clear_pin_comm p1 m1 p2 m2, clear_pin_idem p1 m1, clear_pin_idem p2 m2]
  · rw [Stop_interrupt, Stop_interrupt]
  · rw [Stop_count]

/-- C12: `stop` is idempotent on a channel with the shared state, `Stop` is
idempotent on the engine; `stop` on an inactive channel leaves
`endpoint_count` unchanged, and on an active channel it decrements it as a
byte, by exactly one when it was in `1..255`. -/
theorem stop_idempotent :
    (∀ (e : Endpoint) (g : Globals), (e.stop g).1.stop (e.stop g).2 = e.stop g) ∧
    (∀ a : CAudio, a.Stop.Stop = a.Stop) ∧
    (∀ (e : Endpoint) (g : Globals), e.active = false →
      (e.stop g).2.endpoint_count = g.endpoint_count) ∧
    (∀ (e : Endpoint) (g : Globals), e.active = true →
      (e.stop g).2.endpoint_count = (g.endpoint_count + 255) % 256 ∧
      (0 < g.endpoint_count → g.endpoint_count < 256 →
        (e.stop g).2.endpoint_count + 1 = g.endpoint_count)) := by
  refine ⟨stop_stop, Stop_Stop, ?_, ?_⟩
  · intro e g h
    rw [stop_snd_count, h]; rfl
  · intro e g h
    have hc : (e.stop g).2.endpoint_count = (g.endpoint_count + 255) % 256 := by
      rw [stop_snd_count, if_pos h]
    refine ⟨hc, ?_⟩
    intro h1 h2
    rw [hc]; omega

/-- Witness of C12: stopping the active `sample_endpoint` takes the count from 2
to 1. -/
theorem stop_idempotent_witness :
    (sample_endpoint.stop sample_globals).2.endpoint_count
        = (sample_globals.endpoint_count + 255) % 256 ∧
      (0 < sample_globals.endpoint_count → sample_globals.endpoint_count < 256 →
        (sample_endpoint.stop sample_globals).2.endpoint_count + 1
          = sample_globals.endpoint_count) :=
  stop_idempotent.2.2.2 sample_endpoint sample_globals rfl

theorem tock_all_interrupt (flash : Int → Nat) (fuel : Nat) (l : List (Fin COUNT)) :
    ∀ a b : CAudio, CAudio.tock_all flash fuel l a = .ok b →
      b.interrupt_enabled = a.interrupt_enabled := by
  induction l with
  | nil =>
    intro a b h
    rw [CAudio.tock_all] at h
    rw [← Except.ok.inj h]
  | cons i l ih =>
    intro a b h
    rw [CAudio.tock_all] at h
    unfold CAudio.runM at h
    cases hr : (a.endpoint i).tock flash fuel a.globals with
    | error f => rw [hr] at h; cases h
    | ok r =>
      rw [hr] at h
      exact (ih _ _ h).trans (put_interrupt a i r)

theorem InterruptMultipleStreams_interrupt (flash : Int → Nat) (fuel : Nat) (a b : CAudio)
    (h : a.InterruptMultipleStreams flash fuel = .ok b) :
    b.interrupt_enabled
      = if FREQUENCY / 1000 ≤ a.count ∧ b.IsActive = false then false
        else a.interrupt_enabled := by
  unfold CAudio.InterruptMultipleStreams at h
  rw [tick_all_eq] at h
  have hcnt : (((a.run 0 Endpoint.tick).run 1 Endpoint.tick).run 2 Endpoint.tick).count
      = a.count := rfl
  have hint : (((a.run 0 Endpoint.tick).run 1 Endpoint.tick).run 2
      Endpoint.tick).interrupt_enabled = a.interrupt_enabled := rfl
  generalize ((a.run 0 Endpoint.tick).run 1 Endpoint.tick).run 2 Endpoint.tick = a1
    at h hcnt hint
  dsimp only at h
  rw [← hcnt, ← hint]
  by_cases hge : a1.count ≥ FREQUENCY / 1000
  · rw [if_pos hge] at h
    cases hr : CAudio.tock_all flash fuel indices { a1 with count := 0 } with
    | error f => simp only [hr] at h; cases h
    | ok a4 =>
      simp only [hr] at h
      have h4 : a4.interrupt_enabled = a1.interrupt_enabled :=
        tock_all_interrupt flash fuel indices { a1 with count := 0 } a4 hr
      cases hact : a4.IsActive with
      | false =>
        rw [hact] at h
        simp only [Bool.not_false, if_true] at h
        rw [← Except.ok.inj h]
        have : a4.DisableInterrupt.IsActive = false := hact
        rw [if_pos ⟨hge, this⟩]
        rfl
      | true =>
        rw [hact] at h
        simp only [Bool.not_true, Bool.false_eq_true, if_false] at h
        rw [← Except.ok.inj h, if_neg (by rw [hact]; simp), h4]
  · rw [if_neg hge] at h
    rw [← Except.ok.inj h, if_neg (fun hh => hge hh.1)]

/-- C13: on a call of `InterruptMultipleStreams` from a reached state that
returns, if the call passes the millisecond test (and runs `tock`) and no
endpoint is active afterwards, the interrupt is disabled on return; if some
endpoint is still active, or the call does not pass the millisecond test, the
interrupt enable bit is unchanged; the call never sets the bit.  `IsActive()`
is false after the call exactly when no endpoint is active. -/
theorem dispatch_self_disarms (flash : Int → Nat) (fuel : Nat) (a b : CAudio)
    (hr : Reachable flash a) (h : a.InterruptMultipleStreams flash fuel = .ok b) :
    (FREQUENCY / 1000 ≤ a.count → (∀ i, (b.endpoint i).active = false) →
      b.interrupt_enabled = false) ∧
    (FREQUENCY / 1000 ≤ a.count → (∃ i, (b.endpoint i).active = true) →
      b.interrupt_enabled = a.interrupt_enabled) ∧
    (a.count < FREQUENCY / 1000 → b.interrupt_enabled = a.interrupt_enabled) ∧
    (b.interrupt_enabled = true → a.interrupt_enabled = true) ∧
    (b.IsActive = false ↔ ∀ i, (b.endpoint i).active = false) := by
  have hi := InterruptMultipleStreams_interrupt flash fuel a b h
  have hb := (reachable_consistent flash b (Reachable.dispatch fuel a b hr h))
  have hiff : b.IsActive = true ↔ ∃ i : Fin COUNT, (b.endpoint i).active = true := by
    rw [← active_count_pos_iff, ← hb]
    unfold CAudio.IsActive
    simp
  have hiff' : b.IsActive = false ↔ ∀ i, (b.endpoint i).active = false := by
    rw [← Bool.not_eq_true, hiff]
    push_neg
    simp only [Bool.not_eq_true]
  refine ⟨?_, ?_, ?_, ?_, hiff'⟩
  · intro hge hall
    rw [hi, if_pos ⟨hge, hiff'.mpr hall⟩]
  · intro _ hex
    rw [hi, if_neg]
    intro hh
    rw [hiff.mpr hex] at hh
    exact Bool.noConfusion hh.2
  · intro hlt
    rw [hi, if_neg]
    intro hh
    omega
  · intro hen
    rw [hi] at hen
    split at hen
    · exact Bool.noConfusion hen
    · exact hen

theorem next_agree_terminal (flash : Int → Nat) (fuel : Nat) (e e' : Endpoint) (g g' : Globals)
    (hR : e.same_cursor e') (hnt : e.stream (e.index % 65536) % 256 ≠ TEMPO) :
    ∃ r r', e.next flash fuel g = .ok r ∧ e'.next flash fuel g' = .ok r' ∧
      r.1.same_decoded r'.1 := by
  obtain ⟨ha, hd, hm, hi, hs⟩ := hR
  have hper : (FREQUENCY / audio_note.getD (e.stream (e.index % 65536) % 256) 0) % 65536
      = (FREQUENCY / audio_note.getD (e'.stream (e'.index % 65536) % 256) 0) % 65536 := by
    rw [hs, hi]
  by_cases h1 : e.stream (e.index % 65536) % 256 < END
  · have h1' : e'.stream (e'.index % 65536) % 256 < END := by rw [← hs, ← hi]; exact h1
    by_cases h2 : TEMPO < e.stream ((e.index + 1) % 65536) % 256
    · have h2' : TEMPO < e'.stream ((e'.index + 1) % 65536) % 256 := by
        rw [← hs, ← hi]; exact h2
      refine ⟨_, _, next_pitch_modifier flash fuel e g h1 h2,
        next_pitch_modifier flash fuel e' g' h1' h2', ha, ?_, hm, ?_,
        fun _ => ⟨hper, hper, ?_⟩⟩
      · show e.stream ((e.index + 1) % 65536) % 256 = e'.stream ((e'.index + 1) % 65536) % 256
        rw [hs, hi]
      · show (e.index + 2) % 65536 = (e'.index + 2) % 65536
        rw [hi]
      · show (e.multiplier * read_audio_duration flash
            (((e.stream ((e.index + 1) % 65536) % 256 : Nat) : Int) - TEMPO - 1)) % 65536
          = (e'.multiplier * read_audio_duration flash
            (((e'.stream ((e'.index + 1) % 65536) % 256 : Nat) : Int) - TEMPO - 1)) % 65536
        rw [hs, hi, hm]
    · have h2' : ¬ TEMPO < e'.stream ((e'.index + 1) % 65536) % 256 := by
        rw [← hs, ← hi]; exact h2
      refine ⟨_, _, next_pitch_plain flash fuel e g h1 h2,
        next_pitch_plain flash fuel e' g' h1' h2', ha, hd, hm, ?_, fun _ => ⟨hper, hper, ?_⟩⟩
      · show (e.index + 1) % 65536 = (e'.index + 1) % 65536
        rw [hi]
      · show (e.multiplier * read_audio_duration flash ((e.duration : Int) - TEMPO - 1)) % 65536
          = (e'.multiplier * read_audio_duration flash ((e'.duration : Int) - TEMPO - 1))
            % 65536
        rw [hd, hm]
  · refine ⟨_, _, next_stop flash fuel e g (not_lt.mp h1) hnt,
      next_stop flash fuel e' g' (by rw [← hs, ← hi]; exact not_lt.mp h1)
        (by rw [← hs, ← hi]; exact hnt), ?_⟩
    rw [stop_fst, stop_fst]
    exact ⟨rfl, rfl, hm, hi, fun h => Bool.noConfusion h⟩

theorem next_agree (flash : Int → Nat) :
    ∀ (fuel : Nat) (e e' : Endpoint) (g g' : Globals), e.same_cursor e' →
      (∃ f, e.next flash fuel g = .error f ∧ e'.next flash fuel g' = .error f) ∨
      (∃ r r', e.next flash fuel g = .ok r ∧ e'.next flash fuel g' = .ok r' ∧
        r.1.same_decoded r'.1) := by
  intro fuel
  induction fuel with
  | zero =>
    intro e e' g g' hR
    by_cases h2 : e.stream (e.index % 65536) % 256 = TEMPO
    · left
      obtain ⟨-, -, -, hi, hs⟩ := hR
      exact ⟨Fault.out_of_fuel, next_tempo_zero flash e g h2,
        next_tempo_zero flash e' g' (by rw [← hs, ← hi]; exact h2)⟩
    · exact Or.inr (next_agree_terminal flash 0 e e' g g' hR h2)
  | succ n ih =>
    intro e e' g g' hR
    by_cases h2 : e.stream (e.index % 65536) % 256 = TEMPO
    · obtain ⟨ha, hd, hm, hi, hs⟩ := hR
      have h2' : e'.stream (e'.index % 65536) % 256 = TEMPO := by rw [← hs, ← hi]; exact h2
      rw [next_tempo flash n e g h2, next_tempo flash n e' g' h2']
      apply ih
      refine ⟨ha, hd, ?_, ?_, hs⟩
      · show e.stream ((e.index + 1) % 65536) % 256 = e'.stream ((e'.index + 1) % 65536) % 256
        rw [hs, hi]
      · show (e.index + 2) % 65536 = (e'.index + 2) % 65536
        rw [hi]
    · exact Or.inr (next_agree_terminal flash (n + 1) e e' g g' hR h2)

/-- C11 (as stated, refuted): two prior states that differ only in `period` are
assigned the source `[1, END]`, whose first decoded token is `END`; `next`
stops the channel without writing `period`, so the results keep 9 and 10. -/
theorem reassign_end_keeps_old_period :
    (sample_endpoint.assign (fun _ => 0) 0 (buffer_stream [1, END]) sample_globals).map
        (fun r => r.1.period) = .ok 9 ∧
    (Endpoint.assign (fun _ => 0) 0 (buffer_stream [1, END])
        { sample_endpoint with period := 10 } sample_globals).map
        (fun r => r.1.period) = .ok 10 := by
  constructor
  · rw [assign_eq, next_stop _ _ _ _ (show END ≤ buffer_stream [1, END] 1 % 256 by decide)
      (show buffer_stream [1, END] 1 % 256 ≠ TEMPO by decide)]
    rfl
  · rw [assign_eq, next_stop _ _ _ _ (show END ≤ buffer_stream [1, END] 1 % 256 by decide)
      (show buffer_stream [1, END] 1 % 256 ≠ TEMPO by decide)]
    rfl

theorem next_stopped_keeps_timing (flash : Int → Nat) :
    ∀ (fuel : Nat) (e : Endpoint) (g : Globals) (r : Endpoint × Globals),
      e.next flash fuel g = .ok r → e.active = true → r.1.active = false →
      r.1.period = e.period ∧ r.1.period_remaining = e.period_remaining ∧
        r.1.ms_remaining = e.ms_remaining := by
  have terminal : ∀ (fuel : Nat) (e : Endpoint) (g : Globals) (r : Endpoint × Globals),
      e.stream (e.index % 65536) % 256 ≠ TEMPO → e.next flash fuel g = .ok r →
      e.active = true → r.1.active = false →
      r.1.period = e.period ∧ r.1.period_remaining = e.period_remaining ∧
        r.1.ms_remaining = e.ms_remaining := by
    intro fuel e g r hnt h hact hin
    by_cases h1 : e.stream (e.index % 65536) % 256 < END
    · obtain ⟨e1, hn, ha, -⟩ := next_pitch_primed flash fuel e g h1
      rw [hn] at h
      rw [← Except.ok.inj h] at hin
      have hin' : e1.active = false := hin
      rw [ha, hact] at hin'
      exact Bool.noConfusion hin'
    · rw [next_stop flash fuel e g (not_lt.mp h1) hnt] at h
      rw [← Except.ok.inj h, stop_fst]
      exact ⟨rfl, rfl, rfl⟩
  intro fuel
  induction fuel with
  | zero =>
    intro e g r h hact hin
    by_cases h2 : e.stream (e.index % 65536) % 256 = TEMPO
    · rw [next_tempo_zero flash e g h2] at h
      cases h
    · exact terminal 0 e g r h2 h hact hin
  | succ n ih =>
    intro e g r h hact hin
    by_cases h2 : e.stream (e.index % 65536) % 256 = TEMPO
    · rw [next_tempo flash n e g h2] at h
      exact ih { e with multiplier := e.stream ((e.index + 1) % 65536) % 256
                        index := (e.index + 2) % 65536 } g r h hact hin
    · exact terminal (n + 1) e g r h2 h hact hin

/-- C11 (amended): for every source and every two prior channel states (with
any shared states), `assign` either fails to return on both or returns on
both with the same `active`, `duration`, `multiplier` and `index`, and, when
the resulting channel is active, the same `period`, `period_remaining` and
`ms_remaining`.  Whenever `assign` returns an inactive channel (the decode
ended in `stop`), `period`, `period_remaining` and `ms_remaining` are those of
the prior state; this is the case when the first decoded token, at offset 1,
is `END` or an out-of-range value: `assign` then returns, with `active = false`
and `duration = DQ`.  For a stream `[m, P, END]` whose first note has no
modifier, `assign` returns with `ms_remaining = m * audio_duration[DQ - TEMPO - 1]
= 12 * m`, `duration = DQ` and `index = 2`. -/
theorem reassign_resets (flash : Int → Nat) (fuel : Nat) (s : StreamFunc) :
    (∀ (e e' : Endpoint) (g g' : Globals),
      (∃ f, e.assign flash fuel s g = .error f ∧ e'.assign flash fuel s g' = .error f) ∨
      (∃ r r', e.assign flash fuel s g = .ok r ∧ e'.assign flash fuel s g' = .ok r' ∧
        r.1.same_decoded r'.1)) ∧
    (∀ (e : Endpoint) (g : Globals) (r : Endpoint × Globals),
      e.assign flash fuel s g = .ok r → r.1.active = false →
      r.1.period = e.period ∧ r.1.period_remaining = e.period_remaining ∧
        r.1.ms_remaining = e.ms_remaining) ∧
    (∀ (e : Endpoint) (g : Globals), END ≤ s 1 % 256 → s 1 % 256 ≠ TEMPO →
      ∃ r, e.assign flash fuel s g = .ok r ∧ r.1.active = false ∧ r.1.duration = DQ ∧
        r.1.index = 1 ∧ r.1.multiplier = s 0 % 256 ∧
        r.1.period = e.period ∧ r.1.period_remaining = e.period_remaining ∧
        r.1.ms_remaining = e.ms_remaining) ∧
    (∀ (m P : Nat) (e : Endpoint) (g : Globals), m < 256 → P < END →
      s 0 = m → s 1 = P → s 2 = END →
      ∃ e1 g1, e.assign flash fuel s g = .ok (e1, g1) ∧ e1.active = true ∧
        e1.duration = DQ ∧ e1.index = 2 ∧
        e1.ms_remaining = m * audio_duration.getD (DQ - TEMPO - 1) 0 ∧
        e1.ms_remaining = 12 * m) := by
  refine ⟨?_, ?_, ?_, ?_⟩
  · intro e e' g g'
    rw [assign_eq, assign_eq]
    exact next_agree flash fuel _ _ _ _ ⟨rfl, rfl, rfl, rfl, rfl⟩
  · intro e g r h hin
    rw [assign_eq] at h
    exact next_stopped_keeps_timing flash fuel
      { e with stream := s, active := true, duration := DQ, multiplier := s 0 % 256,
               index := 1 }
      ({ e with stream := s }.stop g).2 r h rfl hin
  · intro e g h1 h2
    have hs := next_stop flash fuel
      { e with stream := s, active := true, duration := DQ, multiplier := s 0 % 256,
               index := 1 }
      ({ e with stream := s }.stop g).2
      (show END ≤ s (1 % 65536) % 256 from h1) (show s (1 % 65536) % 256 ≠ TEMPO from h2)
    rw [assign_eq, hs]
    refine ⟨_, rfl, ?_, ?_, ?_, ?_, ?_, ?_, ?_⟩ <;> rw [stop_fst]
  · intro m P e g hm hP h0 h1 h2
    have hmb : m % 256 = m := Nat.mod_eq_of_lt hm
    have hPb : P % 256 = P := Nat.mod_eq_of_lt (by simp only [END] at hP; omega)
    rw [assign_eq]
    obtain ⟨e2, hn, hact, hdur, hmul, hidx, -, -, -, hms⟩ :=
      next_plain_fields flash fuel
        { e with stream := s, active := true, duration := DQ, multiplier := s 0 % 256,
                 index := 1 }
        ({ e with stream := s }.stop g).2 P hP
        (by show s (1 % 65536) % 256 = P
            rw [show (1 % 65536) = 1 from rfl, h1, hPb])
        (by show ¬ TEMPO < s ((1 + 1) % 65536) % 256
            rw [show ((1 + 1) % 65536) = 2 from rfl, h2]; decide)
        (show DTS ≤ DQ by decide) (show DQ ≤ DBLIP by decide)
        (by show s 0 % 256 < 256
            exact Nat.mod_lt _ (by decide))
    have hms' : e2.ms_remaining = m * audio_duration.getD (DQ - TEMPO - 1) 0 := by
      rw [hms]
      show s 0 % 256 * audio_duration.getD (DQ - TEMPO - 1) 0 = _
      rw [h0, hmb]
    refine ⟨e2, _, hn, hact, hdur, hidx, hms', ?_⟩
    rw [hms', show audio_duration.getD (DQ - TEMPO - 1) 0 = 12 from by decide, Nat.mul_comm]

/-- Witness of C11 (amended): `[3, NC4, END]` gives `ms_remaining = 36`, and on
`[1, END]` the stopped channel keeps the prior `period`, `period_remaining`
and `ms_remaining` of `sample_endpoint`. -/
theorem reassign_resets_witness :
    (∃ e1 g1, sample_endpoint.assign (fun _ => 0) 0 (buffer_stream [3, NC4, END]) sample_globals
        = .ok (e1, g1) ∧ e1.active = true ∧ e1.duration = DQ ∧ e1.index = 2 ∧
      e1.ms_remaining = 3 * audio_duration.getD (DQ - TEMPO - 1) 0 ∧
      e1.ms_remaining = 12 * 3) ∧
    (∃ r, sample_endpoint.assign (fun _ => 0) 0 (buffer_stream [1, END]) sample_globals = .ok r ∧
      r.1.active = false ∧ r.1.duration = DQ ∧ r.1.index = 1 ∧
      r.1.multiplier = buffer_stream [1, END] 0 % 256 ∧
      r.1.period = sample_endpoint.period ∧
      r.1.period_remaining = sample_endpoint.period_remaining ∧
      r.1.ms_remaining = sample_endpoint.ms_remaining) :=
  ⟨(reassign_resets (fun _ => 0) 0 (buffer_stream [3, NC4, END])).2.2.2 3 NC4 sample_endpoint
      sample_globals (by decide) (by decide) rfl rfl rfl,
   (reassign_resets (fun _ => 0) 0 (buffer_stream [1, END])).2.2.1 sample_endpoint
      sample_globals (by decide) (by decide)⟩

theorem next_fuel_irrelevant (flash : Int → Nat) (fuel : Nat) (e : Endpoint) (g : Globals)
    (hnt : e.stream (e.index % 65536) % 256 ≠ TEMPO) :
    e.next flash fuel g = e.next flash 0 g ∧ ∃ r, e.next flash 0 g = .ok r := by
  by_cases h1 : e.stream (e.index % 65536) % 256 < END
  · by_cases h2 : TEMPO < e.stream ((e.index + 1) % 65536) % 256
    · rw [next_pitch_modifier flash fuel e g h1 h2, next_pitch_modifier flash 0 e g h1 h2]
      exact ⟨rfl, _, rfl⟩
    · rw [next_pitch_plain flash fuel e g h1 h2, next_pitch_plain flash 0 e g h1 h2]
      exact ⟨rfl, _, rfl⟩
  · rw [next_stop flash fuel e g (not_lt.mp h1) hnt, next_stop flash 0 e g (not_lt.mp h1) hnt]
    exact ⟨rfl, _, rfl⟩

theorem tempo_chain_end_step (e : Endpoint) (k : Nat) :
    tempo_chain_end
        { e with multiplier := e.stream ((e.index + 1) % 65536) % 256
                 index := (e.index + 2) % 65536 } k
      = tempo_chain_end e (k + 1) := by
  cases k with
  | zero => rfl
  | succ k =>
    show ({ e with
        multiplier := e.stream (((e.index + 2) % 65536 + 2 * k + 1) % 65536) % 256
        index := ((e.index + 2) % 65536 + 2 * k + 2) % 65536 } : Endpoint)
      = { e with multiplier := e.stream ((e.index + 2 * (k + 1) + 1) % 65536) % 256
                 index := (e.index + 2 * (k + 1) + 2) % 65536 }
    have h1 : ((e.index + 2) % 65536 + 2 * k + 1) % 65536
        = (e.index + 2 * (k + 1) + 1) % 65536 := by omega
    have h2 : ((e.index + 2) % 65536 + 2 * k + 2) % 65536
        = (e.index + 2 * (k + 1) + 2) % 65536 := by omega
    rw [h1, h2]

theorem tempo_chain_steps (flash : Int → Nat) :
    ∀ (k : Nat) (e : Endpoint) (g : Globals),
      (∀ j, j < k → e.stream ((e.index + 2 * j) % 65536) % 256 = TEMPO) →
      e.stream ((e.index + 2 * k) % 65536) % 256 ≠ TEMPO →
      (∀ fuel, fuel < k → e.next flash fuel g = .error Fault.out_of_fuel) ∧
      (∀ n, e.next flash (k + n) g = Endpoint.next flash 0 (tempo_chain_end e k) g) ∧
      (∃ r, Endpoint.next flash 0 (tempo_chain_end e k) g = .ok r) := by
  intro k
  induction k with
  | zero =>
    intro e g _ hk
    have hnt : e.stream (e.index % 65536) % 256 ≠ TEMPO := hk
    refine ⟨fun fuel h => absurd h (Nat.not_lt_zero _), ?_, ?_⟩
    · intro n
      rw [Nat.zero_add]
      exact (next_fuel_irrelevant flash n e g hnt).1
    · exact (next_fuel_irrelevant flash 0 e g hnt).2
  | succ k ih =>
    intro e g hall hk
    have h0 : e.stream (e.index % 65536) % 256 = TEMPO := hall 0 (Nat.succ_pos k)
    have hall' : ∀ j, j < k →
        e.stream (((e.index + 2) % 65536 + 2 * j) % 65536) % 256 = TEMPO := by
      intro j hj
      have := hall (j + 1) (by omega)
      rw [show ((e.index + 2) % 65536 + 2 * j) % 65536 = (e.index + 2 * (j + 1)) % 65536
        by omega]
      exact this
    have hk' : e.stream (((e.index + 2) % 65536 + 2 * k) % 65536) % 256 ≠ TEMPO := by
      rw [show ((e.index + 2) % 65536 + 2 * k) % 65536 = (e.index + 2 * (k + 1)) % 65536
        by omega]
      exact hk
    obtain ⟨ih1, ih2, ih3⟩ := ih
      { e with multiplier := e.stream ((e.index + 1) % 65536) % 256
               index := (e.index + 2) % 65536 } g hall' hk'
    rw [tempo_chain_end_step] at ih2 ih3
    refine ⟨?_, ?_, ih3⟩
    · intro fuel hf
      cases fuel with
      | zero => exact next_tempo_zero flash e g h0
      | succ f =>
        rw [next_tempo flash f e g h0]
        exact ih1 f (by omega)
    · intro n
      rw [show k + 1 + n = (k + n) + 1 by omega, next_tempo flash (k + n) e g h0]
      exact ih2 n

theorem next_all_tempo (flash : Int → Nat) :
    ∀ (fuel : Nat) (e : Endpoint) (g : Globals), (∀ off, e.stream off % 256 = TEMPO) →
      e.next flash fuel g = .error Fault.out_of_fuel := by
  intro fuel
  induction fuel with
  | zero => intro e g h; exact next_tempo_zero flash e g (h _)
  | succ n ih =>
    intro e g h
    rw [next_tempo flash n e g (h _)]
    exact ih _ g h

/-- C18: if the tokens at the offsets `c, c+2, ..., c+2(k-1)` (offsets taken as
`uint16_t`, `c = index`) are `TEMPO` and the token at `c+2k` is not, `next`
returns after exactly `k` recursive calls: it fails with fewer than `k`
allowed and, with `k` or more, returns what the non-recursive decode returns
on the endpoint whose `index` is `c+2k` and whose `multiplier` (for `k > 0`)
is the token at `c+2k-1`.  On a source that returns `TEMPO` at every offset
there is no such `k`, and `next` returns for no number of allowed calls. -/
theorem tempo_chain_transparent (flash : Int → Nat) (k : Nat) (e : Endpoint) (g : Globals)
    (hall : ∀ j, j < k → e.stream ((e.index + 2 * j) % 65536) % 256 = TEMPO)
    (hk : e.stream ((e.index + 2 * k) % 65536) % 256 ≠ TEMPO) :
    (∀ fuel, fuel < k → e.next flash fuel g = .error Fault.out_of_fuel) ∧
    (∀ n, e.next flash (k + n) g = Endpoint.next flash 0 (tempo_chain_end e k) g) ∧
    (∃ r, Endpoint.next flash 0 (tempo_chain_end e k) g = .ok r) ∧
    (0 < k → (tempo_chain_end e k).multiplier
        = e.stream ((e.index + 2 * k - 1) % 65536) % 256 ∧
      (tempo_chain_end e k).index = (e.index + 2 * k) % 65536) ∧
    (∀ (e' : Endpoint) (g' : Globals), (∀ off, e'.stream off % 256 = TEMPO) →
      (¬ ∃ k', e'.stream ((e'.index + 2 * k') % 65536) % 256 ≠ TEMPO) ∧
      ∀ fuel, e'.next flash fuel g' = .error Fault.out_of_fuel) := by
  obtain ⟨h1, h2, h3⟩ := tempo_chain_steps flash k e g hall hk
  refine ⟨h1, h2, h3, ?_, ?_⟩
  · intro hpos
    obtain ⟨k', rfl⟩ : ∃ k', k = k' + 1 := ⟨k - 1, by omega⟩
    refine ⟨?_, ?_⟩
    · show e.stream ((e.index + 2 * k' + 1) % 65536) % 256 = _
      rw [show e.index + 2 * (k' + 1) - 1 = e.index + 2 * k' + 1 by omega]
    · show (e.index + 2 * k' + 2) % 65536 = _
      rw [show e.index + 2 * (k' + 1) = e.index + 2 * k' + 2 by omega]
  · intro e' g' hT
    refine ⟨?_, fun fuel => next_all_tempo flash fuel e' g' hT⟩
    rintro ⟨k', hk'⟩
    exact hk' (hT _)

/-- Witness of C18: two `TEMPO` pairs before the pitch in
`[1, TEMPO, 2, TEMPO, 3, NC4, DH, END]`; one allowed call is not enough, two
are. -/
theorem tempo_chain_transparent_witness :
    Endpoint.next (fun _ => 0) 1
        { sample_endpoint with
          stream := buffer_stream [1, TEMPO, 2, TEMPO, 3, NC4, DH, END], index := 1 }
        sample_globals = .error Fault.out_of_fuel ∧
    Endpoint.next (fun _ => 0) (2 + 0)
        { sample_endpoint with
          stream := buffer_stream [1, TEMPO, 2, TEMPO, 3, NC4, DH, END], index := 1 }
        sample_globals
      = Endpoint.next (fun _ => 0) 0
          (tempo_chain_end
            { sample_endpoint with
              stream := buffer_stream [1, TEMPO, 2, TEMPO, 3, NC4, DH, END], index := 1 } 2)
          sample_globals :=
  have h := tempo_chain_transparent (fun _ => 0) 2
    { sample_endpoint with
      stream := buffer_stream [1, TEMPO, 2, TEMPO, 3, NC4, DH, END], index := 1 }
    sample_globals
    (by
      intro j hj
      interval_cases j <;> decide)
    (by decide)
  ⟨h.1 1 (by decide), h.2.1 0⟩

theorem toggle_keeps_low (v m m' : Nat) (h1 : v &&& m' = 0) (h2 : m' &&& m = 0) :
    ((v ^^^ m) % 256) &&& m' = 0 := by
  apply Nat.eq_of_testBit_eq
  intro i
  have hv := congrArg (fun n => Nat.testBit n i) h1
  have hm := congrArg (fun n => Nat.testBit n i) h2
  simp only [Nat.testBit_land, Nat.zero_testBit] at hv hm
  rw [Nat.testBit_land, show (256 : Nat) = 2 ^ 8 from rfl, Nat.testBit_mod_two_pow,
    Nat.testBit_xor, Nat.zero_testBit]
  cases hb : m'.testBit i
  · simp
  · rw [hb] at hv hm
    simp only [Bool.and_true, Bool.true_and] at hv hm
    rw [hv, hm]
    simp

theorem clear_keeps_low (v k m' : Nat) (h1 : v &&& m' = 0) : (v &&& k) &&& m' = 0 := by
  rw [Nat.land_assoc, Nat.land_comm k, ← Nat.land_assoc, h1]
  exact Nat.zero_and _

theorem stop_pinsafe (e : Endpoint) (g : Globals) : PinSafe e g (e.stop g) := by
  refine ⟨by rw [stop_fst], by rw [stop_fst], ?_, fun _ _ => stop_pin_low e g⟩
  intro x m _ hlow
  rw [stop_snd_mem_clear, clear_pin_apply]
  by_cases hx : x = e.port
  · rw [if_pos hx]; exact clear_keeps_low _ _ _ hlow
  · rw [if_neg hx]; exact hlow

theorem pinsafe_refl (e : Endpoint) (g : Globals) : PinSafe e g (e, g) :=
  ⟨rfl, rfl, fun _ _ _ h => h, fun h1 h2 => h1 h2⟩

theorem tick_pinsafe (e : Endpoint) (g : Globals) : PinSafe e g (e.tick g) := by
  unfold Endpoint.tick
  by_cases h : e.active = true
  · rw [if_pos h]
    dsimp only
    by_cases h2 : (e.period_remaining + 65535) % 65536 = 0
    · rw [if_pos h2]
      refine ⟨rfl, rfl, ?_, fun _ hin => ?_⟩
      · intro x m hdis hlow
        show Function.update g.mem e.port ((g.mem e.port ^^^ (e.mask % 256)) % 256) x
          &&& (m % 256) = 0
        by_cases hx : x = e.port
        · subst hx
          rw [Function.update_same]
          rcases hdis with hne | hd
          · exact absurd rfl hne
          · exact toggle_keeps_low _ _ _ hlow hd
        · rw [Function.update_noteq hx]; exact hlow
      · have hin' : e.active = false := hin
        rw [h] at hin'
        exact Bool.noConfusion hin'
    · rw [if_neg h2]
      refine ⟨rfl, rfl, fun _ _ _ hl => hl, fun _ hin => ?_⟩
      have hin' : e.active = false := hin
      rw [h] at hin'
      exact Bool.noConfusion hin'
  · rw [if_neg h]
    exact pinsafe_refl e g

theorem next_pinsafe (flash : Int → Nat) :
    ∀ (fuel : Nat) (e : Endpoint) (g : Globals) (r : Endpoint × Globals),
      e.next flash fuel g = .ok r → PinSafe e g r := by
  have terminal : ∀ (fuel : Nat) (e : Endpoint) (g : Globals) (r : Endpoint × Globals),
      e.stream (e.index % 65536) % 256 ≠ TEMPO → e.next flash fuel g = .ok r →
      PinSafe e g r := by
    intro fuel e g r hnt h
    by_cases h1 : e.stream (e.index % 65536) % 256 < END
    · obtain ⟨e1, hn, ha, -, -, hp, hm, -⟩ := next_pitch_primed flash fuel e g h1
      rw [hn] at h
      rw [← Except.ok.inj h]
      refine ⟨hp, hm, fun _ _ _ hl => hl, fun hlow hin => ?_⟩
      have hin' : e1.active = false := hin
      have := hlow (ha ▸ hin')
      unfold Endpoint.pin_low at this ⊢
      show g.mem e1.port &&& (e1.mask % 256) = 0
      rw [hp, hm]; exact this
    · rw [next_stop flash fuel e g (not_lt.mp h1) hnt] at h
      rw [← Except.ok.inj h]
      exact stop_pinsafe e g
  intro fuel
  induction fuel with
  | zero =>
    intro e g r h
    by_cases h2 : e.stream (e.index % 65536) % 256 = TEMPO
    · rw [next_tempo_zero flash e g h2] at h
      cases h
    · exact terminal 0 e g r h2 h
  | succ n ih =>
    intro e g r h
    by_cases h2 : e.stream (e.index % 65536) % 256 = TEMPO
    · rw [next_tempo flash n e g h2] at h
      have ht := ih { e with multiplier := e.stream ((e.index + 1) % 65536) % 256
                             index := (e.index + 2) % 65536 } g r h
      unfold PinSafe at ht ⊢
      exact ht
    · exact terminal (n + 1) e g r h2 h

theorem tock_pinsafe (flash : Int → Nat) (fuel : Nat) (e : Endpoint) (g : Globals)
    (r : Endpoint × Globals) (h : e.tock flash fuel g = .ok r) : PinSafe e g r := by
  unfold Endpoint.tock at h
  by_cases ha : e.active = true
  · rw [if_pos ha] at h
    dsimp only at h
    by_cases h2 : (e.ms_remaining + 65535) % 65536 = 0
    · rw [if_pos h2] at h
      have ht := next_pinsafe flash fuel
        { e with ms_remaining := (e.ms_remaining + 65535) % 65536 } g r h
      unfold PinSafe Endpoint.pin_low at ht ⊢
      exact ht
    · rw [if_neg h2] at h
      rw [← Except.ok.inj h]
      refine ⟨rfl, rfl, fun _ _ _ hl => hl, fun _ hin => ?_⟩
      have hin' : e.active = false := hin
      rw [ha] at hin'
      exact Bool.noConfusion hin'
  · rw [if_neg ha] at h
    rw [← Except.ok.inj h]; exact pinsafe_refl e g

theorem assign_pinsafe (flash : Int → Nat) (fuel : Nat) (d : StreamFunc) (e : Endpoint)
    (g : Globals) (r : Endpoint × Globals) (h : e.assign flash fuel d g = .ok r) :
    PinSafe e g r := by
  rw [assign_eq] at h
  obtain ⟨hp, hm, hother, hown⟩ := next_pinsafe flash fuel _ _ r h
  obtain ⟨-, -, sother, -⟩ := stop_pinsafe { e with stream := d } g
  refine ⟨hp, hm, ?_, ?_⟩
  · intro x m hdis hlow
    exact hother x m hdis (sother x m hdis hlow)
  · intro _ hin
    exact hown (fun habs => Bool.noConfusion habs) hin

theorem put_pins_ok (a : CAudio) (i : Fin COUNT) (r : Endpoint × Globals)
    (hinv : a.pins_ok) (hs : PinSafe (a.endpoint i) a.globals r) : (a.put i r).pins_ok := by
  obtain ⟨hd, hl⟩ := hinv
  obtain ⟨hp, hm, hother, hown⟩ := hs
  have hport : ∀ j, ((a.put i r).endpoint j).port = (a.endpoint j).port := by
    intro j
    rw [put_endpoint]
    by_cases h : j = i
    · rw [if_pos h, hp, h]
    · rw [if_neg h]
  have hmask : ∀ j, ((a.put i r).endpoint j).mask = (a.endpoint j).mask := by
    intro j
    rw [put_endpoint]
    by_cases h : j = i
    · rw [if_pos h, hm, h]
    · rw [if_neg h]
  refine ⟨?_, ?_⟩
  · intro j k hjk
    rw [hport, hport, hmask, hmask]
    exact hd j k hjk
  · intro j hj
    unfold Endpoint.pin_low
    rw [hport, hmask, put_globals]
    by_cases h : j = i
    · subst h
      rw [put_endpoint, if_pos rfl] at hj
      have := hown (hl j) hj
      unfold Endpoint.pin_low at this
      rw [hp, hm] at this
      exact this
    · rw [put_endpoint, if_neg h] at hj
      exact hother _ _ (hd j i h) (hl j hj)

theorem Stop_pins_ok (a : CAudio) (h : a.pins_ok) : a.Stop.pins_ok := by
  rw [Stop_eq]
  have h0 : a.DisableInterrupt.pins_ok := h
  exact put_pins_ok _ _ _ (put_pins_ok _ _ _ (put_pins_ok _ _ _ h0 (stop_pinsafe _ _))
    (stop_pinsafe _ _)) (stop_pinsafe _ _)

theorem Play_count_mem (ds : List StreamFunc) :
    ∀ a : CAudio, (CAudio.Play_count ds a).globals.mem = a.globals.mem := by
  induction ds with
  | nil => intro a; rfl
  | cons d ds ih => intro a; rw [CAudio.Play_count, ih]

theorem Play_count_pins_ok (ds : List StreamFunc) (a : CAudio) (h : a.pins_ok) :
    (CAudio.Play_count ds a).pins_ok := by
  obtain ⟨hd, hl⟩ := h
  refine ⟨?_, ?_⟩
  · intro i j hij
    rw [Play_count_endpoint]
    exact hd i j hij
  · intro i hi
    unfold Endpoint.pin_low
    rw [Play_count_endpoint] at hi ⊢
    rw [Play_count_mem]
    exact hl i hi

theorem Play_assign_pins_ok (flash : Int → Nat) (fuel : Nat) (ds : List StreamFunc) :
    ∀ (index : Nat) (a b : CAudio), CAudio.Play_assign flash fuel ds index a = .ok b →
      a.pins_ok → b.pins_ok := by
  induction ds with
  | nil =>
    intro index a b h hinv
    rw [CAudio.Play_assign] at h
    rw [← Except.ok.inj h]; exact hinv
  | cons d ds ih =>
    intro index a b h hinv
    rw [CAudio.Play_assign] at h
    by_cases hi : index < COUNT
    · rw [dif_pos hi] at h
      unfold CAudio.runM at h
      cases hr : (a.endpoint ⟨index, hi⟩).assign flash fuel d a.globals with
      | error f => rw [hr] at h; cases h
      | ok r =>
        rw [hr] at h
        exact ih _ _ _ h (put_pins_ok a _ r hinv (assign_pinsafe flash fuel d _ _ r hr))
    · rw [dif_neg hi] at h; cases h

theorem Play_pins_ok (flash : Int → Nat) (fuel : Nat) (ds : List StreamFunc) (a b : CAudio)
    (hinv : a.pins_ok) (h : a.Play flash fuel ds = .ok b) : b.pins_ok := by
  unfold CAudio.Play at h
  cases hr : CAudio.Play_assign flash fuel ds 0 (CAudio.Play_count ds a.Stop) with
  | error f => rw [hr] at h; cases h
  | ok c =>
    rw [hr] at h
    rw [← Except.ok.inj h]
    have hc : c.pins_ok := Play_assign_pins_ok flash fuel ds 0 _ c hr
      (Play_count_pins_ok ds _ (Stop_pins_ok a hinv))
    exact hc

theorem tock_all_pins_ok (flash : Int → Nat) (fuel : Nat) (l : List (Fin COUNT)) :
    ∀ a b : CAudio, CAudio.tock_all flash fuel l a = .ok b → a.pins_ok → b.pins_ok := by
  induction l with
  | nil =>
    intro a b h hinv
    rw [CAudio.tock_all] at h
    rw [← Except.ok.inj h]; exact hinv
  | cons i l ih =>
    intro a b h hinv
    rw [CAudio.tock_all] at h
    unfold CAudio.runM at h
    cases hr : (a.endpoint i).tock flash fuel a.globals with
    | error f => rw [hr] at h; cases h
    | ok r =>
      rw [hr] at h
      exact ih _ _ h (put_pins_ok a i r hinv (tock_pinsafe flash fuel _ _ r hr))

theorem InterruptMultipleStreams_pins_ok (flash : Int → Nat) (fuel : Nat) (a b : CAudio)
    (hinv : a.pins_ok) (h : a.InterruptMultipleStreams flash fuel = .ok b) : b.pins_ok := by
  unfold CAudio.InterruptMultipleStreams at h
  rw [tick_all_eq] at h
  have h1 : (((a.run 0 Endpoint.tick).run 1 Endpoint.tick).run 2 Endpoint.tick).pins_ok :=
    put_pins_ok _ _ _ (put_pins_ok _ _ _ (put_pins_ok _ _ _ hinv (tick_pinsafe _ _))
      (tick_pinsafe _ _)) (tick_pinsafe _ _)
  generalize ((a.run 0 Endpoint.tick).run 1 Endpoint.tick).run 2 Endpoint.tick = a1 at h h1
  dsimp only at h
  by_cases hge : a1.count ≥ FREQUENCY / 1000
  · rw [if_pos hge] at h
    cases hr : CAudio.tock_all flash fuel indices { a1 with count := 0 } with
    | error f => simp only [hr] at h; cases h
    | ok a4 =>
      simp only [hr] at h
      have h4 : a4.pins_ok := tock_all_pins_ok flash fuel indices { a1 with count := 0 } a4 hr h1
      split at h
      · rw [← Except.ok.inj h]; exact h4
      · rw [← Except.ok.inj h]; exact h4
  · rw [if_neg hge] at h
    rw [← Except.ok.inj h]; exact h1

/-- C16: start from an engine whose endpoints are bound to distinct pins, all
of them low (as right after construction, where every endpoint is inactive);
in every state reached by calls of `Play`, `Stop` and
`InterruptMultipleStreams` that return, every endpoint with `active = false`
has its pin low. -/
theorem inactive_pins_low (flash : Int → Nat) (a0 a : CAudio)
    (_hc : a0.constructed = true) (hd : a0.distinct_pins)
    (hlow : ∀ i : Fin COUNT, (a0.endpoint i).pin_low a0.globals)
    (hr : ReachableFrom flash a0 a) :
    ∀ i : Fin COUNT, (a.endpoint i).active = false → (a.endpoint i).pin_low a.globals := by
  have hinv : a.pins_ok := by
    induction hr with
    | start => exact ⟨hd, fun i _ => hlow i⟩
    | play fuel ds a b _ hp ih => exact Play_pins_ok flash fuel ds a b ih hp
    | stop a _ ih => exact Stop_pins_ok a ih
    | dispatch fuel a b _ hdp ih => exact InterruptMultipleStreams_pins_ok flash fuel a b ih hdp
  exact hinv.2

theorem idle_engine_distinct_pins : idle_engine.distinct_pins := by
  intro i j hij
  right
  rcases fin_COUNT_cases i with rfl | rfl | rfl <;>
    rcases fin_COUNT_cases j with rfl | rfl | rfl <;>
    first
      | exact absurd rfl hij
      | decide

/-- Witness of C16: the idle engine after `Play` of `[1, NC4, DH, END]`. -/
theorem inactive_pins_low_witness :
    ∃ b, idle_engine.Play (fun _ => 0) 0 [buffer_stream [1, NC4, DH, END]] = .ok b ∧
      ∀ i : Fin COUNT, (b.endpoint i).active = false → (b.endpoint i).pin_low b.globals := by
  obtain ⟨b, hb, -⟩ := play_one_returns (fun _ => 0) 0 (buffer_stream [1, NC4, DH, END]) NC4 DH
    (by decide) (by decide) (by decide) rfl rfl rfl idle_engine
  exact ⟨b, hb, inactive_pins_low (fun _ => 0) idle_engine b (by decide)
    idle_engine_distinct_pins (fun _ => Nat.zero_and _)
    (ReachableFrom.play 0 _ idle_engine b ReachableFrom.start hb)⟩

theorem getLastD_append_eq {α : Type} (l l' : List α) (d : α) :
    (l ++ l').getLastD d = l'.getLastD (l.getLastD d) := by
  induction l generalizing d with
  | nil => rfl
  | cons x l ih => rw [List.cons_append, List.getLastD_cons, List.getLastD_cons, ih]

theorem getLastD_mem_cons {α : Type} (l : List α) :
    ∀ x : α, l.getLastD x ∈ x :: l := by
  induction l with
  | nil => intro x; exact List.mem_cons_self _ _
  | cons y l ih => intro x; rw [List.getLastD_cons]; exact List.mem_cons_of_mem _ (ih y)

theorem steps_to_nil (c : CAudio) : steps_to c [] c := ⟨rfl, fun _ h => by cases h⟩

theorem steps_to_append (c c' c'' : CAudio) (l l' : List CAudio) (h1 : steps_to c l c')
    (h2 : steps_to c' l' c'') : steps_to c (l ++ l') c'' := by
  obtain ⟨ha, hb⟩ := h1
  obtain ⟨hc, hd⟩ := h2
  have hint : c'.interrupt_enabled = c.interrupt_enabled := by
    cases l with
    | nil => rw [← ha]; rfl
    | cons x l =>
      apply hb
      rw [← ha, List.getLastD_cons]
      exact getLastD_mem_cons l x
  refine ⟨by rw [getLastD_append_eq, ha, hc], ?_⟩
  intro s hs
  rcases List.mem_append.mp hs with h | h
  · exact hb s h
  · rw [hd s h, hint]

theorem stop_steps_last (e : Endpoint) (g : Globals) :
    ∃ init, e.stop_steps g = init ++ [e.stop g] := by
  unfold Endpoint.stop_steps
  exact ⟨_, (List.append_assoc _ [_] [_]).symm⟩

theorem next_steps_last (flash : Int → Nat) :
    ∀ (fuel : Nat) (e : Endpoint) (g : Globals) (r : Endpoint × Globals),
      e.next flash fuel g = .ok r → ∃ init, e.next_steps flash fuel g = .ok (init ++ [r]) := by
  have terminal : ∀ (fuel : Nat) (e : Endpoint) (g : Globals) (r : Endpoint × Globals),
      e.stream (e.index % 65536) % 256 ≠ TEMPO → e.next flash fuel g = .ok r →
      ∃ init, e.next_steps flash fuel g = .ok (init ++ [r]) := by
    intro fuel e g r hnt h
    by_cases h1 : e.stream (e.index % 65536) % 256 < END
    · by_cases h2 : TEMPO < e.stream ((e.index + 1) % 65536) % 256
      · rw [next_pitch_modifier flash fuel e g h1 h2] at h
        rw [← Except.ok.inj h]
        unfold Endpoint.next_steps
        simp only [Nat.add_zero, h1, if_true, gt_iff_lt, h2]
        exact ⟨_, congrArg Except.ok (List.append_assoc _ [_, _] [_]).symm⟩
      · rw [next_pitch_plain flash fuel e g h1 h2] at h
        rw [← Except.ok.inj h]
        unfold Endpoint.next_steps
        simp only [Nat.add_zero, h1, if_true, gt_iff_lt, h2, if_false]
        exact ⟨_, congrArg Except.ok (List.append_assoc _ [_, _] [_]).symm⟩
    · rw [next_stop flash fuel e g (not_lt.mp h1) hnt] at h
      rw [← Except.ok.inj h]
      obtain ⟨init, hi⟩ := stop_steps_last e g
      refine ⟨init, ?_⟩
      unfold Endpoint.next_steps
      simp only [Nat.add_zero, h1, if_false, hnt]
      rw [hi]
  intro fuel
  induction fuel with
  | zero =>
    intro e g r h
    by_cases h2 : e.stream (e.index % 65536) % 256 = TEMPO
    · rw [next_tempo_zero flash e g h2] at h
      cases h
    · exact terminal 0 e g r h2 h
  | succ n ih =>
    intro e g r h
    by_cases h2 : e.stream (e.index % 65536) % 256 = TEMPO
    · rw [next_tempo flash n e g h2] at h
      obtain ⟨init, hi⟩ := ih _ g r h
      refine ⟨({ e with multiplier := e.stream ((e.index + 1) % 65536) % 256 }, g) ::
        ({ e with multiplier := e.stream ((e.index + 1) % 65536) % 256
                  index := (e.index + 2) % 65536 }, g) :: init, ?_⟩
      rw [Endpoint.next_steps]
      simp only [Nat.add_zero, h2]
      rw [if_neg (by decide : ¬ TEMPO < END)]
      simp only [if_true]
      rw [hi]
      rfl
    · exact terminal (n + 1) e g r h2 h

theorem assign_steps_eq (flash : Int → Nat) (fuel : Nat) (d : StreamFunc) (e : Endpoint)
    (g : Globals) :
    e.assign_steps flash fuel d g
      = match Endpoint.next_steps flash fuel
            { e with stream := d, active := true, duration := DQ, multiplier := d 0 % 256,
                     index := 1 }
            ({ e with stream := d }.stop g).2 with
        | .ok l =>
          .ok (({ e with stream := d }, g) :: Endpoint.stop_steps { e with stream := d } g ++
            [({ e with stream := d, active := true, duration := DQ },
                ({ e with stream := d }.stop g).2),
             ({ e with stream := d, active := true, duration := DQ, multiplier := d 0 % 256 },
                ({ e with stream := d }.stop g).2),
             ({ e with stream := d, active := true, duration := DQ, multiplier := d 0 % 256,
                       index := 1 },
                ({ e with stream := d }.stop g).2)] ++ l)
        | .error f => .error f := by
  unfold Endpoint.assign_steps
  simp only [stop_fst]

theorem assign_steps_last (flash : Int → Nat) (fuel : Nat) (d : StreamFunc) (e : Endpoint)
    (g : Globals) (r : Endpoint × Globals) (h : e.assign flash fuel d g = .ok r) :
    ∃ init, e.assign_steps flash fuel d g = .ok (init ++ [r]) := by
  rw [assign_eq] at h
  obtain ⟨init, hi⟩ := next_steps_last flash fuel _ _ r h
  rw [assign_steps_eq, hi]
  exact ⟨_, congrArg Except.ok (List.append_assoc _ _ _).symm⟩

theorem lift_steps_to (c : CAudio) (i : Fin COUNT) (init : List (Endpoint × Globals))
    (r : Endpoint × Globals) : steps_to c (c.lift i (init ++ [r])) (c.put i r) := by
  unfold CAudio.lift
  refine ⟨?_, ?_⟩
  · rw [List.map_append, List.map_singleton, List.getLastD_concat]
  · intro s hs
    obtain ⟨x, -, rfl⟩ := List.mem_map.mp hs
    exact put_interrupt c i x

theorem stop_lift_steps_to (c : CAudio) (i : Fin COUNT) :
    steps_to c (c.lift i ((c.endpoint i).stop_steps c.globals)) (c.run i Endpoint.stop) := by
  obtain ⟨init, hi⟩ := stop_steps_last (c.endpoint i) c.globals
  rw [hi]
  exact lift_steps_to c i init _

theorem Stop_steps_to (a : CAudio) :
    ∃ rest, a.Stop_steps = a.DisableInterrupt :: rest ∧
      steps_to a.DisableInterrupt rest a.Stop := by
  refine ⟨a.DisableInterrupt.lift 0
      ((a.DisableInterrupt.endpoint 0).stop_steps a.DisableInterrupt.globals) ++
    ((a.DisableInterrupt.run 0 Endpoint.stop).lift 1
      (((a.DisableInterrupt.run 0 Endpoint.stop).endpoint 1).stop_steps
        (a.DisableInterrupt.run 0 Endpoint.stop).globals) ++
    ((a.DisableInterrupt.run 0 Endpoint.stop).run 1 Endpoint.stop).lift 2
      ((((a.DisableInterrupt.run 0 Endpoint.stop).run 1 Endpoint.stop).endpoint 2).stop_steps
        ((a.DisableInterrupt.run 0 Endpoint.stop).run 1 Endpoint.stop).globals)), ?_, ?_⟩
  · unfold CAudio.Stop_steps
    dsimp only
    rw [List.append_assoc, List.append_assoc, List.singleton_append]
  · rw [Stop_eq]
    exact steps_to_append _ _ _ _ _ (stop_lift_steps_to _ 0)
      (steps_to_append _ _ _ _ _ (stop_lift_steps_to _ 1) (stop_lift_steps_to _ 2))

theorem Play_count_steps_to (ds : List StreamFunc) :
    ∀ a : CAudio, steps_to a (CAudio.Play_count_steps ds a) (CAudio.Play_count ds a) := by
  induction ds with
  | nil => intro a; exact steps_to_nil a
  | cons d ds ih =>
    intro a
    rw [CAudio.Play_count_steps, CAudio.Play_count]
    obtain ⟨h1, h2⟩ := ih
      { a with globals := { a.globals with
                 endpoint_count := (a.globals.endpoint_count + 1) % 256 } }
    refine ⟨?_, ?_⟩
    · rw [List.getLastD_cons]; exact h1
    · intro s hs
      rcases List.mem_cons.mp hs with rfl | h
      · rfl
      · exact h2 s h

theorem Play_assign_steps_to (flash : Int → Nat) (fuel : Nat) (ds : List StreamFunc) :
    ∀ (index : Nat) (a b : CAudio), CAudio.Play_assign flash fuel ds index a = .ok b →
      ∃ l, CAudio.Play_assign_steps flash fuel ds index a = .ok l ∧ steps_to a l b := by
  induction ds with
  | nil =>
    intro index a b h
    rw [CAudio.Play_assign] at h
    rw [← Except.ok.inj h]
    exact ⟨[], rfl, steps_to_nil a⟩
  | cons d ds ih =>
    intro index a b h
    rw [CAudio.Play_assign] at h
    by_cases hi : index < COUNT
    · rw [dif_pos hi] at h
      cases hrun : a.runM ⟨index, hi⟩ (Endpoint.assign flash fuel d) with
      | error f => rw [hrun] at h; cases h
      | ok c =>
        rw [hrun] at h
        have hrun' := hrun
        unfold CAudio.runM at hrun'
        cases hr : (a.endpoint ⟨index, hi⟩).assign flash fuel d a.globals with
        | error f => rw [hr] at hrun'; cases hrun'
        | ok r =>
          rw [hr] at hrun'
          have hc : a.put ⟨index, hi⟩ r = c := Except.ok.inj hrun'
          obtain ⟨init, hinit⟩ := assign_steps_last flash fuel d _ _ r hr
          obtain ⟨rest, hrest, hto⟩ := ih _ _ _ h
          refine ⟨a.lift ⟨index, hi⟩ (init ++ [r]) ++ rest, ?_, ?_⟩
          · rw [CAudio.Play_assign_steps, dif_pos hi, hinit, hrun]
            dsimp only
            rw [hrest]
          · exact steps_to_append a c b _ _ (hc ▸ lift_steps_to a ⟨index, hi⟩ init r) hto
    · rw [dif_neg hi] at h; cases h

/-- C20: when `Play` returns `b`, its statements pass through states
`pre ++ [b]`: the first state of `pre` is the entry state with the interrupt
disabled (no endpoint touched yet), every state of `pre` (all the statements
of the three `stop`, of the counting loop and of every `assign`, inside `next`
included) has the interrupt disabled, the last state `c` of `pre` already
holds the final endpoints and shared state, and the last statement only sets
the enable bit: `b = c.EnableInterrupt`. -/
theorem Play_interrupt_window (flash : Int → Nat) (fuel : Nat) (ds : List StreamFunc)
    (a b : CAudio) (h : a.Play flash fuel ds = .ok b) :
    ∃ pre c, a.Play_steps flash fuel ds = .ok (pre ++ [b]) ∧
      pre.head? = some a.DisableInterrupt ∧
      (∀ s ∈ pre, s.interrupt_enabled = false) ∧
      pre.getLast? = some c ∧ b = c.EnableInterrupt ∧
      c.endpoint = b.endpoint ∧ c.globals = b.globals ∧ b.interrupt_enabled = true := by
  unfold CAudio.Play at h
  cases hr : CAudio.Play_assign flash fuel ds 0 (CAudio.Play_count ds a.Stop) with
  | error f => rw [hr] at h; cases h
  | ok c =>
    rw [hr] at h
    have hb : c.EnableInterrupt = b := Except.ok.inj h
    obtain ⟨l, hl, hto3⟩ := Play_assign_steps_to flash fuel ds 0 _ c hr
    obtain ⟨rest, hstop, hto1⟩ := Stop_steps_to a
    have hto2 := Play_count_steps_to ds a.Stop
    obtain ⟨hlast, hint⟩ := steps_to_append _ _ _ _ _ hto1
      (steps_to_append _ _ _ _ _ hto2 hto3)
    refine ⟨a.DisableInterrupt :: (rest ++ (CAudio.Play_count_steps ds a.Stop ++ l)), c,
      ?_, rfl, ?_, ?_, hb.symm, ?_, ?_, ?_⟩
    · unfold CAudio.Play_steps
      rw [hl, hr]
      dsimp only
      rw [hstop, hb]
      simp only [List.cons_append, List.append_assoc]
    · intro s hs
      rcases List.mem_cons.mp hs with rfl | hs'
      · rfl
      · exact hint s hs'
    · rw [List.getLast?_cons, ← List.getLastD_eq_getLast?, hlast]
    · rw [← hb]; rfl
    · rw [← hb]; rfl
    · rw [← hb]; rfl

/-- Witness of C20: `Play` of `[1, NC4, DH, END]` on the idle engine. -/
theorem Play_interrupt_window_witness :
    ∃ b pre c, idle_engine.Play (fun _ => 0) 0 [buffer_stream [1, NC4, DH, END]] = .ok b ∧
      idle_engine.Play_steps (fun _ => 0) 0 [buffer_stream [1, NC4, DH, END]]
        = .ok (pre ++ [b]) ∧
      pre.head? = some idle_engine.DisableInterrupt ∧
      (∀ s ∈ pre, s.interrupt_enabled = false) ∧
      pre.getLast? = some c ∧ b = c.EnableInterrupt ∧
      c.endpoint = b.endpoint ∧ c.globals = b.globals ∧ b.interrupt_enabled = true := by
  obtain ⟨b, hb, -⟩ := play_one_returns (fun _ => 0) 0 (buffer_stream [1, NC4, DH, END]) NC4 DH
    (by decide) (by decide) (by decide) rfl rfl rfl idle_engine
  obtain ⟨pre, c, hw⟩ := Play_interrupt_window (fun _ => 0) 0 _ idle_engine b hb
  exact ⟨b, pre, c, hb, hw⟩

theorem Play_count_count (ds : List StreamFunc) :
    ∀ a : CAudio, (CAudio.Play_count ds a).count = a.count := by
  induction ds with
  | nil => intro a; rfl
  | cons d ds ih => intro a; rw [CAudio.Play_count, ih]

theorem runM_assign_first_note (flash : Int → Nat) (fuel : Nat) (s : StreamFunc) (m P D : Nat)
    (hm : m < 256) (hP : P < END) (hD1 : DTS ≤ D) (hD2 : D ≤ DBLIP) (h0 : s 0 = m)
    (h1 : s 1 = P) (h2 : s 2 = D) (a : CAudio) (i : Fin COUNT) :
    ∃ b, a.runM i (Endpoint.assign flash fuel s) = .ok b ∧ (b.endpoint i).active = true ∧
      (b.endpoint i).index = 3 ∧ (b.endpoint i).stream = s ∧
      (b.endpoint i).ms_remaining = m * audio_duration.getD (D - TEMPO - 1) 0 ∧
      (b.endpoint i).period_remaining = 64000 / audio_note.getD P 0 ∧
      (∀ j, j ≠ i → b.endpoint j = a.endpoint j) ∧ b.count = a.count ∧
      b.interrupt_enabled = a.interrupt_enabled := by
  obtain ⟨e1, ha, hact, hidx, hstr, -, -, hms, hper, hpr⟩ :=
    assign_first_note flash fuel s m P D (a.endpoint i) a.globals hm hP hD1 hD2 h0 h1 h2
  generalize ({ a.endpoint i with stream := s }.stop a.globals).2 = g1 at ha
  refine ⟨a.put i (e1, g1), ?_, ?_, ?_, ?_, ?_, ?_, ?_, rfl, rfl⟩
  · unfold CAudio.runM
    rw [ha]
  · rw [put_endpoint, if_pos rfl]; exact hact
  · rw [put_endpoint, if_pos rfl]; exact hidx
  · rw [put_endpoint, if_pos rfl]; exact hstr
  · rw [put_endpoint, if_pos rfl]; exact hms
  · rw [put_endpoint, if_pos rfl]; exact hpr.trans hper
  · intro j hj
    rw [put_endpoint, if_neg hj]

theorem play_blip_state (flash : Int → Nat) (fuel : Nat) (a : CAudio) (h0 : a.count = 0) :
    ∃ b, a.Play flash fuel [buffer_stream [1, NC4, DBLIP, END]] = .ok b ∧
      single_blip_state 0 b := by
  obtain ⟨b, hrun, hact, hidx, hstr, hms, hpr, hother, hcount, -⟩ :=
    runM_assign_first_note flash fuel (buffer_stream [1, NC4, DBLIP, END]) 1 NC4 DBLIP
      (by decide) (by decide) (by decide) (by decide) rfl rfl rfl
      (CAudio.Play_count [buffer_stream [1, NC4, DBLIP, END]] a.Stop) ⟨0, by decide⟩
  refine ⟨b.EnableInterrupt, ?_, ?_⟩
  · unfold CAudio.Play
    rw [Play_assign_cons_ok flash fuel _ [] 0 _ b (by decide) hrun, CAudio.Play_assign]
  · refine ⟨?_, rfl, hact, ?_, ?_, hidx, ?_, ?_, ?_⟩
    · show b.count = 0
      rw [hcount, Play_count_count, Stop_count, h0]
    · show (b.endpoint 0).ms_remaining = 1
      exact hms
    · show (b.endpoint 0).period_remaining + 0 = 244
      have : (b.endpoint 0).period_remaining = 64000 / audio_note.getD NC4 0 := hpr
      rw [this]; rfl
    · show (b.endpoint 0).stream 3 = END
      have : (b.endpoint 0).stream = buffer_stream [1, NC4, DBLIP, END] := hstr
      rw [this]; rfl
    · show (b.endpoint 1).active = false
      rw [hother 1 (by decide), Play_count_endpoint, Stop_endpoint]
    · show (b.endpoint 2).active = false
      rw [hother 2 (by decide), Play_count_endpoint, Stop_endpoint]

theorem run_tick_inactive (c : CAudio) (i : Fin COUNT) (h : (c.endpoint i).active = false) :
    c.run i Endpoint.tick = c := by
  have ht : (c.endpoint i).tick c.globals = (c.endpoint i, c.globals) := by
    unfold Endpoint.tick
    rw [if_neg (by rw [h]; decide)]
  unfold CAudio.run
  rw [ht]
  apply CAudio_ext
  · show Function.update c.endpoint i (c.endpoint i) = c.endpoint
    exact Function.update_eq_self i c.endpoint
  · rfl
  · rfl
  · rfl

theorem blip_tick_phase (k : Nat) (a : CAudio) (hs : single_blip_state k a) (hk : k ≤ 64) :
    indices.foldl (fun b index => b.run index Endpoint.tick) a
      = a.put 0 ({ a.endpoint 0 with
                   period_remaining := (a.endpoint 0).period_remaining - 1 }, a.globals) := by
  obtain ⟨-, -, hact, -, hpr, -, -, h1, h2⟩ := hs
  rw [tick_all_eq]
  have h0 : a.run 0 Endpoint.tick
      = a.put 0 ({ a.endpoint 0 with
                   period_remaining := (a.endpoint 0).period_remaining - 1 }, a.globals) := by
    unfold CAudio.run
    rw [tick_step (a.endpoint 0) a.globals hact (by omega) (by omega)]
  rw [h0]
  rw [run_tick_inactive _ 1 (by rw [put_endpoint, if_neg (by decide)]; exact h1)]
  rw [run_tick_inactive _ 2 (by rw [put_endpoint, if_neg (by decide)]; exact h2)]

theorem blip_after_ticks (k : Nat) (a : CAudio) (hs : single_blip_state k a) (hk : k ≤ 64) :
    ∃ a1, indices.foldl (fun b index => b.run index Endpoint.tick) a = a1 ∧
      a1.count = k ∧ a1.interrupt_enabled = true ∧ (a1.endpoint 0).active = true ∧
      (a1.endpoint 0).ms_remaining = 1 ∧ (a1.endpoint 0).period_remaining + (k + 1) = 244 ∧
      (a1.endpoint 0).index = 3 ∧ (a1.endpoint 0).stream 3 = END ∧
      (a1.endpoint 1).active = false ∧ (a1.endpoint 2).active = false := by
  have hphase := blip_tick_phase k a hs hk
  obtain ⟨hc, hi, hact, hms, hpr, hidx, hstr, h1, h2⟩ := hs
  refine ⟨_, hphase, hc, hi, ?_, ?_, ?_, ?_, ?_, ?_, ?_⟩
  · rw [put_endpoint, if_pos rfl]; exact hact
  · rw [put_endpoint, if_pos rfl]; exact hms
  · rw [put_endpoint, if_pos rfl]
    show (a.endpoint 0).period_remaining - 1 + (k + 1) = 244
    omega
  · rw [put_endpoint, if_pos rfl]; exact hidx
  · rw [put_endpoint, if_pos rfl]; exact hstr
  · rw [put_endpoint, if_neg (by decide)]; exact h1
  · rw [put_endpoint, if_neg (by decide)]; exact h2

theorem blip_step (flash : Int → Nat) (fuel : Nat) (k : Nat) (a : CAudio)
    (hs : single_blip_state k a) (hk : k < 64) :
    ∃ b, a.InterruptMultipleStreams flash fuel = .ok b ∧ single_blip_state (k + 1) b := by
  obtain ⟨a1, ha1, hc, hi, hact, hms, hpr, hidx, hstr, h1, h2⟩ :=
    blip_after_ticks k a hs (by omega)
  unfold CAudio.InterruptMultipleStreams
  rw [ha1]
  dsimp only
  rw [if_neg (by rw [hc]; simp only [FREQUENCY, Nat.reduceDiv]; omega)]
  refine ⟨_, rfl, ?_, hi, hact, hms, hpr, hidx, hstr, h1, h2⟩
  show (a1.count + 1) % 256 = k + 1
  rw [hc]; omega

theorem blip_dispatch_n (flash : Int → Nat) (fuel : Nat) :
    ∀ (n k : Nat) (a : CAudio), single_blip_state k a → k + n ≤ 64 →
      ∃ b, dispatch_n flash fuel n a = .ok b ∧ single_blip_state (k + n) b := by
  intro n
  induction n with
  | zero => intro k a hs _; exact ⟨a, rfl, hs⟩
  | succ n ih =>
    intro k a hs hle
    obtain ⟨c, hc, hsc⟩ := blip_step flash fuel k a hs (by omega)
    obtain ⟨b, hb, hsb⟩ := ih (k + 1) c hsc (by omega)
    refine ⟨b, ?_, ?_⟩
    · rw [dispatch_n, hc]; exact hb
    · rw [show k + (n + 1) = k + 1 + n by omega]; exact hsb

theorem reachable_dispatch_n (flash : Int → Nat) (fuel : Nat) :
    ∀ (n : Nat) (a b : CAudio), Reachable flash a → dispatch_n flash fuel n a = .ok b →
      Reachable flash b := by
  intro n
  induction n with
  | zero =>
    intro a b hr h
    rw [dispatch_n] at h
    rw [← Except.ok.inj h]; exact hr
  | succ n ih =>
    intro a b hr h
    rw [dispatch_n] at h
    cases hc : a.InterruptMultipleStreams flash fuel with
    | error f => rw [hc] at h; cases h
    | ok c =>
      rw [hc] at h
      exact ih c b (Reachable.dispatch fuel a c hr hc) h

theorem blip_last_dispatch (flash : Int → Nat) (fuel : Nat) (a : CAudio)
    (hs : single_blip_state 64 a) :
    ∃ b, a.InterruptMultipleStreams flash fuel = .ok b ∧
      ∀ i, (b.endpoint i).active = false := by
  obtain ⟨a1, ha1, hc, hi, hact, hms, hpr, hidx, hstr, h1, h2⟩ :=
    blip_after_ticks 64 a hs (le_refl _)
  have htok : (a1.endpoint 0).stream ((a1.endpoint 0).index % 65536) % 256 = END := by
    rw [hidx, show (3 % 65536) = 3 from rfl, hstr]
    decide
  have htock : (a1.endpoint 0).tock flash fuel a1.globals
      = .ok (Endpoint.stop { a1.endpoint 0 with ms_remaining := 0 } a1.globals) := by
    rw [tock_last flash fuel _ _ hact hms]
    exact next_stop flash fuel { a1.endpoint 0 with ms_remaining := 0 } a1.globals
      (le_of_eq htok.symm) (by
        show (a1.endpoint 0).stream ((a1.endpoint 0).index % 65536) % 256 ≠ TEMPO
        rw [htok]; decide)
  have hquiet : ∀ j, ((({ a1 with count := 0 } : CAudio).put 0
      (Endpoint.stop { a1.endpoint 0 with ms_remaining := 0 } a1.globals)).endpoint j).active
        = false := by
    intro j
    rw [put_endpoint]
    rcases fin_COUNT_cases j with rfl | rfl | rfl
    · rw [if_pos rfl, stop_fst]
    · rw [if_neg (by decide)]; exact h1
    · rw [if_neg (by decide)]; exact h2
  obtain ⟨a4, ha4, hq4⟩ := tock_all_quiet flash fuel [1, 2] _ hquiet
  have hall : CAudio.tock_all flash fuel indices { a1 with count := 0 } = .ok a4 := by
    rw [indices_eq, CAudio.tock_all]
    unfold CAudio.runM
    dsimp only
    rw [htock]
    exact ha4
  unfold CAudio.InterruptMultipleStreams
  rw [ha1]
  dsimp only
  rw [if_pos (by rw [hc]; decide), hall]
  dsimp only
  split
  · exact ⟨_, rfl, hq4⟩
  · exact ⟨_, rfl, hq4⟩

/-- Witness of C13: `Play` of `[1, NC4, DBLIP, END]` on the idle engine, then
64 calls, reach a state with `count = 64`, the interrupt enabled and endpoint 0
active; the 65th call passes the millisecond test, its `tock` ends the note,
no endpoint is active afterwards and the call returns with the interrupt
disabled. -/
theorem dispatch_self_disarms_witness :
    ∃ a0 a b, idle_engine.Play (fun _ => 0) 0 [buffer_stream [1, NC4, DBLIP, END]] = .ok a0 ∧
      dispatch_n (fun _ => 0) 0 64 a0 = .ok a ∧
      a.InterruptMultipleStreams (fun _ => 0) 0 = .ok b ∧
      a.count = 64 ∧ FREQUENCY / 1000 ≤ a.count ∧ a.interrupt_enabled = true ∧
      (a.endpoint 0).active = true ∧ (∀ i, (b.endpoint i).active = false) ∧
      b.interrupt_enabled = false ∧ b.IsActive = false ∧ b.count = 0 := by
  obtain ⟨a0, hplay, hs0⟩ := play_blip_state (fun _ => 0) 0 idle_engine rfl
  obtain ⟨a, hrun, hs⟩ := blip_dispatch_n (fun _ => 0) 0 64 0 a0 hs0 (by decide)
  obtain ⟨b, hlast, hquiet⟩ := blip_last_dispatch (fun _ => 0) 0 a hs
  have hreach0 : Reachable (fun _ => 0) a0 :=
    Reachable.play 0 _ idle_engine a0 (Reachable.init idle_engine (by decide)) hplay
  have hreach : Reachable (fun _ => 0) a := reachable_dispatch_n (fun _ => 0) 0 64 a0 a hreach0 hrun
  have hge : FREQUENCY / 1000 ≤ a.count := by rw [hs.1]; decide
  have hw := dispatch_self_disarms (fun _ => 0) 0 a b hreach hlast
  have hcount := InterruptMultipleStreams_count (fun _ => 0) 0 a b hlast
  rw [if_pos hge] at hcount
  exact ⟨a0, a, b, hplay, hrun, hlast, hs.1, hge, hs.2.1, hs.2.2.1, hquiet,
    hw.1 hge hquiet, hw.2.2.2.2.mpr hquiet, hcount⟩

end nAudio
